import Mathlib

/-!
Verification of the `react-flow-editor` interaction and state engine
against its natural-language specification.

The development shallowly embeds the engine's source (`src/unnamed/part_000`,
the editor component, and `src/src/change-api.ts`, the change-action taxonomy)
into Lean:

* the endpoint identity scheme (`EndpointImpl.computeId`,
  `EndpointImpl.extractEndpointInfo`, `computeConnectionId`,
  `extractConnectionFromId`) including the exact leftmost/greedy behaviour of
  the JavaScript regular expression used by the decoder;
* the graph data model (nodes, ports, a `connection` field that is absent, a
  single value, or an array) and the mutating operations
  (`createConnection`, `removeConnection`, `removeFromArrayOrValue`, node
  deletion with its cascade enumeration);
* the propose/confirm/apply dispatch (`onChanged` / `demoMode`);
* the wheel-zoom transformation update (`onWheel`), over ℚ;
* the initial layout planner in `initialState`;
* the connection derivation loop in `render`.

Numbers that the source manipulates as JavaScript numbers are modelled as ℚ
(geometry) or Nat (port indices).  Code paths on which JavaScript would throw
a `TypeError` (property access on `undefined`) or an explicit `Error` are
modelled with `Option`, `none` standing for the exception.
-/

/-! ### Characters and decimal digit strings

`extractEndpointInfo` (part_000 lines 68-73) matches the pattern
`(.+)_(\d+)_(input|output)` against the id.  In JavaScript `\d` is `[0-9]`
and `.` matches every character except the four line terminators. -/

/-- The character class `\d` of the decoder's pattern. -/
def isDigitChar (c : Char) : Bool := 48 ≤ c.toNat && c.toNat ≤ 57

/-- The characters that `.` does not match in a JavaScript pattern:
LF, CR, LINE SEPARATOR, PARAGRAPH SEPARATOR. -/
def isLineTerminator (c : Char) : Bool :=
  c = Char.ofNat 10 || c = Char.ofNat 13 || c = Char.ofNat 8232 || c = Char.ofNat 8233

/-- Numeric value of a decimal digit character. -/
def digitVal (c : Char) : Nat := c.toNat - 48

/-- `parseInt` on a string of decimal digits (part_000 line 72 applies it to
the `(\d+)` capture, which can only hold digits). -/
def digitsToNatFrom (a : Nat) (l : List Char) : Nat :=
  l.foldl (fun acc c => acc * 10 + digitVal c) a

/-- `parseInt` on a string of decimal digits, from zero. -/
def digitsToNat (l : List Char) : Nat := digitsToNatFrom 0 l

/-- The decimal digit character for `d < 10`. -/
def digitChar (d : Nat) : Char := Char.ofNat (48 + d)

/-- Decimal representation of a natural number, with explicit fuel so that the
definition is structural (the fuel `n + 1` always suffices). -/
def natReprFuel : Nat → Nat → List Char
  | 0, _ => []
  | fuel + 1, n =>
    if n < 10 then [digitChar n]
    else natReprFuel fuel (n / 10) ++ [digitChar (n % 10)]

/-- The decimal string JavaScript interpolates for a (natural) number, as in
the template literal of `computeId` (part_000 line 61). -/
def natRepr (n : Nat) : List Char := natReprFuel (n + 1) n

/-! ### Endpoint identity: encoding

`EndpointImpl.computeId` (part_000 lines 60-62) renders
`` `${nodeId}_${connectionId}_${kind}` ``; `computeIdIn` (lines 64-66) is the
same template applied to an endpoint's fields. -/

/-- The two endpoint kinds. -/
inductive EKind where
  | input
  | output
deriving DecidableEq

/-- The characters a kind interpolates into the id template. -/
def kindChars : EKind → List Char
  | .input => ['i', 'n', 'p', 'u', 't']
  | .output => ['o', 'u', 't', 'p', 'u', 't']

/-- `EndpointImpl.computeId` at the level of character lists. -/
def computeIdList (nodeId : List Char) (port : Nat) (kind : EKind) : List Char :=
  nodeId ++ '_' :: (natRepr port ++ '_' :: kindChars kind)

/-- `EndpointImpl.computeId(nodeId, connectionId, kind)`. -/
def computeId (nodeId : String) (port : Nat) (kind : EKind) : String :=
  String.mk (computeIdList nodeId.data port kind)

/-- An `Endpoint` value (part_000 lines 44-51): the identity triple plus the
optional decoration fields the render code attaches. -/
structure EndpointM where
  nodeId : String
  port : Nat
  kind : EKind
  additionalClassName : Option (List String)
  notes : Option String
  name : Option String
deriving DecidableEq

/-- `EndpointImpl.computeIdIn(conn)` (part_000 lines 64-66). -/
def computeIdIn (e : EndpointM) : String := computeId e.nodeId e.port e.kind

/-! ### Endpoint identity: decoding

`extractEndpointInfo` runs `/(.+)_(\d+)_(input|output)/g` with `exec` and
throws if there is no match.  `exec` looks for the leftmost match; at a given
start position the backtracking engine first maximises `(.+)` (greedy), after
which the rest of the pattern is deterministic: `(\d+)` must take the maximal
digit run (a shorter run would have to be followed by `_`, but the next
character is a digit), and the alternatives `input`/`output` are
distinguished by their first character.  The functions below implement
exactly that search order. -/

/-- Does `l` start with `p`? -/
def listStartsWith : List Char → List Char → Bool
  | _, [] => true
  | [], _ :: _ => false
  | a :: l, b :: p => a = b && listStartsWith l p

/-- Matching the tail alternative `(input|output)` as a prefix of `l`
(`input` is tried first, as in the pattern). -/
def kindPrefixOf (l : List Char) : Option EKind :=
  if listStartsWith l (kindChars .input) then some .input
  else if listStartsWith l (kindChars .output) then some .output
  else none

/-- Matching `(\d+)_(input|output)` as a prefix of `r`. -/
def tryTail (r : List Char) : Option (Nat × EKind) :=
  let d := r.takeWhile isDigitChar
  if d.isEmpty then none
  else
    match r.drop d.length with
    | '_' :: rest => (kindPrefixOf rest).map (fun k => (digitsToNat d, k))
    | _ => none

/-- One candidate split for `(.+)_` at length `m`: the first `m` characters
are the `(.+)` capture (so none of them may be a line terminator), character
`m` must be `_`, and the remainder must start with `(\d+)_(input|output)`. -/
def validSplit (t : List Char) (m : Nat) : Option (List Char × Nat × EKind) :=
  if 1 ≤ m && (t.take m).all (fun c => !isLineTerminator c) && t.get? m == some '_' then
    (tryTail (t.drop (m + 1))).map (fun pk => (t.take m, pk.1, pk.2))
  else none

/-- Greedy `(.+)`: try the split lengths `m, m-1, …, 1` in that order. -/
def findBestM (t : List Char) : Nat → Option (List Char × Nat × EKind)
  | 0 => none
  | m + 1 =>
    match validSplit t (m + 1) with
    | some r => some r
    | none => findBestM t m

/-- Leftmost match: try each start position of the subject in order. -/
def execList : List Char → Option (List Char × Nat × EKind)
  | [] => none
  | c :: rest =>
    match findBestM (c :: rest) (c :: rest).length with
    | some r => some r
    | none => execList rest

/-- `EndpointImpl.extractEndpointInfo(id)` (part_000 lines 68-73); `none` is
the thrown `Error` for an id with no match. -/
def extractEndpointInfo (id : String) : Option EndpointM :=
  (execList id.data).map (fun r => ⟨String.mk r.1, r.2.1, r.2.2, none, none, none⟩)

/-! ### Connection ids -/

/-- `computeConnectionId(input, output)` (part_000 lines 79-81):
`` `${computeIdIn(input)}__${computeIdIn(output)}` ``. -/
def computeConnectionId (input output : EndpointM) : String :=
  String.mk ((computeIdIn input).data ++ '_' :: '_' :: (computeIdIn output).data)

/-- `id.indexOf('__')`: index of the first occurrence of two consecutive
underscores, `none` when there is none. -/
def firstSepIdx : List Char → Option Nat
  | [] => none
  | a :: l =>
    match l with
    | [] => none
    | b :: _ =>
      if a = '_' && b = '_' then some 0
      else (firstSepIdx l).map (· + 1)

/-- `extractConnectionFromId(id)` (part_000 lines 86-91): split at the first
`__`, decode each half.  When `indexOf` returns `-1` the first half is the
empty string, whose decoding throws, hence `none`. -/
def extractConnectionFromId (id : String) : Option (EndpointM × EndpointM) :=
  match firstSepIdx id.data with
  | some q => do
    let i ← extractEndpointInfo (String.mk (id.data.take q))
    let o ← extractEndpointInfo (String.mk (id.data.drop (q + 2)))
    pure (i, o)
  | none => none

/-! ### Graph data model

Types from `src/types.ts` as used by the editor: a `Connection` is a
reference `{nodeId, port}` optionally decorated with `classNames`/`notes`
(the render loop reads both, part_000 lines 844-852); a port's `connection`
field is absent, a single `Connection`, or an array of them. -/

/-- A stored connection reference. -/
structure Conn where
  nodeId : String
  port : Nat
  classNames : Option (List String)
  notes : Option String
deriving DecidableEq

/-- The three shapes of a port's `connection` field:
`undefined`, a single `Connection`, or a `Connection[]`. -/
inductive ConnVal where
  | undef
  | single (c : Conn)
  | arr (cs : List Conn)
deriving DecidableEq

/-- A port.  Fields that only feed rendering (`types`, `renderer`) are not
modelled; the engine's state claims depend on `name` and `connection` only. -/
structure PortM where
  name : String
  connection : ConnVal
deriving DecidableEq

/-- A 2-d point (JavaScript numbers modelled as ℚ). -/
structure V2 where
  x : ℚ
  y : ℚ
deriving DecidableEq

/-- A node from the host-supplied list. -/
structure NodeM where
  id : String
  name : String
  position : Option V2
  isCollapsed : Option Bool
  inputs : List PortM
  outputs : List PortM
deriving DecidableEq

/-- The host configuration slots the engine branches on: whether
`config.onChanged` is registered, `config.demoMode`, `config.disableZoom`,
and the optional `config.connectionValidator`. -/
structure ConfigM where
  hasOnChanged : Bool
  demoMode : Bool
  disableZoom : Bool
  connectionValidator : Option (EndpointM → EndpointM → Bool)

/-- `compareConnections` (part_000 line 14):
`a.port === b.port && a.nodeId === b.nodeId`. -/
def compareConnections (a b : Conn) : Bool :=
  a.port == b.port && a.nodeId == b.nodeId

/-- `isEmptyArrayOrUndefined` (part_000 lines 93-95). -/
def isEmptyArrayOrUndefined : ConnVal → Bool
  | .undef => true
  | .arr [] => true
  | _ => false

/-- The local `isArrayOrUndefined` of `createConnection` (part_000
lines 352-354). -/
def isArrayOrUndefined : ConnVal → Bool
  | .undef => true
  | .arr _ => true
  | .single _ => false

/-- The list of references a `connection` field holds. -/
def connListOf : ConnVal → List Conn
  | .undef => []
  | .single c => [c]
  | .arr cs => cs

/-- `filterIfArray` (part_000 lines 104-109): `input.find(predicate)` on an
array (which may be `undefined` when nothing matches), the value itself
otherwise — in particular `undefined` stays `undefined`. -/
def filterIfArray (v : ConnVal) (p : Conn → Bool) : Option Conn :=
  match v with
  | .arr cs => cs.find? p
  | .single c => some c
  | .undef => none

/-- `nodeIdPredicate` (part_000 line 97).  On `undefined` the source would
dereference `connection.nodeId` and throw; both call sites skip empty or
undefined connections first, so that branch is unreachable there. -/
def nodeIdPredicateB (v : ConnVal) (n : NodeM) : Bool :=
  match v with
  | .arr cs => cs.any (fun c => c.nodeId == n.id)
  | .single c => n.id == c.nodeId
  | .undef => false

/-- The inner comparator of `epPredicate` (part_000 line 100):
`(port === undefined || testee.port === port) && testee.nodeId === nodeId`. -/
def compEp (nodeId : String) (port? : Option Nat) (c : Conn) : Bool :=
  (match port? with
   | none => true
   | some q => c.port == q) && c.nodeId == nodeId

/-- `epPredicate` (part_000 lines 99-102).  When the port's `connection` is
`undefined` the comparator dereferences `undefined` and throws (`none`). -/
def epPredicateO (nodeId : String) (port? : Option Nat) (p : PortM) : Option Bool :=
  match p.connection with
  | .arr cs => some (cs.any (compEp nodeId port?))
  | .single c => some (compEp nodeId port? c)
  | .undef => none

/-! ### Port mutation helpers -/

/-- In-place update of one list entry (JavaScript `l[i] = …`); out-of-range
indices are left alone — the source throws before reaching such a write, so
the branch is unreachable on the paths modelled here. -/
def listModify : List α → Nat → (α → α) → List α
  | [], _, _ => []
  | a :: l, 0, f => f a :: l
  | a :: l, i + 1, f => a :: listModify l i f

/-- `nodes.find(node => node.id === id)`. -/
def findNode (nodes : List NodeM) (id : String) : Option NodeM :=
  nodes.find? (fun n => n.id == id)

/-- `array.findIndex(p)` (`none` for `-1`). -/
def listFindIdx (p : α → Bool) : List α → Option Nat
  | [] => none
  | a :: l => if p a then some 0 else (listFindIdx p l).map (· + 1)

/-- `nodes.findIndex(node => node.id === id)` (`none` for `-1`). -/
def findNodeIdx (nodes : List NodeM) (id : String) : Option Nat :=
  listFindIdx (fun n => n.id == id) nodes

/-- Mutate the first node with the given id (the object `nodes.find`
returns) in place. -/
def updateFirstNode : List NodeM → String → (NodeM → NodeM) → List NodeM
  | [], _, _ => []
  | n :: rest, id, f =>
    if n.id == id then f n :: rest else n :: updateFirstNode rest id f

/-- `inputNode.inputs[j].connection = f(…)` on the first node with this id. -/
def modifyInputConn (nodes : List NodeM) (id : String) (j : Nat)
    (f : ConnVal → ConnVal) : List NodeM :=
  updateFirstNode nodes id (fun n =>
    { n with inputs := listModify n.inputs j (fun p => { p with connection := f p.connection }) })

/-- `outputNode.outputs[j].connection = f(…)` on the first node with this id. -/
def modifyOutputConn (nodes : List NodeM) (id : String) (j : Nat)
    (f : ConnVal → ConnVal) : List NodeM :=
  updateFirstNode nodes id (fun n =>
    { n with outputs := listModify n.outputs j (fun p => { p with connection := f p.connection }) })

/-- Reading `nodes.find(id).inputs[j].connection`. -/
def inputConnAt (nodes : List NodeM) (id : String) (j : Nat) : Option ConnVal :=
  (findNode nodes id).bind (fun n => (n.inputs.get? j).map (fun p => p.connection))

/-- Reading `nodes.find(id).outputs[j].connection`. -/
def outputConnAt (nodes : List NodeM) (id : String) (j : Nat) : Option ConnVal :=
  (findNode nodes id).bind (fun n => (n.outputs.get? j).map (fun p => p.connection))

/-! ### removeFromArrayOrValue / removeConnection -/

/-- `value.findIndex(compareConnections(toRemove))`. -/
def findRemoveIdx (cs : List Conn) (t : Conn) : Option Nat :=
  listFindIdx (compareConnections t) cs

/-- `Editor.removeFromArrayOrValue` (part_000 lines 317-334): a non-array
value becomes `undefined` unconditionally; from an array the first entry
matching `compareConnections` is spliced out (when `toRemove` is itself an
array only its first element is processed, and an empty `toRemove` array
falls through the loop, returning `undefined`). -/
def removeFromArrayOrValue (v : ConnVal) (toRemove : Sum Conn (List Conn)) : ConnVal :=
  match v with
  | .undef => .undef
  | .single _ => .undef
  | .arr cs =>
    match toRemove with
    | .inl t =>
      match findRemoveIdx cs t with
      | none => .arr cs
      | some k => .arr (cs.eraseIdx k)
    | .inr ts =>
      match ts with
      | [] => .undef
      | t :: _ =>
        match findRemoveIdx cs t with
        | none => .arr cs
        | some k => .arr (cs.eraseIdx k)

/-- `Editor.removeConnection(input, output)` (part_000 lines 335-345): drop
`{output.nodeId, output.port}` from the input node's port, then
`{input.nodeId, input.port}` from the output node's port. -/
def removeConnection (nodes : List NodeM) (input output : EndpointM) : List NodeM :=
  let ns1 := modifyInputConn nodes input.nodeId input.port
    (fun v => removeFromArrayOrValue v (Sum.inl ⟨output.nodeId, output.port, none, none⟩))
  modifyOutputConn ns1 output.nodeId output.port
    (fun v => removeFromArrayOrValue v (Sum.inl ⟨input.nodeId, input.port, none, none⟩))

/-! ### The propose/confirm/apply dispatch

Each mutation site builds an action and an `apply` closure.  The sites for
`ConnectionCreated` (lines 385-390), `NodeCollapseChanged` (lines 208-213),
`ConnectionRemoved` (lines 403-405), `NodeRemoved` (lines 457-460) and
`NodeCreated` (lines 996-1002) all follow the same pattern: call
`config.onChanged(action, apply)` when the hook is registered, and call
`apply()` directly when no hook is registered **or** `config.demoMode` is
set.  The `NodeMoved` site (lines 231-234) and the `TransformationChanged`
sites (lines 238-244, 499-502) pass a no-op `apply` and never call it
themselves; their state change happens unconditionally via `setState`. -/

/-- Which of the two calls a dispatch site performs. -/
structure DispatchBehavior where
  hookCalled : Bool
  engineApplies : Bool
deriving DecidableEq

/-- The dispatch of the five sites with a self-apply branch. -/
def standardDispatch (cfg : ConfigM) : DispatchBehavior :=
  ⟨cfg.hasOnChanged, cfg.demoMode || !cfg.hasOnChanged⟩

/-- The dispatch of `NodeMoved` / `TransformationChanged`: notify only. -/
def notifyOnlyDispatch (cfg : ConfigM) : DispatchBehavior :=
  ⟨cfg.hasOnChanged, false⟩

/-- Run one dispatch: the emitted action (if the hook is called) and the
resulting state (applied exactly when the engine invokes `apply` itself). -/
def runDispatch (b : DispatchBehavior) (act : α) (applied unchanged : σ) : Option α × σ :=
  (if b.hookCalled then some act else none, if b.engineApplies then applied else unchanged)

/-! ### createConnection -/

/-- `l.push(c)` / `= [c]` from the `updateProps` closure of
`createConnection` (part_000 lines 370-384): push onto an existing array,
otherwise replace the value by a one-element array. -/
def pushConn (v : ConnVal) (c : Conn) : ConnVal :=
  match v with
  | .arr cs => .arr (cs ++ [c])
  | _ => .arr [c]

/-- The `updateProps` closure of `createConnection` (part_000 lines
370-384): store `{outputNode.id, output.port}` on the input port, then
`{inputNode.id, input.port}` on the output port. -/
def applyConnectionCreated (nodes : List NodeM) (input output : EndpointM) : List NodeM :=
  let ns1 := modifyInputConn nodes input.nodeId input.port
    (fun v => pushConn v ⟨output.nodeId, output.port, none, none⟩)
  modifyOutputConn ns1 output.nodeId output.port
    (fun v => pushConn v ⟨input.nodeId, input.port, none, none⟩)

/-- `Editor.createConnection` (part_000 lines 347-391).  Result: `none` when
the source would throw (endpoint node or port not found at the moment its
port data is first dereferenced), otherwise the action handed to
`config.onChanged` (if any) and the resulting node list.  The three guards
are evaluated in source order, with the `||` of the occupancy guard
short-circuiting before the output side is dereferenced. -/
def createConnection (cfg : ConfigM) (nodes : List NodeM) (input output : EndpointM) :
    Option (Option (EndpointM × EndpointM) × List NodeM) :=
  if input.kind = output.kind then some (none, nodes)
  else
    match findNode nodes input.nodeId with
    | none => none
    | some inputNode =>
      match inputNode.inputs.get? input.port with
      | none => none
      | some inPort =>
        if !isArrayOrUndefined inPort.connection then some (none, nodes)
        else
          match findNode nodes output.nodeId with
          | none => none
          | some outputNode =>
            match outputNode.outputs.get? output.port with
            | none => none
            | some outPort =>
              if !isArrayOrUndefined outPort.connection then some (none, nodes)
              else
                if (match cfg.connectionValidator with
                    | some v => !v output input
                    | none => false) then some (none, nodes)
                else
                  some (runDispatch (standardDispatch cfg) (input, output)
                    (applyConnectionCreated nodes input output) nodes)

/-- The conjunction of `createConnection`'s three guards (with both
endpoints resolvable): kinds differ, both ports hold an array or
`undefined`, and the optional validator approves `(output, input)`. -/
def createConnectionOk (cfg : ConfigM) (nodes : List NodeM)
    (input output : EndpointM) : Bool :=
  !(input.kind == output.kind) &&
  (match findNode nodes input.nodeId with
   | none => false
   | some n =>
     match n.inputs.get? input.port with
     | none => false
     | some p => isArrayOrUndefined p.connection) &&
  (match findNode nodes output.nodeId with
   | none => false
   | some n =>
     match n.outputs.get? output.port with
     | none => false
     | some p => isArrayOrUndefined p.connection) &&
  (match cfg.connectionValidator with
   | some v => v output input
   | none => true)

/-- Does the connection field hold a reference to `(nodeId, port)`? -/
def connValContains (v : ConnVal) (nodeId : String) (port : Nat) : Bool :=
  (connListOf v).any (fun c => c.nodeId == nodeId && c.port == port)

/-- The `ConnectionRemoved` branch of `onKeyDown` (part_000 lines 400-405):
action `{input, output, type, id}`, apply `removeConnection`. -/
def connectionRemovedDispatch (cfg : ConfigM) (nodes : List NodeM)
    (input output : EndpointM) : Option (EndpointM × EndpointM) × List NodeM :=
  runDispatch (standardDispatch cfg) (input, output)
    (removeConnection nodes input output) nodes

/-- `Editor.toggleExpandNode` (part_000 lines 199-213): `desiredState` is
`!nodeState.isCollapsed` when that field is defined, otherwise
`!node.isCollapsed` (`!undefined` evaluating to `true`); the hook, when
registered, receives `{type: 'NodeCollapseChanged', id, shouldBeCollapsed}`
together with the `updateState` continuation, and the engine itself runs
`updateState` (storing `desiredState` into `nodesState`) when no hook is
registered or `config.demoMode` is set (`config.onChanged === undefined ||
config.demoMode`).  Result: the action handed to the hook (if any), how many
times the engine itself invoked the continuation, and the stored
`isCollapsed` after the handler returns. -/
def toggleExpandNodeSite (cfg : ConfigM) (id : String)
    (nodeCollapsed nodeStateCollapsed : Option Bool) :
    Option (String × Bool) × Nat × Option Bool :=
  let desiredState :=
    match nodeStateCollapsed with
    | some b => !b
    | none =>
      match nodeCollapsed with
      | some b => !b
      | none => true
  (if cfg.hasOnChanged then some (id, desiredState) else none,
   if !cfg.hasOnChanged || cfg.demoMode then 1 else 0,
   if !cfg.hasOnChanged || cfg.demoMode then some desiredState else nodeStateCollapsed)

/-- The `NodeCreated` dispatch of `createNewNode` (part_000 lines 989-1003):
`updateProps` pushes the new node onto `props.nodes`; the hook, when
registered, receives `{type: 'NodeCreated', node}` together with
`updateProps`, and the engine itself runs `updateProps` when
`config.demoMode` is set or no hook is registered (`config.demoMode ||
config.onChanged === undefined`).  Result: the action handed to the hook
(if any), how many times the engine itself invoked the continuation, and
the node list after the handler returns. -/
def createNewNodeSite (cfg : ConfigM) (nodes : List NodeM) (node : NodeM) :
    Option NodeM × Nat × List NodeM :=
  (if cfg.hasOnChanged then some node else none,
   if cfg.demoMode || !cfg.hasOnChanged then 1 else 0,
   if cfg.demoMode || !cfg.hasOnChanged then nodes ++ [node] else nodes)

/-- The `NodeMoved` branch of `Editor.onDragEnded` (part_000 lines 220-234):
the node's position is mutated (`nodeState.pos.x += dx; …y += dy`) and
`setState` run before any dispatch; the continuation handed to the hook is
`() => {}` and no branch of the handler invokes it.  Result: the action
handed to the hook (if any), how many times the engine invoked the
continuation, and the position after the handler returns. -/
def onDragEndedSite (cfg : ConfigM) (id : String) (pos : V2) (dx dy : ℚ) :
    Option (String × V2) × Nat × V2 :=
  (if cfg.hasOnChanged then some (id, ⟨pos.x + dx, pos.y + dy⟩) else none,
   0,
   ⟨pos.x + dx, pos.y + dy⟩)

/-! ### Node deletion (cascade enumeration), part_000 lines 407-461 -/

/-- `{kind: 'input', nodeId, port}` as pushed by the deletion loops. -/
def mkInEp (nodeId : String) (port : Nat) : EndpointM :=
  ⟨nodeId, port, .input, none, none, none⟩

/-- `{kind: 'output', nodeId, port}` as pushed by the deletion loops. -/
def mkOutEp (nodeId : String) (port : Nat) : EndpointM :=
  ⟨nodeId, port, .output, none, none, none⟩

/-- `ports.map((v,i)=>({v,i})).filter(o => epPredicate(nodeId)(o.v)).map(o=>o.i)`
starting at index `k`; `none` when `epPredicate` throws on some port. -/
def filterIdxsGo (nodeId : String) (k : Nat) : List PortM → Option (List Nat)
  | [] => some []
  | p :: rest => do
    let b ← epPredicateO nodeId none p
    let t ← filterIdxsGo nodeId (k + 1) rest
    pure (if b then k :: t else t)

/-- The peer-port index scan of the deletion loops. -/
def filterIdxsO (nodeId : String) (ports : List PortM) : Option (List Nat) :=
  filterIdxsGo nodeId 0 ports

/-- Inner loop over `peerNodes` for one input port `i` of the node being
deleted (part_000 lines 418-429): for each peer, every output of the peer
referencing the deleted node yields one `{input, output}` pair. -/
def peerPairsFromInput (ndId : String) (i : Nat) :
    List NodeM → Option (List (EndpointM × EndpointM))
  | [] => some []
  | peer :: rest => do
    let idxs ← filterIdxsO ndId peer.outputs
    let t ← peerPairsFromInput ndId i rest
    pure (idxs.map (fun o => (mkInEp ndId i, mkOutEp peer.id o)) ++ t)

/-- The loop over the deleted node's inputs (part_000 lines 413-430); the
index advances on every iteration (`++inputIndex` runs before the
`continue`). -/
def enumInputsGo (nodes : List NodeM) (ndId : String) (i : Nat) :
    List PortM → Option (List (EndpointM × EndpointM))
  | [] => some []
  | p :: rest =>
    if isEmptyArrayOrUndefined p.connection then enumInputsGo nodes ndId (i + 1) rest
    else do
      let prs ← peerPairsFromInput ndId i (nodes.filter (nodeIdPredicateB p.connection))
      let t ← enumInputsGo nodes ndId (i + 1) rest
      pure (prs ++ t)

/-- Inner loop over `peerNodes` for one output port `o` of the node being
deleted (part_000 lines 436-448). -/
def peerPairsFromOutput (ndId : String) (o : Nat) :
    List NodeM → Option (List (EndpointM × EndpointM))
  | [] => some []
  | peer :: rest => do
    let idxs ← filterIdxsO ndId peer.inputs
    let t ← peerPairsFromOutput ndId o rest
    pure (idxs.map (fun j => (mkInEp peer.id j, mkOutEp ndId o)) ++ t)

/-- The loop over the deleted node's outputs (part_000 lines 432-449). -/
def enumOutputsGo (nodes : List NodeM) (ndId : String) (o : Nat) :
    List PortM → Option (List (EndpointM × EndpointM))
  | [] => some []
  | p :: rest =>
    if isEmptyArrayOrUndefined p.connection then enumOutputsGo nodes ndId (o + 1) rest
    else do
      let prs ← peerPairsFromOutput ndId o (nodes.filter (nodeIdPredicateB p.connection))
      let t ← enumOutputsGo nodes ndId (o + 1) rest
      pure (prs ++ t)

/-- `correspondingConnections` for the deletion of `nd`: the pairs from the
inputs loop followed by the pairs from the outputs loop. -/
def enumeratePairs (nodes : List NodeM) (nd : NodeM) :
    Option (List (EndpointM × EndpointM)) := do
  let a ← enumInputsGo nodes nd.id 0 nd.inputs
  let b ← enumOutputsGo nodes nd.id 0 nd.outputs
  pure (a ++ b)

/-- The `NodeRemoved` branch of `onKeyDown` (part_000 lines 407-461): find
the node, enumerate `correspondingConnections`, and in `updateProps` remove
each of them with `removeConnection`, then splice the node out.  `none` when
the id is not in the list (the source dereferences `nodes[-1]`) or the
enumeration throws. -/
def removeNodeOp (nodes : List NodeM) (id : String) :
    Option (List (EndpointM × EndpointM) × List NodeM) :=
  match findNodeIdx nodes id with
  | none => none
  | some idx =>
    match nodes.get? idx with
    | none => none
    | some nd => do
      let prs ← enumeratePairs nodes nd
      let applied := prs.foldl (fun acc pr => removeConnection acc pr.1 pr.2) nodes
      pure (prs, applied.eraseIdx idx)

/-- The `NodeRemoved` dispatch (part_000 lines 457-460). -/
def nodeRemovedDispatch (cfg : ConfigM) (nodes : List NodeM) (id : String) :
    Option (Option (String × List (EndpointM × EndpointM)) × List NodeM) :=
  match removeNodeOp nodes id with
  | none => none
  | some (prs, applied) =>
    some (runDispatch (standardDispatch cfg) (id, prs) applied nodes)

/-! ### Engine operation sequences (for the arity invariant) -/

/-- One user-triggered structural operation. -/
inductive EngineOp where
  | create (input output : EndpointM)
  | removeConn (input output : EndpointM)
  | removeNode (id : String)

/-- The state reached after one operation; an operation on which the source
throws before mutating leaves the state unchanged. -/
def applyOp (cfg : ConfigM) (nodes : List NodeM) : EngineOp → List NodeM
  | .create i o =>
    match createConnection cfg nodes i o with
    | some (_, ns) => ns
    | none => nodes
  | .removeConn i o => (connectionRemovedDispatch cfg nodes i o).2
  | .removeNode id =>
    match nodeRemovedDispatch cfg nodes id with
    | some (_, ns) => ns
    | none => nodes

/-- Run a sequence of operations. -/
def runOps (cfg : ConfigM) (nodes : List NodeM) (ops : List EngineOp) : List NodeM :=
  ops.foldl (applyOp cfg) nodes

/-! ### Wheel zoom (part_000 lines 484-503) -/

/-- The pan/zoom transformation `{dx, dy, zoom}`. -/
structure TransformM where
  dx : ℚ
  dy : ℚ
  zoom : ℚ
deriving DecidableEq

/-- `Math.pow(1.25, Math.sign(e.deltaY))`. -/
def zoomFactorOf (deltaY : ℚ) : ℚ :=
  if 0 < deltaY then 5 / 4 else if deltaY < 0 then 4 / 5 else 1

/-- The new transformation computed by `onWheel` (part_000 lines 487-496):
`zoom' = zoom * factor`, `dx' = cx * (zoom - zoom') + dx`,
`dy' = cy * (zoom - zoom') + dy`. -/
def wheelTransform (pt : TransformM) (deltaY cx cy : ℚ) : TransformM :=
  let zoom := pt.zoom * zoomFactorOf deltaY
  ⟨cx * (pt.zoom - zoom) + pt.dx, cy * (pt.zoom - zoom) + pt.dy, zoom⟩

/-- `Editor.onWheel` (part_000 lines 484-503): guarded by `ctrlKey` and
`config.disableZoom`; the new transformation is applied unconditionally via
`setState`, and `config.onChanged` (when registered) receives a
`TransformationChanged` action with a no-op `apply`.  Result: the
transformation in effect afterwards and whether the hook was called. -/
def onWheel (cfg : ConfigM) (ctrlKey : Bool) (pt : TransformM)
    (deltaY cx cy : ℚ) : TransformM × Bool :=
  if ctrlKey then (pt, false)
  else if cfg.disableZoom then (pt, false)
  else (wheelTransform pt deltaY cx cy, (notifyOnlyDispatch cfg).hookCalled)

/-- The model-space coordinate that the transformation maps to screen
coordinate `c` (the nodes container is rendered with
`transform: matrix(zoom,0,0,zoom,dx,dy)`, i.e. `screen = model·zoom + d`). -/
def modelCoord (zoom d c : ℚ) : ℚ := (c - d) / zoom

/-! ### Initial layout (part_000 lines 147-187) -/

/-- Modelled from the spec: `Rect` comes from `./geometry`, which is not
part of the sources; per the spec's layout-planner section a rectangle
carries a position and size, `right` is its far edge, `top` its vertical
coordinate, and `hit` tests whether a point falls inside it. -/
structure RectM where
  pos : V2
  size : V2
deriving DecidableEq

/-- Modelled from the spec: the rectangle's right edge. -/
def RectM.right (r : RectM) : ℚ := r.pos.x + r.size.x

/-- Modelled from the spec: the rectangle's top. -/
def RectM.top (r : RectM) : ℚ := r.pos.y

/-- Modelled from the spec: `place.hit(pos)` — the point falls inside the
rectangle. -/
def RectM.hit (r : RectM) (p : V2) : Bool :=
  r.pos.x ≤ p.x && p.x ≤ r.pos.x + r.size.x && r.pos.y ≤ p.y && p.y ≤ r.pos.y + r.size.y

/-- One iteration of the candidate-adjustment loop (part_000 lines 161-165):
`if (place.hit(pos)) pos.x = place.right + margin.x; pos.y = place.top;` —
note that only the `x` update is guarded by the hit test. -/
def layoutStep (p : V2) (r : RectM) : V2 :=
  ⟨if r.hit p then r.right + 100 else p.x, r.top⟩

/-- The candidate position after scanning all previously used rectangles. -/
def layoutPlace (used : List RectM) (p0 : V2) : V2 :=
  used.foldl layoutStep p0

/-- The node-placement loop of `initialState` (part_000 lines 152-169):
margin `{100,100}`, base candidate `{10+margin.x, 10+margin.y}`, constant
size `{100,100}`; nodes with a `position` keep it; every placed node pushes
its rectangle onto `usedPlace`; a node whose id was already placed is
skipped. -/
def initialLayoutGo (used : List RectM) (seen : List String) :
    List NodeM → List (String × V2)
  | [] => []
  | n :: rest =>
    if seen.contains n.id then initialLayoutGo used seen rest
    else
      let pos :=
        match n.position with
        | some p => p
        | none => layoutPlace used ⟨110, 110⟩
      (n.id, pos) :: initialLayoutGo (used ++ [⟨pos, ⟨100, 100⟩⟩]) (n.id :: seen) rest

/-- The positions `initialState` assigns, in host order. -/
def initialLayout (nodes : List NodeM) : List (String × V2) :=
  initialLayoutGo [] [] nodes

/-- Reading one node's entry out of the computed layout. -/
def lookupId : List (String × V2) → String → Option V2
  | [], _ => none
  | e :: rest, id => if e.1 == id then some e.2 else lookupId rest id

/-! ### Connection derivation in render (part_000 lines 820-884) -/

/-- The `nodeDict` map (part_000 lines 822-825): `set` in list order, so a
later node with the same id overwrites an earlier one. -/
def dictLookup (nodes : List NodeM) (id : String) : Option NodeM :=
  nodes.foldl (fun acc n => if n.id == id then some n else acc) none

/-- One derived `{out, in}` pair. -/
structure DerivedPair where
  outEp : EndpointM
  inEp : EndpointM
deriving DecidableEq

/-- The array branch of the derivation loop (part_000 lines 831-856): for
each reference, resolve the peer in `nodeDict` (skip when absent), read
`opponentNode.outputs[connection.port].connection` (throws when the port
does not exist), pick the back-reference with `filterIfArray` (dereferencing
its `classNames` throws when it is `undefined`), and emit one pair whose
input port is the loop counter `i`. -/
def deriveArrGo (nodes : List NodeM) (nd : NodeM) (i : Nat) :
    List Conn → Option (List DerivedPair)
  | [] => some []
  | c :: rest =>
    match dictLookup nodes c.nodeId with
    | none => deriveArrGo nodes nd i rest
    | some opp =>
      match opp.outputs.get? c.port with
      | none => none
      | some oppPort =>
        match filterIfArray oppPort.connection (fun x => x.nodeId == nd.id) with
        | none => none
        | some oppConn => do
          let t ← deriveArrGo nodes nd i rest
          pure (⟨⟨c.nodeId, c.port, .output, oppConn.classNames, oppConn.notes, none⟩,
                 ⟨nd.id, i, .input, c.classNames, c.notes, none⟩⟩ :: t)

/-- The loop over one node's input ports (part_000 lines 828-884).  The
counter `i` is incremented at the end of the loop body (line 882), so every
`continue` — `connection === undefined` (line 830), a single reference whose
peer is missing from `nodeDict` (line 861) or from the node list (line 865)
— skips the increment. -/
def deriveInputsGo (nodes : List NodeM) (nd : NodeM) (i : Nat) :
    List PortM → Option (List DerivedPair)
  | [] => some []
  | p :: rest =>
    match p.connection with
    | .undef => deriveInputsGo nodes nd i rest
    | .arr cs => do
      let prs ← deriveArrGo nodes nd i cs
      let t ← deriveInputsGo nodes nd (i + 1) rest
      pure (prs ++ t)
    | .single c =>
      match dictLookup nodes c.nodeId with
      | none => deriveInputsGo nodes nd i rest
      | some opp =>
        match opp.outputs.get? c.port with
        | none => none
        | some oppPort =>
          if (findNodeIdx nodes c.nodeId).isNone then deriveInputsGo nodes nd i rest
          else
            match filterIfArray oppPort.connection (fun x => x.nodeId == nd.id) with
            | none => none
            | some oppConn => do
              let t ← deriveInputsGo nodes nd (i + 1) rest
              pure (⟨⟨c.nodeId, c.port, .output, oppConn.classNames, oppConn.notes, none⟩,
                     ⟨nd.id, i, .input, c.classNames, c.notes, none⟩⟩ :: t)

/-- The outer loop of the derivation (part_000 lines 827-884). -/
def deriveAllGo (nodes : List NodeM) : List NodeM → Option (List DerivedPair)
  | [] => some []
  | nd :: rest => do
    let a ← deriveInputsGo nodes nd 0 nd.inputs
    let b ← deriveAllGo nodes rest
    pure (a ++ b)

/-- The full edge list derived on a render pass. -/
def deriveConnections (nodes : List NodeM) : Option (List DerivedPair) :=
  deriveAllGo nodes nodes

/-! ### Position-indexed description of the derivation (for the corrected
render-loop claim) -/

/-- Indexing a list with positions starting at `k`. -/
def listEnumFrom (k : Nat) : List α → List (Nat × α)
  | [] => []
  | a :: l => (k, a) :: listEnumFrom (k + 1) l

/-- Indexing a list with positions. -/
def listEnum (l : List α) : List (Nat × α) := listEnumFrom 0 l

/-- Whether scanning this input port ends in `++i` being executed: ports
with a defined connection, except a single reference whose peer is not in
`nodeDict`. -/
def portAdvances (nodes : List NodeM) (p : PortM) : Bool :=
  match p.connection with
  | .undef => false
  | .arr _ => true
  | .single c => (dictLookup nodes c.nodeId).isSome

/-- The references of this port whose peer is present in `nodeDict`. -/
def liveRefs (nodes : List NodeM) (p : PortM) : List Conn :=
  match p.connection with
  | .undef => []
  | .arr cs => cs.filter (fun c => (dictLookup nodes c.nodeId).isSome)
  | .single c => if (dictLookup nodes c.nodeId).isSome then [c] else []

/-- The counter value the loop has reached at true position `j`: the number
of earlier input ports that advanced it. -/
def effIdx (nodes : List NodeM) (ports : List PortM) (j : Nat) : Nat :=
  ((ports.take j).filter (portAdvances nodes)).length

/-- The output endpoint emitted for a live reference `c`, including the
decoration read from the peer's back-reference; the fallback arms are
unreachable for a live reference on a pass on which the derivation does not
throw. -/
def specOutEp (nodes : List NodeM) (nd : NodeM) (c : Conn) : EndpointM :=
  match dictLookup nodes c.nodeId with
  | none => ⟨c.nodeId, c.port, .output, none, none, none⟩
  | some opp =>
    match opp.outputs.get? c.port with
    | none => ⟨c.nodeId, c.port, .output, none, none, none⟩
    | some oppPort =>
      match filterIfArray oppPort.connection (fun x => x.nodeId == nd.id) with
      | none => ⟨c.nodeId, c.port, .output, none, none, none⟩
      | some oppConn => ⟨c.nodeId, c.port, .output, oppConn.classNames, oppConn.notes, none⟩

/-- The derivation result described positionally: for each input port at
true position `j`, one pair per live reference, the emitted input port being
the counter value `effIdx` (not `j`). -/
def specPairsOfNode (nodes : List NodeM) (nd : NodeM) : List DerivedPair :=
  (listEnum nd.inputs).flatMap (fun jp =>
    (liveRefs nodes jp.2).map (fun c =>
      ⟨specOutEp nodes nd c,
       ⟨nd.id, effIdx nodes nd.inputs jp.1, .input, c.classNames, c.notes, none⟩⟩))

/-- The full derivation, described positionally. -/
def specDerived (nodes : List NodeM) : List DerivedPair :=
  nodes.flatMap (specPairsOfNode nodes)

/-! ### Decidable well-formedness predicates -/

/-- No line terminators in a string. -/
def noLineTerm (s : String) : Bool := s.data.all (fun c => !isLineTerminator c)

/-- Two consecutive underscores somewhere in the list. -/
def hasTwoUnd : List Char → Bool
  | a :: b :: l => (a = '_' && b = '_') || hasTwoUnd (b :: l)
  | _ => false

/-- Does the list end in an underscore? -/
def lastIsUnd : List Char → Bool
  | [] => false
  | [c] => c = '_'
  | _ :: b :: l => lastIsUnd (b :: l)

/-- Distinct node ids. -/
def nodupIdsB : List NodeM → Bool
  | [] => true
  | n :: rest => !(rest.any (fun m => m.id == n.id)) && nodupIdsB rest

/-- The `(nodeId, port)` keys a port's connection field stores. -/
def refKeys (v : ConnVal) : List (String × Nat) :=
  (connListOf v).map (fun c => (c.nodeId, c.port))

/-- A list of keys without duplicates. -/
def keysNodup : List (String × Nat) → Bool
  | [] => true
  | a :: l => !l.contains a && keysNodup l

/-- No port stores the same `(nodeId, port)` reference twice. -/
def noDupRefsB (nodes : List NodeM) : Bool :=
  nodes.all (fun n => (n.inputs ++ n.outputs).all (fun p => keysNodup (refKeys p.connection)))

/-- Every stored reference is mirrored: an input-side reference `c` at
`(n, j)` has a back-reference `{n.id, j}` on port `c.port` of the outputs of
the node `c.nodeId` resolves to, and symmetrically for output-side
references. -/
def mirroredB (nodes : List NodeM) : Bool :=
  nodes.all (fun n =>
    (listEnum n.inputs).all (fun jp =>
      (connListOf jp.2.connection).all (fun c =>
        match findNode nodes c.nodeId with
        | none => false
        | some m =>
          match m.outputs.get? c.port with
          | none => false
          | some pm => (connListOf pm.connection).any
              (fun c2 => c2.nodeId == n.id && c2.port == jp.1)))
    &&
    (listEnum n.outputs).all (fun jp =>
      (connListOf jp.2.connection).all (fun c =>
        match findNode nodes c.nodeId with
        | none => false
        | some m =>
          match m.inputs.get? c.port with
          | none => false
          | some pm => (connListOf pm.connection).any
              (fun c2 => c2.nodeId == n.id && c2.port == jp.1))))

/-! ## Theorems -/

/-! ### Decimal digits -/

theorem digitChar_toNat (d : Nat) (h : d < 10) : (digitChar d).toNat = 48 + d := by
  interval_cases d <;> decide

theorem isDigitChar_digitChar (d : Nat) (h : d < 10) : isDigitChar (digitChar d) = true := by
  interval_cases d <;> decide

theorem digitVal_digitChar (d : Nat) (h : d < 10) : digitVal (digitChar d) = d := by
  interval_cases d <;> decide

theorem natReprFuel_irrel (fuel1 fuel2 n : Nat) (h1 : n < fuel1) (h2 : n < fuel2) :
    natReprFuel fuel1 n = natReprFuel fuel2 n := by
  induction fuel1 generalizing fuel2 n with
  | zero => omega
  | succ f ih =>
    cases fuel2 with
    | zero => omega
    | succ g =>
      by_cases hn : n < 10
      · simp [natReprFuel, hn]
      · have hd : n / 10 < n := Nat.div_lt_self (by omega) (by omega)
        simp only [natReprFuel, hn, if_false]
        rw [ih g (n / 10) (by omega) (by omega)]

theorem natRepr_eq_small (n : Nat) (h : n < 10) : natRepr n = [digitChar n] := by
  simp [natRepr, natReprFuel, h]

theorem natRepr_eq_big (n : Nat) (h : 10 ≤ n) :
    natRepr n = natRepr (n / 10) ++ [digitChar (n % 10)] := by
  have hd : n / 10 < n := Nat.div_lt_self (by omega) (by omega)
  have e1 : natRepr n =
      if n < 10 then [digitChar n] else natReprFuel n (n / 10) ++ [digitChar (n % 10)] := rfl
  rw [e1, if_neg (by omega), natReprFuel_irrel n (n / 10 + 1) (n / 10) (by omega) (by omega)]
  rfl

theorem natRepr_ne_nil (n : Nat) : natRepr n ≠ [] := by
  by_cases h : n < 10
  · simp [natRepr_eq_small n h]
  · rw [natRepr_eq_big n (by omega)]
    simp

theorem natRepr_all_digits (n : Nat) : ∀ c ∈ natRepr n, isDigitChar c = true := by
  induction n using Nat.strong_induction_on with
  | _ n ih =>
    by_cases h : n < 10
    · rw [natRepr_eq_small n h]
      intro c hc
      simp only [List.mem_singleton] at hc
      subst hc
      exact isDigitChar_digitChar n h
    · rw [natRepr_eq_big n (by omega)]
      intro c hc
      rcases List.mem_append.mp hc with hc | hc
      · exact ih (n / 10) (Nat.div_lt_self (by omega) (by omega)) c hc
      · simp only [List.mem_singleton] at hc
        subst hc
        exact isDigitChar_digitChar (n % 10) (Nat.mod_lt n (by omega))

theorem digitsToNatFrom_append (a : Nat) (l1 l2 : List Char) :
    digitsToNatFrom a (l1 ++ l2) = digitsToNatFrom (digitsToNatFrom a l1) l2 := by
  simp [digitsToNatFrom, List.foldl_append]

theorem digitsToNatFrom_natRepr (a n : Nat) :
    digitsToNatFrom a (natRepr n) = a * 10 ^ (natRepr n).length + n := by
  induction n using Nat.strong_induction_on with
  | _ n ih =>
    by_cases h : n < 10
    · rw [natRepr_eq_small n h]
      simp [digitsToNatFrom, digitVal_digitChar n h]
    · rw [natRepr_eq_big n (by omega)]
      rw [digitsToNatFrom_append]
      rw [ih (n / 10) (Nat.div_lt_self (by omega) (by omega))]
      simp only [digitsToNatFrom, List.foldl_cons, List.foldl_nil, List.length_append,
        List.length_singleton]
      rw [digitVal_digitChar (n % 10) (Nat.mod_lt n (by omega))]
      rw [pow_succ]
      have : 10 * (n / 10) + n % 10 = n := Nat.div_add_mod n 10
      ring_nf
      omega

theorem digitsToNat_natRepr (n : Nat) : digitsToNat (natRepr n) = n := by
  simp [digitsToNat, digitsToNatFrom_natRepr]

theorem isDigitChar_ne_und (c : Char) (h : isDigitChar c = true) : c ≠ '_' := by
  intro he
  subst he
  simp [isDigitChar] at h

/-! ### Generic list helpers -/

theorem take_append_self (xs ys : List α) : (xs ++ ys).take xs.length = xs := by
  induction xs with
  | nil => rfl
  | cons a xs ih => simp [ih]

theorem drop_append_self (xs ys : List α) : (xs ++ ys).drop xs.length = ys := by
  induction xs with
  | nil => rfl
  | cons a xs ih => simp [ih]

theorem drop_append_cons_succ (xs : List α) (c : α) (ys : List α) :
    (xs ++ c :: ys).drop (xs.length + 1) = ys := by
  induction xs with
  | nil => rfl
  | cons a xs ih => simp [ih]

theorem get?_append_cons_eq (xs : List α) (c : α) (ys : List α) :
    (xs ++ c :: ys).get? xs.length = some c := by
  induction xs with
  | nil => rfl
  | cons a xs ih => simpa using ih

theorem get?_append_cons_gt (xs : List α) (c : α) (ys : List α) (m : Nat)
    (h : xs.length < m) : (xs ++ c :: ys).get? m = ys.get? (m - xs.length - 1) := by
  induction xs generalizing m with
  | nil =>
    cases m with
    | zero => omega
    | succ m => simp [Nat.succ_sub_one]
  | cons a xs ih =>
    cases m with
    | zero => omega
    | succ m =>
      simp only [List.cons_append, List.get?_cons_succ, List.length_cons]
      rw [ih m (by simpa using h)]
      congr 1
      omega

theorem get?_append_lt (xs ys : List α) (m : Nat) (h : m < xs.length) :
    (xs ++ ys).get? m = xs.get? m := by
  induction xs generalizing m with
  | nil => simp at h
  | cons a xs ih =>
    cases m with
    | zero => rfl
    | succ m =>
      simp only [List.cons_append, List.get?_cons_succ]
      exact ih m (by simpa using h)

theorem takeWhile_append_of_all (p : α → Bool) (xs : List α) (c : α) (ys : List α)
    (hall : ∀ a ∈ xs, p a = true) (hc : p c = false) :
    (xs ++ c :: ys).takeWhile p = xs := by
  induction xs with
  | nil => simp [List.takeWhile, hc]
  | cons a xs ih =>
    have ha : p a = true := hall a (by simp)
    have ht : (xs ++ c :: ys).takeWhile p = xs := ih (fun b hb => hall b (by simp [hb]))
    simp only [List.cons_append, List.takeWhile, ha]
    exact congrArg (a :: ·) ht

/-! ### The endpoint-id round trip -/

theorem kindChars_no_und (k : EKind) : ∀ c ∈ kindChars k, c ≠ '_' := by
  cases k <;> decide

theorem takeWhile_kindChars (k : EKind) : (kindChars k).takeWhile isDigitChar = [] := by
  cases k <;> decide

theorem kindPrefixOf_kindChars (k : EKind) : kindPrefixOf (kindChars k) = some k := by
  cases k <;> decide

theorem tryTail_kindChars (k : EKind) : tryTail (kindChars k) = none := by
  cases k <;> decide

theorem tryTail_natRepr (p : Nat) (k : EKind) :
    tryTail (natRepr p ++ '_' :: kindChars k) = some (p, k) := by
  have hd : (natRepr p ++ '_' :: kindChars k).takeWhile isDigitChar = natRepr p :=
    takeWhile_append_of_all _ _ _ _ (natRepr_all_digits p) (by decide)
  have hemp : (natRepr p).isEmpty = false := by
    cases h : natRepr p with
    | nil => exact absurd h (natRepr_ne_nil p)
    | cons a l => rfl
  have hdrop : (natRepr p ++ '_' :: kindChars k).drop (natRepr p).length =
      '_' :: kindChars k := drop_append_self _ _
  simp only [tryTail, hd, hemp, Bool.false_eq_true, if_false, hdrop,
    kindPrefixOf_kindChars, digitsToNat_natRepr]
  rfl

theorem validSplit_pos (t : List Char) (m : Nat) (h1 : 1 ≤ m)
    (h2 : (t.take m).all (fun c => !isLineTerminator c) = true)
    (h3 : t.get? m = some '_') :
    validSplit t m = (tryTail (t.drop (m + 1))).map (fun pk => (t.take m, pk.1, pk.2)) := by
  have hc : (decide (1 ≤ m) && (t.take m).all (fun c => !isLineTerminator c) &&
      (t.get? m == some '_')) = true := by
    rw [Bool.and_eq_true, Bool.and_eq_true]
    exact ⟨⟨decide_eq_true h1, h2⟩, beq_of_eq h3⟩
  unfold validSplit
  rw [if_pos hc]

theorem validSplit_neg_get (t : List Char) (m : Nat) (h : t.get? m ≠ some '_') :
    validSplit t m = none := by
  unfold validSplit
  rw [if_neg]
  intro hcon
  rw [Bool.and_eq_true, Bool.and_eq_true] at hcon
  exact h (eq_of_beq hcon.2)

theorem validSplit_none_of_tryTail (t : List Char) (m : Nat)
    (h : tryTail (t.drop (m + 1)) = none) : validSplit t m = none := by
  unfold validSplit
  split
  · simp [h]
  · rfl

theorem computeIdList_assoc (N : List Char) (p : Nat) (k : EKind) :
    computeIdList N p k = (N ++ '_' :: natRepr p) ++ '_' :: kindChars k := by
  simp [computeIdList]

theorem validSplit_computeIdList_eq (N : List Char) (p : Nat) (k : EKind)
    (h1 : N ≠ []) (h2 : ∀ c ∈ N, isLineTerminator c = false) :
    validSplit (computeIdList N p k) N.length = some (N, p, k) := by
  have htake : (computeIdList N p k).take N.length = N := by
    unfold computeIdList
    exact take_append_self _ _
  have hget : (computeIdList N p k).get? N.length = some '_' := by
    unfold computeIdList
    exact get?_append_cons_eq _ _ _
  have hdrop : (computeIdList N p k).drop (N.length + 1) =
      natRepr p ++ '_' :: kindChars k := by
    unfold computeIdList
    exact drop_append_cons_succ _ _ _
  rw [validSplit_pos _ _ (by cases N with | nil => exact absurd rfl h1 | cons a l => simp)
    (by rw [htake]; simp only [List.all_eq_true]; intro c hc; simp [h2 c hc]) hget]
  rw [hdrop, tryTail_natRepr, htake]
  rfl

theorem get?_computeIdList_above (N : List Char) (p : Nat) (k : EKind) (m : Nat)
    (h : N.length < m) (hne : m ≠ N.length + 1 + (natRepr p).length) :
    (computeIdList N p k).get? m ≠ some '_' := by
  unfold computeIdList
  rw [get?_append_cons_gt _ _ _ m h]
  set r := m - N.length - 1 with hr
  rcases lt_trichotomy r (natRepr p).length with hlt | heq | hgt
  · rw [get?_append_lt _ _ _ hlt]
    intro hcon
    have hmem := List.get?_mem hcon
    exact isDigitChar_ne_und _ (natRepr_all_digits p _ hmem) rfl
  · omega
  · rw [get?_append_cons_gt _ _ _ r hgt]
    intro hcon
    have hmem := List.get?_mem hcon
    exact kindChars_no_und k _ hmem rfl

theorem validSplit_computeIdList_above (N : List Char) (p : Nat) (k : EKind) (m : Nat)
    (h : N.length < m) : validSplit (computeIdList N p k) m = none := by
  by_cases he : m = N.length + 1 + (natRepr p).length
  · apply validSplit_none_of_tryTail
    subst he
    have hlen : N.length + 1 + (natRepr p).length + 1 = (N ++ '_' :: natRepr p).length + 1 := by
      simp
      omega
    rw [computeIdList_assoc, hlen, drop_append_cons_succ]
    exact tryTail_kindChars k
  · exact validSplit_neg_get _ _ (get?_computeIdList_above N p k m h he)

theorem findBestM_of_between (t : List Char) (a M : Nat) (haM : a ≤ M)
    (hnone : ∀ m, a < m → m ≤ M → validSplit t m = none) :
    findBestM t M = findBestM t a := by
  induction M with
  | zero =>
    have : a = 0 := by omega
    rw [this]
  | succ M ih =>
    by_cases he : a = M + 1
    · rw [he]
    · have h1 : validSplit t (M + 1) = none := hnone (M + 1) (by omega) le_rfl
      have h2 : findBestM t (M + 1) = findBestM t M := by
        simp [findBestM, h1]
      rw [h2, ih (by omega) (fun m hm1 hm2 => hnone m hm1 (by omega))]

theorem execList_computeIdList (N : List Char) (p : Nat) (k : EKind)
    (h1 : N ≠ []) (h2 : ∀ c ∈ N, isLineTerminator c = false) :
    execList (computeIdList N p k) = some (N, p, k) := by
  obtain ⟨n0, N0, rfl⟩ := List.exists_cons_of_ne_nil h1
  have hbest : findBestM (computeIdList (n0 :: N0) p k)
      (computeIdList (n0 :: N0) p k).length = some (n0 :: N0, p, k) := by
    rw [findBestM_of_between _ (n0 :: N0).length _
      (by simp [computeIdList])
      (fun m hm1 _ => validSplit_computeIdList_above _ p k m hm1)]
    have hv := validSplit_computeIdList_eq (n0 :: N0) p k h1 h2
    have hl : (n0 :: N0).length = N0.length + 1 := rfl
    rw [hl] at hv ⊢
    simp [findBestM, hv]
  have hL : computeIdList (n0 :: N0) p k =
      n0 :: (N0 ++ '_' :: (natRepr p ++ '_' :: kindChars k)) := by
    simp [computeIdList]
  rw [hL] at hbest ⊢
  simp only [execList]
  rw [show (n0 :: (N0 ++ '_' :: (natRepr p ++ '_' :: kindChars k))).length =
    (n0 :: (N0 ++ '_' :: (natRepr p ++ '_' :: kindChars k))).length from rfl]
  rw [hbest]

theorem extractEndpointInfo_computeId (nodeId : String) (p : Nat) (k : EKind)
    (h1 : nodeId.data ≠ []) (h2 : noLineTerm nodeId = true) :
    extractEndpointInfo (computeId nodeId p k) =
      some ⟨nodeId, p, k, none, none, none⟩ := by
  have h2l : ∀ c ∈ nodeId.data, isLineTerminator c = false := by
    intro c hc
    have := (List.all_eq_true.mp h2) c hc
    simpa using this
  have hdata : (computeId nodeId p k).data = computeIdList nodeId.data p k := rfl
  unfold extractEndpointInfo
  rw [hdata, execList_computeIdList nodeId.data p k h1 h2l]
  cases nodeId
  rfl

/-! ### The connection-id round trip -/

theorem lastIsUnd_cons_of_ne_nil (a : Char) (l : List Char) (h : l ≠ []) :
    lastIsUnd (a :: l) = lastIsUnd l := by
  cases l with
  | nil => exact absurd rfl h
  | cons b l => rfl

theorem lastIsUnd_append_cons (xs : List Char) (c : Char) (ys : List Char) :
    lastIsUnd (xs ++ c :: ys) = lastIsUnd (c :: ys) := by
  induction xs with
  | nil => rfl
  | cons a xs ih =>
    rw [List.cons_append, lastIsUnd_cons_of_ne_nil a (xs ++ c :: ys) (by simp), ih]

theorem lastIsUnd_of_no_und (l : List Char) (h : ∀ c ∈ l, c ≠ '_') :
    lastIsUnd l = false := by
  induction l with
  | nil => rfl
  | cons a l ih =>
    cases l with
    | nil =>
      have : a ≠ '_' := h a (by simp)
      simp [lastIsUnd, this]
    | cons b l =>
      rw [show lastIsUnd (a :: b :: l) = lastIsUnd (b :: l) from rfl]
      exact ih (fun c hc => h c (by simp at hc; simp [hc]))

theorem hasTwoUnd_of_no_und (l : List Char) (h : ∀ c ∈ l, c ≠ '_') :
    hasTwoUnd l = false := by
  induction l with
  | nil => rfl
  | cons a l ih =>
    cases l with
    | nil => rfl
    | cons b l =>
      have ha : a ≠ '_' := h a (by simp)
      have hrest : hasTwoUnd (b :: l) = false :=
        ih (fun c hc => h c (by simp at hc; simp [hc]))
      rw [show hasTwoUnd (a :: b :: l) =
        ((a = '_' && b = '_') || hasTwoUnd (b :: l)) from rfl]
      simp [ha, hrest]

theorem hasTwoUnd_append_cons (xs : List Char) (y : Char) (ys : List Char)
    (h1 : hasTwoUnd xs = false) (h2 : hasTwoUnd (y :: ys) = false)
    (h3 : lastIsUnd xs = false ∨ y ≠ '_') :
    hasTwoUnd (xs ++ y :: ys) = false := by
  induction xs with
  | nil => exact h2
  | cons a xs ih =>
    cases xs with
    | nil =>
      rw [show ([a] : List Char) ++ y :: ys = a :: y :: ys from rfl]
      rw [show hasTwoUnd (a :: y :: ys) =
        ((a = '_' && y = '_') || hasTwoUnd (y :: ys)) from rfl]
      have hfirst : (a = '_' && y = '_') = false := by
        rcases h3 with h3 | h3
        · have : a ≠ '_' := by
            intro he
            rw [he] at h3
            simp [lastIsUnd] at h3
          simp [this]
        · simp [h3]
      simp [hfirst, h2]
    | cons b xs =>
      have hsplit : hasTwoUnd (a :: b :: xs) =
          ((a = '_' && b = '_') || hasTwoUnd (b :: xs)) := rfl
      rw [hsplit] at h1
      have h1a : (a = '_' && b = '_') = false := by
        cases hor : (a = '_' && b = '_') with
        | false => rfl
        | true => rw [hor] at h1; simp at h1
      have h1b : hasTwoUnd (b :: xs) = false := by
        cases hor : hasTwoUnd (b :: xs) with
        | false => rfl
        | true => rw [hor] at h1; simp at h1
      have h3b : lastIsUnd (b :: xs) = false ∨ y ≠ '_' := by
        rcases h3 with h3 | h3
        · left
          rw [show lastIsUnd (a :: b :: xs) = lastIsUnd (b :: xs) from rfl] at h3
          exact h3
        · right
          exact h3
      have hrec2 : hasTwoUnd (b :: (xs ++ y :: ys)) = false := ih h1b h3b
      show hasTwoUnd (a :: b :: (xs ++ y :: ys)) = false
      rw [show hasTwoUnd (a :: b :: (xs ++ y :: ys)) =
        ((a = '_' && b = '_') || hasTwoUnd (b :: (xs ++ y :: ys))) from rfl]
      simp [h1a, hrec2]

theorem natRepr_no_und (p : Nat) : ∀ c ∈ natRepr p, c ≠ '_' :=
  fun c hc => isDigitChar_ne_und c (natRepr_all_digits p c hc)

theorem hasTwoUnd_und_kind (k : EKind) : hasTwoUnd ('_' :: kindChars k) = false := by
  cases k <;> decide

theorem hasTwoUnd_computeIdList (N : List Char) (p : Nat) (k : EKind)
    (h1 : hasTwoUnd N = false) (h2 : lastIsUnd N = false) :
    hasTwoUnd (computeIdList N p k) = false := by
  have hmid : hasTwoUnd ('_' :: (natRepr p ++ '_' :: kindChars k)) = false := by
    obtain ⟨d0, D, hD⟩ := List.exists_cons_of_ne_nil (natRepr_ne_nil p)
    have hD0 : d0 ≠ '_' := natRepr_no_und p d0 (by rw [hD]; simp)
    have htail : hasTwoUnd (natRepr p ++ '_' :: kindChars k) = false := by
      apply hasTwoUnd_append_cons
      · exact hasTwoUnd_of_no_und _ (natRepr_no_und p)
      · exact hasTwoUnd_und_kind k
      · exact Or.inl (lastIsUnd_of_no_und _ (natRepr_no_und p))
    rw [hD]
    show hasTwoUnd ('_' :: d0 :: (D ++ '_' :: kindChars k)) = false
    rw [show hasTwoUnd ('_' :: d0 :: (D ++ '_' :: kindChars k)) =
      (('_' = '_' && d0 = '_') || hasTwoUnd (d0 :: (D ++ '_' :: kindChars k))) from rfl]
    have htail2 : hasTwoUnd (d0 :: (D ++ '_' :: kindChars k)) = false := by
      rw [hD] at htail
      exact htail
    simp [hD0, htail2]
  unfold computeIdList
  exact hasTwoUnd_append_cons N '_' _ h1 hmid (Or.inl h2)

theorem lastIsUnd_computeIdList (N : List Char) (p : Nat) (k : EKind) :
    lastIsUnd (computeIdList N p k) = false := by
  unfold computeIdList
  rw [lastIsUnd_append_cons]
  rw [lastIsUnd_cons_of_ne_nil _ _ (by simp)]
  rw [lastIsUnd_append_cons]
  cases k <;> decide

theorem firstSepIdx_append_sep (I O : List Char)
    (h1 : hasTwoUnd I = false) (h2 : lastIsUnd I = false) :
    firstSepIdx (I ++ '_' :: '_' :: O) = some I.length := by
  induction I with
  | nil => rfl
  | cons a I ih =>
    cases I with
    | nil =>
      have ha : a ≠ '_' := by
        intro he
        rw [he] at h2
        simp [lastIsUnd] at h2
      rw [show ([a] : List Char) ++ '_' :: '_' :: O = a :: '_' :: '_' :: O from rfl]
      rw [show firstSepIdx (a :: '_' :: '_' :: O) =
        (if a = '_' && '_' = '_' then some 0
         else (firstSepIdx ('_' :: '_' :: O)).map (· + 1)) from rfl]
      rw [if_neg (by simp [ha])]
      rfl
    | cons b I =>
      have hsplit : hasTwoUnd (a :: b :: I) =
          ((a = '_' && b = '_') || hasTwoUnd (b :: I)) := rfl
      rw [hsplit] at h1
      have h1a : (a = '_' && b = '_') = false := by
        cases hor : (a = '_' && b = '_') with
        | false => rfl
        | true => rw [hor] at h1; simp at h1
      have h1b : hasTwoUnd (b :: I) = false := by
        cases hor : hasTwoUnd (b :: I) with
        | false => rfl
        | true => rw [hor] at h1; simp at h1
      have h2b : lastIsUnd (b :: I) = false := h2
      have hrec := ih h1b h2b
      rw [show (a :: b :: I) ++ '_' :: '_' :: O = a :: ((b :: I) ++ '_' :: '_' :: O) from rfl]
      rw [show (b :: I) ++ '_' :: '_' :: O = b :: (I ++ '_' :: '_' :: O) from rfl]
      rw [show firstSepIdx (a :: b :: (I ++ '_' :: '_' :: O)) =
        (if a = '_' && b = '_' then some 0
         else (firstSepIdx (b :: (I ++ '_' :: '_' :: O))).map (· + 1)) from rfl]
      rw [if_neg (by rw [h1a]; simp)]
      rw [show (b :: I) ++ '_' :: '_' :: O = b :: (I ++ '_' :: '_' :: O) from rfl] at hrec
      rw [hrec]
      rfl

theorem extractConnectionFromId_of_sep (id : String) (q : Nat)
    (h : firstSepIdx id.data = some q) :
    extractConnectionFromId id = (do
      let i ← extractEndpointInfo (String.mk (id.data.take q))
      let o ← extractEndpointInfo (String.mk (id.data.drop (q + 2)))
      pure (i, o)) := by
  unfold extractConnectionFromId
  rw [h]

theorem extractConnection_computeConnectionId (i o : EndpointM)
    (hi1 : i.nodeId.data ≠ []) (hi2 : noLineTerm i.nodeId = true)
    (hi3 : hasTwoUnd i.nodeId.data = false) (hi4 : lastIsUnd i.nodeId.data = false)
    (ho1 : o.nodeId.data ≠ []) (ho2 : noLineTerm o.nodeId = true) :
    extractConnectionFromId (computeConnectionId i o) =
      some (⟨i.nodeId, i.port, i.kind, none, none, none⟩,
            ⟨o.nodeId, o.port, o.kind, none, none, none⟩) := by
  have hdata : (computeConnectionId i o).data =
      computeIdList i.nodeId.data i.port i.kind ++
        '_' :: '_' :: computeIdList o.nodeId.data o.port o.kind := rfl
  have hsep : firstSepIdx (computeConnectionId i o).data =
      some (computeIdList i.nodeId.data i.port i.kind).length := by
    rw [hdata]
    exact firstSepIdx_append_sep _ _
      (hasTwoUnd_computeIdList _ i.port i.kind hi3 hi4)
      (lastIsUnd_computeIdList _ i.port i.kind)
  have htake : (computeConnectionId i o).data.take
      (computeIdList i.nodeId.data i.port i.kind).length =
      computeIdList i.nodeId.data i.port i.kind := by
    rw [hdata]
    exact take_append_self _ _
  have hdrop : (computeConnectionId i o).data.drop
      ((computeIdList i.nodeId.data i.port i.kind).length + 2) =
      computeIdList o.nodeId.data o.port o.kind := by
    rw [hdata]
    rw [show computeIdList i.nodeId.data i.port i.kind ++
      '_' :: '_' :: computeIdList o.nodeId.data o.port o.kind =
      (computeIdList i.nodeId.data i.port i.kind ++ ['_']) ++
        '_' :: computeIdList o.nodeId.data o.port o.kind from by simp]
    rw [show (computeIdList i.nodeId.data i.port i.kind).length + 2 =
      (computeIdList i.nodeId.data i.port i.kind ++ ['_']).length + 1 from by simp]
    exact drop_append_cons_succ _ _ _
  have hi2l : ∀ c ∈ i.nodeId.data, isLineTerminator c = false := by
    intro c hc
    simpa using (List.all_eq_true.mp hi2) c hc
  have ho2l : ∀ c ∈ o.nodeId.data, isLineTerminator c = false := by
    intro c hc
    simpa using (List.all_eq_true.mp ho2) c hc
  have hexi : extractEndpointInfo (String.mk (computeIdList i.nodeId.data i.port i.kind)) =
      some ⟨i.nodeId, i.port, i.kind, none, none, none⟩ :=
    extractEndpointInfo_computeId i.nodeId i.port i.kind hi1 hi2
  have hexo : extractEndpointInfo (String.mk (computeIdList o.nodeId.data o.port o.kind)) =
      some ⟨o.nodeId, o.port, o.kind, none, none, none⟩ :=
    extractEndpointInfo_computeId o.nodeId o.port o.kind ho1 ho2
  rw [extractConnectionFromId_of_sep _ _ hsep, htake, hdrop, hexi, hexo]
  rfl

/-! ### Claim C1 -/

/-- C1 (as stated, counterexample): the endpoint `{nodeId: "a_", port: 0,
kind: input}` has a non-empty nodeId that does not contain `__`, yet pairing
it with the output endpoint `{nodeId: "b", port: 0, kind: output}` makes
`extractConnectionFromId (computeConnectionId i o)` throw instead of
recovering the two triples: the id renders as `a__0_input__b_0_output`,
whose first `__` occurrence sits inside the input half. -/
theorem c1_roundtrip_cex :
    hasTwoUnd (String.data "a_") = false ∧ String.data "a_" ≠ [] ∧
    extractConnectionFromId (computeConnectionId
      ⟨"a_", 0, .input, none, none, none⟩ ⟨"b", 0, .output, none, none, none⟩) = none := by
  decide

/-- C1 (amended): for endpoints whose nodeIds are non-empty, contain no
`__`, do not end in `_`, and contain no line-terminator characters, decoding
recovers the triple exactly, and decoding a connection id recovers both
triples (first half the input, second half the output). -/
theorem c1_roundtrip (i o : EndpointM)
    (_hik : i.kind = EKind.input) (_hok : o.kind = EKind.output)
    (hi1 : i.nodeId.data ≠ []) (hi2 : noLineTerm i.nodeId = true)
    (hi3 : hasTwoUnd i.nodeId.data = false) (hi4 : lastIsUnd i.nodeId.data = false)
    (ho1 : o.nodeId.data ≠ []) (ho2 : noLineTerm o.nodeId = true)
    (_ho3 : hasTwoUnd o.nodeId.data = false) (_ho4 : lastIsUnd o.nodeId.data = false) :
    extractEndpointInfo (computeId i.nodeId i.port i.kind) =
      some ⟨i.nodeId, i.port, i.kind, none, none, none⟩ ∧
    extractEndpointInfo (computeId o.nodeId o.port o.kind) =
      some ⟨o.nodeId, o.port, o.kind, none, none, none⟩ ∧
    extractConnectionFromId (computeConnectionId i o) =
      some (⟨i.nodeId, i.port, i.kind, none, none, none⟩,
            ⟨o.nodeId, o.port, o.kind, none, none, none⟩) := by
  refine ⟨?_, ?_, ?_⟩
  · exact extractEndpointInfo_computeId i.nodeId i.port i.kind hi1 hi2
  · exact extractEndpointInfo_computeId o.nodeId o.port o.kind ho1 ho2
  · exact extractConnection_computeConnectionId i o hi1 hi2 hi3 hi4 ho1 ho2

/-- C1 witness: the round trip at the concrete endpoints
`{nodeA, 0, input}` and `{nodeB, 17, output}`. -/
theorem c1_roundtrip_witness :
    extractEndpointInfo (computeId "nodeA" 0 EKind.input) =
      some ⟨"nodeA", 0, EKind.input, none, none, none⟩ ∧
    extractEndpointInfo (computeId "nodeB" 17 EKind.output) =
      some ⟨"nodeB", 17, EKind.output, none, none, none⟩ ∧
    extractConnectionFromId (computeConnectionId
      ⟨"nodeA", 0, EKind.input, none, none, none⟩
      ⟨"nodeB", 17, EKind.output, none, none, none⟩) =
      some (⟨"nodeA", 0, EKind.input, none, none, none⟩,
            ⟨"nodeB", 17, EKind.output, none, none, none⟩) :=
  c1_roundtrip ⟨"nodeA", 0, .input, none, none, none⟩
    ⟨"nodeB", 17, .output, none, none, none⟩ rfl rfl
    (by decide) (by decide) (by decide) (by decide)
    (by decide) (by decide) (by decide) (by decide)

/-! ### Claim C10 -/

theorem lastIsUnd_ne_of_computeIdList (N : List Char) (p : Nat) (k : EKind)
    (s : List Char) (h : lastIsUnd s = true) : computeIdList N p k ≠ s := by
  intro he
  rw [← he, lastIsUnd_computeIdList] at h
  exact Bool.false_ne_true h

/-- C10: the decode pattern is unanchored, so there is a string — here
`a_1_inputXYZ`, a well-formed id with trailing characters — that is not
`computeId` of any endpoint and on which `extractEndpointInfo` still returns
successfully instead of throwing. -/
theorem c10_unanchored_decode :
    ∃ s : String, (∀ (n : String) (p : Nat) (k : EKind), computeId n p k ≠ s) ∧
      (extractEndpointInfo s).isSome = true := by
  refine ⟨"a_1_inputXY_", ?_, by decide⟩
  intro n p k he
  have hdata : computeIdList n.data p k = (String.data "a_1_inputXY_") := congrArg String.data he
  exact lastIsUnd_ne_of_computeIdList n.data p k _ (by decide) hdata

/-! ### Locating ports through updates -/

theorem listModify_get?_eq (l : List α) (i : Nat) (f : α → α) :
    (listModify l i f).get? i = (l.get? i).map f := by
  induction l generalizing i with
  | nil => cases i <;> rfl
  | cons a l ih =>
    cases i with
    | zero => rfl
    | succ i =>
      show (listModify l i f).get? i = (l.get? i).map f
      exact ih i

theorem listModify_get?_ne (l : List α) (i j : Nat) (f : α → α) (h : i ≠ j) :
    (listModify l i f).get? j = l.get? j := by
  induction l generalizing i j with
  | nil => cases i <;> rfl
  | cons a l ih =>
    cases i with
    | zero =>
      cases j with
      | zero => exact absurd rfl h
      | succ j => rfl
    | succ i =>
      cases j with
      | zero => rfl
      | succ j => exact ih i j (by omega)

theorem findNode_updateFirstNode_self (nodes : List NodeM) (id : String)
    (f : NodeM → NodeM) (hpres : ∀ n, (f n).id = n.id) :
    findNode (updateFirstNode nodes id f) id = (findNode nodes id).map f := by
  induction nodes with
  | nil => rfl
  | cons n rest ih =>
    by_cases h2 : n.id = id
    · have hu : updateFirstNode (n :: rest) id f = f n :: rest := by
        simp [updateFirstNode, h2]
      rw [hu]
      unfold findNode
      rw [List.find?_cons_of_pos _ (by rw [hpres n]; simp [h2]),
          List.find?_cons_of_pos _ (by simp [h2])]
      rfl
    · have hu : updateFirstNode (n :: rest) id f = n :: updateFirstNode rest id f := by
        simp [updateFirstNode, h2]
      rw [hu]
      unfold findNode
      rw [List.find?_cons_of_neg _ (by simp [h2]), List.find?_cons_of_neg _ (by simp [h2])]
      exact ih

theorem findNode_updateFirstNode_ne (nodes : List NodeM) (id id2 : String)
    (f : NodeM → NodeM) (hpres : ∀ n, (f n).id = n.id) (h : id ≠ id2) :
    findNode (updateFirstNode nodes id2 f) id = findNode nodes id := by
  induction nodes with
  | nil => rfl
  | cons n rest ih =>
    by_cases h2 : n.id = id2
    · have hu : updateFirstNode (n :: rest) id2 f = f n :: rest := by
        simp [updateFirstNode, h2]
      rw [hu]
      unfold findNode
      rw [List.find?_cons_of_neg _ (by rw [hpres n, h2]; simp [Ne.symm h]),
          List.find?_cons_of_neg _ (by rw [h2]; simp [Ne.symm h])]
    · have hu : updateFirstNode (n :: rest) id2 f = n :: updateFirstNode rest id2 f := by
        simp [updateFirstNode, h2]
      rw [hu]
      unfold findNode
      by_cases hni : n.id = id
      · rw [List.find?_cons_of_pos _ (by simp [hni]), List.find?_cons_of_pos _ (by simp [hni])]
      · rw [List.find?_cons_of_neg _ (by simp [hni]), List.find?_cons_of_neg _ (by simp [hni])]
        exact ih

theorem findNode_modifyInputConn_self (nodes : List NodeM) (id : String) (j : Nat)
    (f : ConnVal → ConnVal) :
    findNode (modifyInputConn nodes id j f) id = (findNode nodes id).map
      (fun n => { n with
        inputs := listModify n.inputs j (fun p => { p with connection := f p.connection }) }) := by
  unfold modifyInputConn
  exact findNode_updateFirstNode_self _ _ _ (fun n => rfl)

theorem findNode_modifyInputConn_ne (nodes : List NodeM) (id id2 : String) (j : Nat)
    (f : ConnVal → ConnVal) (h : id ≠ id2) :
    findNode (modifyInputConn nodes id2 j f) id = findNode nodes id := by
  unfold modifyInputConn
  exact findNode_updateFirstNode_ne _ _ _ _ (fun n => rfl) h

theorem findNode_modifyOutputConn_self (nodes : List NodeM) (id : String) (j : Nat)
    (f : ConnVal → ConnVal) :
    findNode (modifyOutputConn nodes id j f) id = (findNode nodes id).map
      (fun n => { n with
        outputs := listModify n.outputs j (fun p => { p with connection := f p.connection }) }) := by
  unfold modifyOutputConn
  exact findNode_updateFirstNode_self _ _ _ (fun n => rfl)

theorem findNode_modifyOutputConn_ne (nodes : List NodeM) (id id2 : String) (j : Nat)
    (f : ConnVal → ConnVal) (h : id ≠ id2) :
    findNode (modifyOutputConn nodes id2 j f) id = findNode nodes id := by
  unfold modifyOutputConn
  exact findNode_updateFirstNode_ne _ _ _ _ (fun n => rfl) h

theorem inputConnAt_modifyInputConn_self (nodes : List NodeM) (id : String)
    (j : Nat) (f : ConnVal → ConnVal) :
    inputConnAt (modifyInputConn nodes id j f) id j = (inputConnAt nodes id j).map f := by
  unfold inputConnAt
  rw [findNode_modifyInputConn_self]
  cases h : findNode nodes id with
  | none => rfl
  | some n =>
    simp only [Option.map_some', Option.some_bind]
    rw [listModify_get?_eq]
    cases n.inputs.get? j <;> rfl

theorem inputConnAt_modifyInputConn_other (nodes : List NodeM) (id id2 : String)
    (j j2 : Nat) (f : ConnVal → ConnVal) (h : id ≠ id2 ∨ j ≠ j2) :
    inputConnAt (modifyInputConn nodes id2 j2 f) id j = inputConnAt nodes id j := by
  unfold inputConnAt
  by_cases hid : id = id2
  · subst hid
    have hj : j2 ≠ j := by
      rcases h with h | h
      · exact absurd rfl h
      · exact Ne.symm h
    rw [findNode_modifyInputConn_self]
    cases hf : findNode nodes id with
    | none => rfl
    | some n =>
      simp only [Option.map_some', Option.some_bind]
      rw [listModify_get?_ne _ _ _ _ hj]
  · rw [findNode_modifyInputConn_ne _ _ _ _ _ hid]

theorem inputConnAt_modifyOutputConn (nodes : List NodeM) (id id2 : String)
    (j j2 : Nat) (f : ConnVal → ConnVal) :
    inputConnAt (modifyOutputConn nodes id2 j2 f) id j = inputConnAt nodes id j := by
  unfold inputConnAt
  by_cases hid : id = id2
  · subst hid
    rw [findNode_modifyOutputConn_self]
    cases hf : findNode nodes id <;> rfl
  · rw [findNode_modifyOutputConn_ne _ _ _ _ _ hid]

theorem outputConnAt_modifyOutputConn_self (nodes : List NodeM) (id : String)
    (j : Nat) (f : ConnVal → ConnVal) :
    outputConnAt (modifyOutputConn nodes id j f) id j = (outputConnAt nodes id j).map f := by
  unfold outputConnAt
  rw [findNode_modifyOutputConn_self]
  cases h : findNode nodes id with
  | none => rfl
  | some n =>
    simp only [Option.map_some', Option.some_bind]
    rw [listModify_get?_eq]
    cases n.outputs.get? j <;> rfl

theorem outputConnAt_modifyOutputConn_other (nodes : List NodeM) (id id2 : String)
    (j j2 : Nat) (f : ConnVal → ConnVal) (h : id ≠ id2 ∨ j ≠ j2) :
    outputConnAt (modifyOutputConn nodes id2 j2 f) id j = outputConnAt nodes id j := by
  unfold outputConnAt
  by_cases hid : id = id2
  · subst hid
    have hj : j2 ≠ j := by
      rcases h with h | h
      · exact absurd rfl h
      · exact Ne.symm h
    rw [findNode_modifyOutputConn_self]
    cases hf : findNode nodes id with
    | none => rfl
    | some n =>
      simp only [Option.map_some', Option.some_bind]
      rw [listModify_get?_ne _ _ _ _ hj]
  · rw [findNode_modifyOutputConn_ne _ _ _ _ _ hid]

theorem outputConnAt_modifyInputConn (nodes : List NodeM) (id id2 : String)
    (j j2 : Nat) (f : ConnVal → ConnVal) :
    outputConnAt (modifyInputConn nodes id2 j2 f) id j = outputConnAt nodes id j := by
  unfold outputConnAt
  by_cases hid : id = id2
  · subst hid
    rw [findNode_modifyInputConn_self]
    cases hf : findNode nodes id <;> rfl
  · rw [findNode_modifyInputConn_ne _ _ _ _ _ hid]

/-! ### createConnection: characterization and the mirror property -/

theorem connValContains_pushConn (v : ConnVal) (nodeId : String) (port : Nat)
    (cn : Option (List String)) (nt : Option String) :
    connValContains (pushConn v ⟨nodeId, port, cn, nt⟩) nodeId port = true := by
  cases v <;> simp [pushConn, connValContains, connListOf]

theorem createConnection_char (cfg : ConfigM) (nodes : List NodeM)
    (i o : EndpointM) (nIn : NodeM) (pIn : PortM) (nOut : NodeM) (pOut : PortM)
    (hfi : findNode nodes i.nodeId = some nIn)
    (hpi : nIn.inputs.get? i.port = some pIn)
    (hfo : findNode nodes o.nodeId = some nOut)
    (hpo : nOut.outputs.get? o.port = some pOut) :
    createConnection cfg nodes i o =
      if i.kind = o.kind then some (none, nodes)
      else if !isArrayOrUndefined pIn.connection then some (none, nodes)
      else if !isArrayOrUndefined pOut.connection then some (none, nodes)
      else if (match cfg.connectionValidator with
               | some v => !v o i
               | none => false) then some (none, nodes)
      else some (runDispatch (standardDispatch cfg) (i, o)
             (applyConnectionCreated nodes i o) nodes) := by
  unfold createConnection
  rw [hfi, hfo]
  simp only [hpi, hpo]

theorem createConnection_ok_eq (cfg : ConfigM) (nodes : List NodeM)
    (i o : EndpointM) (hok : createConnectionOk cfg nodes i o = true) :
    createConnection cfg nodes i o =
      some ((if cfg.hasOnChanged then some (i, o) else none),
            (if cfg.demoMode || !cfg.hasOnChanged
             then applyConnectionCreated nodes i o else nodes)) := by
  unfold createConnectionOk at hok
  rw [Bool.and_eq_true, Bool.and_eq_true, Bool.and_eq_true] at hok
  obtain ⟨⟨⟨hk, hin⟩, hout⟩, hval⟩ := hok
  have hkind : ¬(i.kind = o.kind) := by
    intro he
    rw [show (i.kind == o.kind) = true from by simp [he]] at hk
    simp at hk
  cases hfi : findNode nodes i.nodeId with
  | none => rw [hfi] at hin; exact Bool.noConfusion hin
  | some nIn =>
    rw [hfi] at hin
    have hin2 : (match nIn.inputs.get? i.port with
      | none => false
      | some p => isArrayOrUndefined p.connection) = true := hin
    cases hpi : nIn.inputs.get? i.port with
    | none => rw [hpi] at hin2; exact Bool.noConfusion hin2
    | some pIn =>
      rw [hpi] at hin2
      have hin3 : isArrayOrUndefined pIn.connection = true := hin2
      cases hfo : findNode nodes o.nodeId with
      | none => rw [hfo] at hout; exact Bool.noConfusion hout
      | some nOut =>
        rw [hfo] at hout
        have hout2 : (match nOut.outputs.get? o.port with
          | none => false
          | some p => isArrayOrUndefined p.connection) = true := hout
        cases hpo : nOut.outputs.get? o.port with
        | none => rw [hpo] at hout2; exact Bool.noConfusion hout2
        | some pOut =>
          rw [hpo] at hout2
          have hout3 : isArrayOrUndefined pOut.connection = true := hout2
          rw [createConnection_char cfg nodes i o nIn pIn nOut pOut hfi hpi hfo hpo]
          rw [if_neg hkind, if_neg (by simp [hin3]), if_neg (by simp [hout3]),
              if_neg (by
                cases hv : cfg.connectionValidator with
                | none => simp
                | some v =>
                  rw [hv] at hval
                  have hval2 : v o i = true := hval
                  simp [hval2])]
          rfl

/-! ### Claim C2 -/

/-- C2: whenever the `apply` continuation of a successful `ConnectionCreated`
runs, the connection is stored symmetrically: afterwards the input node's
`inputs[i.port].connection` contains `{o.nodeId, o.port}` and the output
node's `outputs[o.port].connection` contains `{i.nodeId, i.port}`. -/
theorem c2_mirror_after_create (cfg : ConfigM) (nodes : List NodeM)
    (i o : EndpointM) (hok : createConnectionOk cfg nodes i o = true) :
    ∃ vin vout,
      inputConnAt (applyConnectionCreated nodes i o) i.nodeId i.port = some vin ∧
      connValContains vin o.nodeId o.port = true ∧
      outputConnAt (applyConnectionCreated nodes i o) o.nodeId o.port = some vout ∧
      connValContains vout i.nodeId i.port = true := by
  unfold createConnectionOk at hok
  rw [Bool.and_eq_true, Bool.and_eq_true, Bool.and_eq_true] at hok
  obtain ⟨⟨⟨_, hin⟩, hout⟩, _⟩ := hok
  cases hfi : findNode nodes i.nodeId with
  | none => rw [hfi] at hin; exact Bool.noConfusion hin
  | some nIn =>
    rw [hfi] at hin
    have hin2 : (match nIn.inputs.get? i.port with
      | none => false
      | some p => isArrayOrUndefined p.connection) = true := hin
    cases hpi : nIn.inputs.get? i.port with
    | none => rw [hpi] at hin2; exact Bool.noConfusion hin2
    | some pIn =>
      cases hfo : findNode nodes o.nodeId with
      | none => rw [hfo] at hout; exact Bool.noConfusion hout
      | some nOut =>
        rw [hfo] at hout
        have hout2 : (match nOut.outputs.get? o.port with
          | none => false
          | some p => isArrayOrUndefined p.connection) = true := hout
        cases hpo : nOut.outputs.get? o.port with
        | none => rw [hpo] at hout2; exact Bool.noConfusion hout2
        | some pOut =>
          have hinAt : inputConnAt nodes i.nodeId i.port = some pIn.connection := by
            unfold inputConnAt
            rw [hfi]
            show Option.map (fun p => p.connection) (nIn.inputs.get? i.port) =
              some pIn.connection
            rw [hpi]
            rfl
          have houtAt : outputConnAt nodes o.nodeId o.port = some pOut.connection := by
            unfold outputConnAt
            rw [hfo]
            show Option.map (fun p => p.connection) (nOut.outputs.get? o.port) =
              some pOut.connection
            rw [hpo]
            rfl
          unfold applyConnectionCreated
          refine ⟨pushConn pIn.connection ⟨o.nodeId, o.port, none, none⟩,
                  pushConn pOut.connection ⟨i.nodeId, i.port, none, none⟩, ?_, ?_, ?_, ?_⟩
          · rw [inputConnAt_modifyOutputConn, inputConnAt_modifyInputConn_self, hinAt]
            rfl
          · exact connValContains_pushConn _ _ _ _ _
          · rw [outputConnAt_modifyOutputConn_self, outputConnAt_modifyInputConn, houtAt]
            rfl
          · exact connValContains_pushConn _ _ _ _ _

/-- C2 witness: creating a connection between node `A`'s input 0 and node
`B`'s output 0 on a concrete two-node graph stores both sides. -/
theorem c2_mirror_after_create_witness :
    ∃ vin vout,
      inputConnAt (applyConnectionCreated
        [⟨"A", "A", none, none, [⟨"i0", ConnVal.undef⟩], []⟩,
         ⟨"B", "B", none, none, [], [⟨"o0", ConnVal.undef⟩]⟩]
        ⟨"A", 0, .input, none, none, none⟩ ⟨"B", 0, .output, none, none, none⟩) "A" 0 =
        some vin ∧
      connValContains vin "B" 0 = true ∧
      outputConnAt (applyConnectionCreated
        [⟨"A", "A", none, none, [⟨"i0", ConnVal.undef⟩], []⟩,
         ⟨"B", "B", none, none, [], [⟨"o0", ConnVal.undef⟩]⟩]
        ⟨"A", 0, .input, none, none, none⟩ ⟨"B", 0, .output, none, none, none⟩) "B" 0 =
        some vout ∧
      connValContains vout "A" 0 = true :=
  c2_mirror_after_create ⟨false, false, false, none⟩
    [⟨"A", "A", none, none, [⟨"i0", ConnVal.undef⟩], []⟩,
     ⟨"B", "B", none, none, [], [⟨"o0", ConnVal.undef⟩]⟩]
    ⟨"A", 0, .input, none, none, none⟩ ⟨"B", 0, .output, none, none, none⟩ (by decide)

/-! ### Claim C7 -/

/-- C7: a connection attempt between endpoints of the same kind, or
involving a port that currently holds a single (non-array, non-undefined)
connection, or rejected by the host validator, is a silent no-op: no action
is emitted, no error is raised, and the node list is returned unchanged. -/
theorem c7_silent_refusal (cfg : ConfigM) (nodes : List NodeM)
    (i o : EndpointM) (nIn : NodeM) (pIn : PortM) (nOut : NodeM) (pOut : PortM)
    (hfi : findNode nodes i.nodeId = some nIn)
    (hpi : nIn.inputs.get? i.port = some pIn)
    (hfo : findNode nodes o.nodeId = some nOut)
    (hpo : nOut.outputs.get? o.port = some pOut)
    (hbad : i.kind = o.kind ∨ (∃ c, pIn.connection = ConnVal.single c) ∨
      (∃ c, pOut.connection = ConnVal.single c) ∨
      (∃ v, cfg.connectionValidator = some v ∧ v o i = false)) :
    createConnection cfg nodes i o = some (none, nodes) := by
  rw [createConnection_char cfg nodes i o nIn pIn nOut pOut hfi hpi hfo hpo]
  by_cases hk : i.kind = o.kind
  · rw [if_pos hk]
  · rw [if_neg hk]
    by_cases hin : isArrayOrUndefined pIn.connection
    · rw [if_neg (by simp [hin])]
      by_cases hout : isArrayOrUndefined pOut.connection
      · rw [if_neg (by simp [hout])]
        have hval : (∃ v, cfg.connectionValidator = some v ∧ v o i = false) := by
          rcases hbad with h | h | h | h
          · exact absurd h hk
          · obtain ⟨c, hc⟩ := h
            rw [hc] at hin
            simp [isArrayOrUndefined] at hin
          · obtain ⟨c, hc⟩ := h
            rw [hc] at hout
            simp [isArrayOrUndefined] at hout
          · exact h
        obtain ⟨v, hv, hvf⟩ := hval
        rw [if_pos (by
          rw [hv]
          show (!v o i) = true
          rw [hvf]
          rfl)]
      · rw [if_pos (by simp [hout])]
    · rw [if_pos (by simp [hin])]

/-- C7 witness: an input-to-input attempt on a concrete graph is refused
with no action and an unchanged node list. -/
theorem c7_silent_refusal_witness :
    createConnection ⟨false, false, false, none⟩
      [⟨"A", "A", none, none, [⟨"i0", ConnVal.undef⟩], []⟩,
       ⟨"B", "B", none, none, [⟨"i0", ConnVal.undef⟩], [⟨"o0", ConnVal.undef⟩]⟩]
      ⟨"A", 0, .input, none, none, none⟩ ⟨"B", 0, .input, none, none, none⟩ =
      some (none,
        [⟨"A", "A", none, none, [⟨"i0", ConnVal.undef⟩], []⟩,
         ⟨"B", "B", none, none, [⟨"i0", ConnVal.undef⟩], [⟨"o0", ConnVal.undef⟩]⟩]) :=
  c7_silent_refusal ⟨false, false, false, none⟩
    [⟨"A", "A", none, none, [⟨"i0", ConnVal.undef⟩], []⟩,
     ⟨"B", "B", none, none, [⟨"i0", ConnVal.undef⟩], [⟨"o0", ConnVal.undef⟩]⟩]
    ⟨"A", 0, .input, none, none, none⟩ ⟨"B", 0, .input, none, none, none⟩
    ⟨"A", "A", none, none, [⟨"i0", ConnVal.undef⟩], []⟩ ⟨"i0", ConnVal.undef⟩
    ⟨"B", "B", none, none, [⟨"i0", ConnVal.undef⟩], [⟨"o0", ConnVal.undef⟩]⟩
    ⟨"o0", ConnVal.undef⟩
    (by decide) (by decide) (by decide) (by decide) (Or.inl rfl)

/-! ### Claim C4 -/

/-- C4 (as stated, counterexample): with a hook registered **and**
`demoMode` set, `createConnection` both hands the action to the hook and
invokes `apply` itself — the resulting node list is the mutated one, not the
unchanged one — contradicting "the engine … does not itself invoke apply"
for a registered hook. -/
theorem c4_dispatch_cex :
    createConnection ⟨true, true, false, none⟩
      [⟨"A", "A", none, none, [⟨"i0", ConnVal.undef⟩], []⟩,
       ⟨"B", "B", none, none, [], [⟨"o0", ConnVal.undef⟩]⟩]
      ⟨"A", 0, .input, none, none, none⟩ ⟨"B", 0, .output, none, none, none⟩ =
      some (some (⟨"A", 0, .input, none, none, none⟩, ⟨"B", 0, .output, none, none, none⟩),
        applyConnectionCreated
          [⟨"A", "A", none, none, [⟨"i0", ConnVal.undef⟩], []⟩,
           ⟨"B", "B", none, none, [], [⟨"o0", ConnVal.undef⟩]⟩]
          ⟨"A", 0, .input, none, none, none⟩ ⟨"B", 0, .output, none, none, none⟩) ∧
    applyConnectionCreated
      [⟨"A", "A", none, none, [⟨"i0", ConnVal.undef⟩], []⟩,
       ⟨"B", "B", none, none, [], [⟨"o0", ConnVal.undef⟩]⟩]
      ⟨"A", 0, .input, none, none, none⟩ ⟨"B", 0, .output, none, none, none⟩ ≠
      [⟨"A", "A", none, none, [⟨"i0", ConnVal.undef⟩], []⟩,
       ⟨"B", "B", none, none, [], [⟨"o0", ConnVal.undef⟩]⟩] := by
  constructor
  · rfl
  · decide

/-- C4 (amended): for `ConnectionCreated`, `ConnectionRemoved`,
`NodeRemoved`, `NodeCollapseChanged` and `NodeCreated` the engine hands the
action to the hook exactly when one is registered, and invokes `apply`
itself exactly when no hook is registered **or** `demoMode` is set — so
with a hook and `demoMode` both happen; for the wheel's
`TransformationChanged` the new transformation is applied unconditionally,
the hook (when registered) is notified with a no-op continuation, and the
engine never invokes that continuation; and for `NodeMoved` the position
change is applied unconditionally before dispatch, the hook (when
registered) receives the action, and the engine invokes the (no-op)
continuation zero times. -/
theorem c4_dispatch (cfg : ConfigM) (nodes : List NodeM) (i o : EndpointM)
    (id : String) (pt : TransformM) (deltaY cx cy : ℚ)
    (ncol nscol : Option Bool) (nodeN : NodeM) (pos : V2) (ddx ddy : ℚ)
    (hok : createConnectionOk cfg nodes i o = true) :
    createConnection cfg nodes i o =
      some ((if cfg.hasOnChanged then some (i, o) else none),
            (if cfg.demoMode || !cfg.hasOnChanged
             then applyConnectionCreated nodes i o else nodes)) ∧
    connectionRemovedDispatch cfg nodes i o =
      ((if cfg.hasOnChanged then some (i, o) else none),
       (if cfg.demoMode || !cfg.hasOnChanged
        then removeConnection nodes i o else nodes)) ∧
    (∀ prs applied, removeNodeOp nodes id = some (prs, applied) →
      nodeRemovedDispatch cfg nodes id =
        some ((if cfg.hasOnChanged then some (id, prs) else none),
              (if cfg.demoMode || !cfg.hasOnChanged then applied else nodes))) ∧
    (cfg.disableZoom = false →
      onWheel cfg false pt deltaY cx cy =
        (wheelTransform pt deltaY cx cy, cfg.hasOnChanged) ∧
      (notifyOnlyDispatch cfg).engineApplies = false) ∧
    (∀ dsr, dsr = (match nscol with
        | some b => !b
        | none => match ncol with | some b => !b | none => true) →
      toggleExpandNodeSite cfg id ncol nscol =
        ((if cfg.hasOnChanged then some (id, dsr) else none),
         (if cfg.demoMode || !cfg.hasOnChanged then 1 else 0),
         (if cfg.demoMode || !cfg.hasOnChanged then some dsr else nscol))) ∧
    createNewNodeSite cfg nodes nodeN =
      ((if cfg.hasOnChanged then some nodeN else none),
       (if cfg.demoMode || !cfg.hasOnChanged then 1 else 0),
       (if cfg.demoMode || !cfg.hasOnChanged then nodes ++ [nodeN] else nodes)) ∧
    onDragEndedSite cfg id pos ddx ddy =
      ((if cfg.hasOnChanged then some (id, ⟨pos.x + ddx, pos.y + ddy⟩) else none),
       0, ⟨pos.x + ddx, pos.y + ddy⟩) := by
  refine ⟨createConnection_ok_eq cfg nodes i o hok, rfl, ?_, ?_, ?_, rfl, rfl⟩
  · intro prs applied h
    unfold nodeRemovedDispatch
    rw [h]
    rfl
  · intro hdz
    constructor
    · unfold onWheel
      rw [if_neg (by simp), if_neg (by simp [hdz])]
      rfl
    · rfl
  · intro dsr hdsr
    cases hh : cfg.hasOnChanged <;> cases hd : cfg.demoMode <;>
      simp [toggleExpandNodeSite, hh, hd, ← hdsr]

/-- C4 witness: the amended dispatch rule at a concrete configuration
(no hook, no demo mode) and a concrete two-node graph. -/
theorem c4_dispatch_witness :
    createConnection ⟨false, false, false, none⟩
      [⟨"A", "A", none, none, [⟨"i0", ConnVal.undef⟩], []⟩,
       ⟨"B", "B", none, none, [], [⟨"o0", ConnVal.undef⟩]⟩]
      ⟨"A", 0, .input, none, none, none⟩ ⟨"B", 0, .output, none, none, none⟩ =
      some ((if (false : Bool) then some (⟨"A", 0, .input, none, none, none⟩,
                ⟨"B", 0, .output, none, none, none⟩) else none),
            (if (false || !false : Bool)
             then applyConnectionCreated
               [⟨"A", "A", none, none, [⟨"i0", ConnVal.undef⟩], []⟩,
                ⟨"B", "B", none, none, [], [⟨"o0", ConnVal.undef⟩]⟩]
               ⟨"A", 0, .input, none, none, none⟩ ⟨"B", 0, .output, none, none, none⟩
             else [⟨"A", "A", none, none, [⟨"i0", ConnVal.undef⟩], []⟩,
                   ⟨"B", "B", none, none, [], [⟨"o0", ConnVal.undef⟩]⟩])) :=
  (c4_dispatch ⟨false, false, false, none⟩
    [⟨"A", "A", none, none, [⟨"i0", ConnVal.undef⟩], []⟩,
     ⟨"B", "B", none, none, [], [⟨"o0", ConnVal.undef⟩]⟩]
    ⟨"A", 0, .input, none, none, none⟩ ⟨"B", 0, .output, none, none, none⟩
    "A" ⟨0, 0, 1⟩ 1 0 0 none none ⟨"C", "C", none, none, [], []⟩ ⟨0, 0⟩ 0 0
    (by decide)).1

/-! ### Claim C6 -/

/-- C6 (as stated, counterexample): from `{dx: 50, dy: 0, zoom: 2}` a
zoom-in wheel event at screen point `(100, 0)` moves the model-space point
under the cursor: before the event screen `x = 100` corresponds to model
`x = 25`, afterwards to model `x = 40`. -/
theorem c6_zoom_anchor_cex :
    wheelTransform ⟨50, 0, 2⟩ 1 100 0 = ⟨0, 0, 5 / 2⟩ ∧
    modelCoord 2 50 100 = 25 ∧
    modelCoord (5 / 2) 0 100 = 40 ∧ (25 : ℚ) ≠ 40 := by
  refine ⟨?_, ?_, ?_, by norm_num⟩
  · unfold wheelTransform zoomFactorOf
    rw [if_pos (by norm_num)]
    show TransformM.mk (100 * (2 - 2 * (5 / 4)) + 50) (0 * (2 - 2 * (5 / 4)) + 0) (2 * (5 / 4)) = _
    norm_num
  · unfold modelCoord
    norm_num
  · unfold modelCoord
    norm_num

/-- C6 (amended): the wheel handler keeps the **model-space point whose
coordinates equal the cursor's screen coordinates** fixed on screen
(`cx·zoom' + dx' = cx·zoom + dx`, and likewise for `y`), and the zoom stays
nonzero; the model-space point that mapped **to** the cursor is preserved
exactly when `dx = cx·(1 − zoom)` and `dy = cy·(1 − zoom)` (for example at
the identity transformation), which is the situation of the spec's
Scenario D. -/
theorem c6_zoom_anchor (pt : TransformM) (deltaY cx cy : ℚ) (hz : pt.zoom ≠ 0) :
    cx * (wheelTransform pt deltaY cx cy).zoom + (wheelTransform pt deltaY cx cy).dx =
      cx * pt.zoom + pt.dx ∧
    cy * (wheelTransform pt deltaY cx cy).zoom + (wheelTransform pt deltaY cx cy).dy =
      cy * pt.zoom + pt.dy ∧
    (wheelTransform pt deltaY cx cy).zoom ≠ 0 ∧
    (pt.dx = cx * (1 - pt.zoom) →
      modelCoord (wheelTransform pt deltaY cx cy).zoom
        (wheelTransform pt deltaY cx cy).dx cx = modelCoord pt.zoom pt.dx cx) ∧
    (pt.dy = cy * (1 - pt.zoom) →
      modelCoord (wheelTransform pt deltaY cx cy).zoom
        (wheelTransform pt deltaY cx cy).dy cy = modelCoord pt.zoom pt.dy cy) := by
  have hf : zoomFactorOf deltaY ≠ 0 := by
    unfold zoomFactorOf
    split
    · norm_num
    · split
      · norm_num
      · norm_num
  have hz2 : pt.zoom * zoomFactorOf deltaY ≠ 0 := mul_ne_zero hz hf
  refine ⟨by unfold wheelTransform; ring, by unfold wheelTransform; ring, hz2, ?_, ?_⟩
  · intro hdx
    unfold wheelTransform modelCoord
    rw [hdx]
    field_simp
    ring
  · intro hdy
    unfold wheelTransform modelCoord
    rw [hdy]
    field_simp
    ring

/-- C6 witness: Scenario D — `{dx: 0, dy: 0, zoom: 1}`, zoom-out at
`(100, 100)`: the cursor-anchored point is preserved. -/
theorem c6_zoom_anchor_witness :
    100 * (wheelTransform ⟨0, 0, 1⟩ (-1) 100 100).zoom +
      (wheelTransform ⟨0, 0, 1⟩ (-1) 100 100).dx = 100 * (1 : ℚ) + 0 ∧
    100 * (wheelTransform ⟨0, 0, 1⟩ (-1) 100 100).zoom +
      (wheelTransform ⟨0, 0, 1⟩ (-1) 100 100).dy = 100 * (1 : ℚ) + 0 ∧
    (wheelTransform ⟨0, 0, 1⟩ (-1) 100 100).zoom ≠ 0 ∧
    ((0 : ℚ) = 100 * (1 - 1) →
      modelCoord (wheelTransform ⟨0, 0, 1⟩ (-1) 100 100).zoom
        (wheelTransform ⟨0, 0, 1⟩ (-1) 100 100).dx 100 = modelCoord 1 0 100) ∧
    ((0 : ℚ) = 100 * (1 - 1) →
      modelCoord (wheelTransform ⟨0, 0, 1⟩ (-1) 100 100).zoom
        (wheelTransform ⟨0, 0, 1⟩ (-1) 100 100).dy 100 = modelCoord 1 0 100) :=
  c6_zoom_anchor ⟨0, 0, 1⟩ (-1) 100 100 (by norm_num)

/-! ### Claim C9 -/

theorem layoutPlace_y (used : List RectM) (p0 : V2) :
    (layoutPlace used p0).y = ((used.getLast?).map RectM.top).getD p0.y := by
  induction used generalizing p0 with
  | nil => rfl
  | cons r rest ih =>
    have hstep : layoutPlace (r :: rest) p0 = layoutPlace rest (layoutStep p0 r) := rfl
    rw [hstep, ih]
    cases rest with
    | nil => rfl
    | cons r2 rest2 =>
      rw [List.getLast?_cons_cons]
      obtain ⟨x, hx⟩ := Option.isSome_iff_exists.mp
        (show ((r2 :: rest2).getLast?).isSome = true by
          rw [List.getLast?_isSome]
          simp)
      rw [hx]
      rfl

theorem layoutPlace_x_of_no_hit (used : List RectM) (p0 : V2)
    (h : ∀ r ∈ used, ∀ q : V2, q.x = p0.x → r.hit q = false) :
    (layoutPlace used p0).x = p0.x := by
  induction used generalizing p0 with
  | nil => rfl
  | cons r rest ih =>
    have hstep : layoutPlace (r :: rest) p0 = layoutPlace rest (layoutStep p0 r) := rfl
    have hhit : r.hit p0 = false := h r (by simp) p0 rfl
    have hx : (layoutStep p0 r).x = p0.x := by
      unfold layoutStep
      simp [hhit]
    rw [hstep]
    rw [ih (layoutStep p0 r) (fun r2 hr2 q hq => h r2 (by simp [hr2]) q (by rw [hq, hx]))]
    exact hx

theorem initialLayoutGo_map_fst (nodes : List NodeM) (used : List RectM)
    (seen : List String) (hfresh : ∀ n ∈ nodes, seen.contains n.id = false)
    (hnd : nodupIdsB nodes = true) :
    (initialLayoutGo used seen nodes).map Prod.fst = nodes.map NodeM.id := by
  induction nodes generalizing used seen with
  | nil => rfl
  | cons n rest ih =>
    unfold nodupIdsB at hnd
    rw [Bool.and_eq_true] at hnd
    obtain ⟨hn1, hn2⟩ := hnd
    have hns : seen.contains n.id = false := hfresh n (by simp)
    unfold initialLayoutGo
    rw [hns]
    simp only [Bool.false_eq_true, if_false, List.map_cons]
    congr 1
    apply ih
    · intro m hm
      have hms : seen.contains m.id = false := hfresh m (by simp [hm])
      have hmn : (m.id == n.id) = false := by
        cases hmn : (m.id == n.id) with
        | false => rfl
        | true =>
          exfalso
          have : rest.any (fun x => x.id == n.id) = true :=
            List.any_eq_true.mpr ⟨m, hm, hmn⟩
          rw [this] at hn1
          simp at hn1
      show ((n.id :: seen).contains m.id) = false
      simp only [List.contains_cons, Bool.or_eq_false_iff]
      constructor
      · simpa using hmn
      · exact hms
    · exact hn2

theorem initialLayoutGo_lookup_pos (nodes : List NodeM) (used : List RectM)
    (seen : List String) (hfresh : ∀ n ∈ nodes, seen.contains n.id = false)
    (hnd : nodupIdsB nodes = true) (n : NodeM) (hn : n ∈ nodes) (p : V2)
    (hp : n.position = some p) :
    lookupId (initialLayoutGo used seen nodes) n.id = some p := by
  induction nodes generalizing used seen with
  | nil => simp at hn
  | cons m rest ih =>
    unfold nodupIdsB at hnd
    rw [Bool.and_eq_true] at hnd
    obtain ⟨hm1, hm2⟩ := hnd
    have hms : seen.contains m.id = false := hfresh m (by simp)
    unfold initialLayoutGo
    rw [hms]
    simp only [Bool.false_eq_true, if_false]
    rcases List.mem_cons.mp hn with he | hrest
    · subst he
      unfold lookupId
      rw [show (n.id == n.id) = true from by simp, hp]
      rfl
    · have hne : (m.id == n.id) = false := by
        cases hc : (m.id == n.id) with
        | false => rfl
        | true =>
          exfalso
          have heq : m.id = n.id := by simpa using hc
          have : rest.any (fun x => x.id == m.id) = true :=
            List.any_eq_true.mpr ⟨n, hrest, by simp [heq]⟩
          rw [this] at hm1
          simp at hm1
      unfold lookupId
      rw [hne]
      simp only [Bool.false_eq_true, if_false]
      apply ih _ _ _ hm2 hrest
      intro x hx
      have hxs : seen.contains x.id = false := hfresh x (by simp [hx])
      have hxm : (x.id == m.id) = false := by
        cases hc : (x.id == m.id) with
        | false => rfl
        | true =>
          exfalso
          have : rest.any (fun y => y.id == m.id) = true :=
            List.any_eq_true.mpr ⟨x, hx, hc⟩
          rw [this] at hm1
          simp at hm1
      show ((m.id :: seen).contains x.id) = false
      simp only [List.contains_cons, Bool.or_eq_false_iff]
      constructor
      · simpa using hxm
      · exact hxs

/-- C9 (as stated, counterexample): with a first node fixed at
`(1000, 777)` and a second node without a position, the candidate
`(110, 110)` does **not** fall inside the placed rectangle, yet the second
node is placed at `(110, 777)` — its `y` was aligned to the rectangle's top
although no hit occurred, contradicting "only for each already-placed
rectangle that the candidate point falls inside … aligns the candidate's
y". -/
theorem c9_layout_cex :
    initialLayout
      [⟨"n1", "n1", some ⟨1000, 777⟩, none, [], []⟩,
       ⟨"n2", "n2", none, none, [], []⟩] =
      [("n1", ⟨1000, 777⟩), ("n2", ⟨110, 777⟩)] ∧
    RectM.hit ⟨⟨1000, 777⟩, ⟨100, 100⟩⟩ ⟨110, 110⟩ = false := by
  have hhit : RectM.hit ⟨⟨1000, 777⟩, ⟨100, 100⟩⟩ ⟨110, 110⟩ = false := by
    unfold RectM.hit
    have h1 : ¬((1000 : ℚ) ≤ 110) := by norm_num
    simp [h1]
  refine ⟨?_, hhit⟩
  unfold initialLayout initialLayoutGo layoutPlace layoutStep
  simp [hhit]
  unfold initialLayoutGo
  simp [hhit]
  constructor
  · unfold layoutPlace layoutStep
    simp [hhit]
    rfl
  · rfl

/-- C9 (amended): placement follows the host order and nodes carrying a
fixed position keep it; for a node without one, the candidate starts at the
base position `(110, 110)`, its `x` is shifted past a placed rectangle's
right edge plus margin **only** on a hit, but its `y` is aligned to the top
of **every** previously placed rectangle in turn — so it ends at the last
placed rectangle's top (base `y` when nothing was placed), hit or not. -/
theorem c9_layout (nodes : List NodeM) (hnd : nodupIdsB nodes = true) :
    ((initialLayout nodes).map Prod.fst = nodes.map NodeM.id) ∧
    (∀ n ∈ nodes, ∀ p, n.position = some p →
      lookupId (initialLayout nodes) n.id = some p) ∧
    (∀ used p0, (layoutPlace used p0).y = ((used.getLast?).map RectM.top).getD p0.y) ∧
    (∀ used p0, (∀ r ∈ used, ∀ q : V2, q.x = p0.x → r.hit q = false) →
      (layoutPlace used p0).x = p0.x) := by
  refine ⟨?_, ?_, layoutPlace_y, layoutPlace_x_of_no_hit⟩
  · exact initialLayoutGo_map_fst nodes [] [] (fun n _ => rfl) hnd
  · intro n hn p hp
    exact initialLayoutGo_lookup_pos nodes [] [] (fun n _ => rfl) hnd n hn p hp

/-- C9 witness: the amended description at a concrete two-node list. -/
theorem c9_layout_witness :
    ((initialLayout
      [⟨"n1", "n1", some ⟨1000, 777⟩, none, [], []⟩,
       ⟨"n2", "n2", none, none, [], []⟩]).map Prod.fst =
      ["n1", "n2"]) ∧
    (∀ n ∈ [⟨"n1", "n1", some ⟨1000, 777⟩, none, [], []⟩,
            (⟨"n2", "n2", none, none, [], []⟩ : NodeM)], ∀ p, n.position = some p →
      lookupId (initialLayout
        [⟨"n1", "n1", some ⟨1000, 777⟩, none, [], []⟩,
         ⟨"n2", "n2", none, none, [], []⟩]) n.id = some p) ∧
    (∀ used p0, (layoutPlace used p0).y = ((used.getLast?).map RectM.top).getD p0.y) ∧
    (∀ used p0, (∀ r ∈ used, ∀ q : V2, q.x = p0.x → r.hit q = false) →
      (layoutPlace used p0).x = p0.x) :=
  c9_layout
    [⟨"n1", "n1", some ⟨1000, 777⟩, none, [], []⟩,
     ⟨"n2", "n2", none, none, [], []⟩] (by decide)

/-! ### Claim C8: the derivation loop -/

theorem dictLookup_isSome_any (nodes : List NodeM) (id : String) :
    (dictLookup nodes id).isSome = nodes.any (fun n => n.id == id) := by
  suffices h : ∀ acc : Option NodeM,
      (nodes.foldl (fun acc n => if n.id == id then some n else acc) acc).isSome =
        (acc.isSome || nodes.any (fun n => n.id == id)) by
    have := h none
    simpa [dictLookup] using this
  induction nodes with
  | nil => intro acc; simp
  | cons n rest ih =>
    intro acc
    simp only [List.foldl_cons, List.any_cons]
    rw [ih]
    by_cases hn : n.id = id
    · simp [hn]
    · have hb : (n.id == id) = false := by simp [hn]
      simp [hn, hb]

theorem listFindIdx_isNone_any (p : α → Bool) (l : List α) :
    (listFindIdx p l).isNone = !(l.any p) := by
  induction l with
  | nil => rfl
  | cons a l ih =>
    unfold listFindIdx
    by_cases ha : p a = true
    · simp [ha]
    · have ha2 : p a = false := by
        cases hc : p a with
        | false => rfl
        | true => exact absurd hc ha
      simp only [ha2, Bool.false_eq_true, if_false, List.any_cons, Bool.false_or]
      rw [← ih]
      cases listFindIdx p l <;> rfl

theorem findNodeIdx_isNone_of_dict (nodes : List NodeM) (id : String)
    (h : (dictLookup nodes id).isSome = true) :
    (findNodeIdx nodes id).isNone = false := by
  unfold findNodeIdx
  rw [listFindIdx_isNone_any]
  rw [dictLookup_isSome_any] at h
  simp [h]

theorem listEnumFrom_succ_flatMap (l : List α) (f : Nat × α → List β) (k : Nat) :
    (listEnumFrom (k + 1) l).flatMap f =
      (listEnumFrom k l).flatMap (fun jp => f (jp.1 + 1, jp.2)) := by
  induction l generalizing k with
  | nil => rfl
  | cons a l ih =>
    show f (k + 1, a) ++ (listEnumFrom (k + 2) l).flatMap f = _
    rw [ih (k + 1)]
    rfl

theorem effIdx_zero (nodes : List NodeM) (ports : List PortM) :
    effIdx nodes ports 0 = 0 := rfl

theorem effIdx_succ (nodes : List NodeM) (p : PortM) (rest : List PortM) (j : Nat) :
    effIdx nodes (p :: rest) (j + 1) =
      (if portAdvances nodes p then 1 else 0) + effIdx nodes rest j := by
  unfold effIdx
  rw [show (p :: rest).take (j + 1) = p :: rest.take j from rfl]
  rw [List.filter_cons]
  by_cases h : portAdvances nodes p = true
  · simp only [h, if_true, List.length_cons]
    omega
  · have h2 : portAdvances nodes p = false := by
      cases hc : portAdvances nodes p with
      | false => rfl
      | true => exact absurd hc h
    simp [h2]

theorem deriveArrGo_eq (nodes : List NodeM) (nd : NodeM) (i : Nat) (cs : List Conn)
    (L : List DerivedPair) (h : deriveArrGo nodes nd i cs = some L) :
    L = (cs.filter (fun c => (dictLookup nodes c.nodeId).isSome)).map (fun c =>
      ⟨specOutEp nodes nd c, ⟨nd.id, i, .input, c.classNames, c.notes, none⟩⟩) := by
  induction cs generalizing L with
  | nil =>
    unfold deriveArrGo at h
    injection h with h
    rw [← h]
    rfl
  | cons c rest ih =>
    unfold deriveArrGo at h
    split at h
    next hd =>
      rw [List.filter_cons,
        if_neg (show ¬((dictLookup nodes c.nodeId).isSome = true) from by rw [hd]; simp)]
      exact ih L h
    next opp hd =>
      split at h
      next hp => exact absurd h (by simp)
      next oppPort hp =>
        split at h
        next hf => exact absurd h (by simp)
        next oppConn hf =>
          cases hrest : deriveArrGo nodes nd i rest with
          | none => rw [hrest] at h; exact absurd h (by simp)
          | some t =>
            rw [hrest] at h
            injection h with h
            rw [← h]
            rw [List.filter_cons,
              if_pos (show ((dictLookup nodes c.nodeId).isSome) = true from by rw [hd]; rfl)]
            rw [List.map_cons]
            congr 1
            · simp only [specOutEp, hd, hp, hf]
            · exact ih t hrest

theorem deriveInputsGo_eq (nodes : List NodeM) (nd : NodeM) (ports : List PortM)
    (i : Nat) (L : List DerivedPair) (h : deriveInputsGo nodes nd i ports = some L) :
    L = (listEnum ports).flatMap (fun jp =>
      (liveRefs nodes jp.2).map (fun c =>
        ⟨specOutEp nodes nd c,
         ⟨nd.id, i + effIdx nodes ports jp.1, .input, c.classNames, c.notes, none⟩⟩)) := by
  induction ports generalizing i L with
  | nil =>
    unfold deriveInputsGo at h
    injection h with h
    rw [← h]
    rfl
  | cons p rest ih =>
    have henum : listEnum (p :: rest) = (0, p) :: listEnumFrom 1 rest := rfl
    rw [henum, List.flatMap_cons]
    unfold deriveInputsGo at h
    split at h
    next hc =>
      have hadv : portAdvances nodes p = false := by
        unfold portAdvances
        rw [hc]
      have hlive : liveRefs nodes p = [] := by
        unfold liveRefs
        rw [hc]
      rw [hlive]
      simp only [List.map_nil, List.nil_append]
      rw [show (1 : Nat) = 0 + 1 from rfl, listEnumFrom_succ_flatMap]
      simp only [effIdx_succ, hadv, Bool.false_eq_true, if_false, Nat.zero_add]
      exact ih i L h
    next cs hc =>
      cases hprs : deriveArrGo nodes nd i cs with
      | none => rw [hprs] at h; exact absurd h (by simp)
      | some prs =>
        rw [hprs] at h
        cases hrest : deriveInputsGo nodes nd (i + 1) rest with
        | none => rw [hrest] at h; exact absurd h (by simp)
        | some t =>
          rw [hrest] at h
          injection h with h
          rw [← h]
          have hadv : portAdvances nodes p = true := by
            unfold portAdvances
            rw [hc]
          have hlive : liveRefs nodes p =
              cs.filter (fun c => (dictLookup nodes c.nodeId).isSome) := by
            unfold liveRefs
            rw [hc]
          rw [hlive]
          rw [show (1 : Nat) = 0 + 1 from rfl, listEnumFrom_succ_flatMap]
          simp only [effIdx_succ, hadv, if_true, effIdx_zero, Nat.add_zero]
          congr 1
          · exact deriveArrGo_eq nodes nd i cs prs hprs
          · rw [ih (i + 1) t hrest]
            simp only [Nat.add_assoc]
            rfl
    next c hc =>
      split at h
      next hd =>
        have hadv : portAdvances nodes p = false := by
          simp [portAdvances, hc, hd]
        have hlive : liveRefs nodes p = [] := by
          simp [liveRefs, hc, hd]
        rw [hlive]
        simp only [List.map_nil, List.nil_append]
        rw [show (1 : Nat) = 0 + 1 from rfl, listEnumFrom_succ_flatMap]
        simp only [effIdx_succ, hadv, Bool.false_eq_true, if_false, Nat.zero_add]
        exact ih i L h
      next opp hd =>
        split at h
        next hp => exact absurd h (by simp)
        next oppPort hp =>
          split at h
          next hT =>
            rw [findNodeIdx_isNone_of_dict nodes c.nodeId (by rw [hd]; rfl)] at hT
            exact Bool.noConfusion hT
          next hF =>
            split at h
            next hf => exact absurd h (by simp)
            next oppConn hf =>
              cases hrest : deriveInputsGo nodes nd (i + 1) rest with
              | none => rw [hrest] at h; exact absurd h (by simp)
              | some t =>
                rw [hrest] at h
                injection h with h
                rw [← h]
                have hadv : portAdvances nodes p = true := by
                  simp [portAdvances, hc, hd]
                have hlive : liveRefs nodes p = [c] := by
                  simp [liveRefs, hc, hd]
                rw [hlive]
                rw [show (1 : Nat) = 0 + 1 from rfl, listEnumFrom_succ_flatMap]
                simp only [effIdx_succ, hadv, if_true, effIdx_zero, Nat.add_zero,
                  List.map_cons, List.map_nil, List.singleton_append]
                congr 1
                · congr 1
                  simp only [specOutEp, hd, hp, hf]
                · rw [ih (i + 1) t hrest]
                  simp only [Nat.add_assoc]
                  rfl

theorem deriveAllGo_eq (nodes : List NodeM) (rest : List NodeM)
    (L : List DerivedPair) (h : deriveAllGo nodes rest = some L) :
    L = rest.flatMap (specPairsOfNode nodes) := by
  induction rest generalizing L with
  | nil =>
    unfold deriveAllGo at h
    injection h with h
    rw [← h]
    rfl
  | cons nd rest2 ih =>
    unfold deriveAllGo at h
    cases ha : deriveInputsGo nodes nd 0 nd.inputs with
    | none => rw [ha] at h; exact absurd h (by simp)
    | some a =>
      rw [ha] at h
      cases hb : deriveAllGo nodes rest2 with
      | none => rw [hb] at h; exact absurd h (by simp)
      | some b =>
        rw [hb] at h
        injection h with h
        rw [← h, List.flatMap_cons]
        congr 1
        · have he := deriveInputsGo_eq nodes nd nd.inputs 0 a ha
          rw [he]
          unfold specPairsOfNode
          simp only [Nat.zero_add]
        · exact ih b hb

/-- C8 (as stated, counterexample): node `A` has input 0 with
`connection === undefined` and input 1 holding a single reference to
`{B, 0}`; the derivation succeeds and emits exactly one pair, but its input
endpoint carries port `0`, not the port's index `1` in the inputs sequence —
the loop counter `i` is incremented at the end of the body, after the
`continue` for an undefined connection has skipped it. -/
theorem c8_derive_cex :
    deriveConnections
      [⟨"A", "A", none, none,
        [⟨"a0", ConnVal.undef⟩, ⟨"a1", ConnVal.single ⟨"B", 0, none, none⟩⟩], []⟩,
       ⟨"B", "B", none, none, [], [⟨"b0", ConnVal.single ⟨"A", 1, none, none⟩⟩]⟩] =
      some [⟨⟨"B", 0, .output, none, none, none⟩, ⟨"A", 0, .input, none, none, none⟩⟩] ∧
    (⟨"A", "A", none, none,
        [⟨"a0", ConnVal.undef⟩, ⟨"a1", ConnVal.single ⟨"B", 0, none, none⟩⟩], []⟩ :
      NodeM).inputs.get? 1 = some ⟨"a1", ConnVal.single ⟨"B", 0, none, none⟩⟩ := by
  constructor
  · decide
  · rfl

/-- C8 (amended): on a render pass on which the derivation does not throw,
the derived edge list contains exactly one directed pair per connection
reference stored on an input port whose peer node is present, in node and
port order; the emitted output endpoint is the stored `{nodeId, port}`
(decorated from the peer's back-reference), references to absent peer nodes
are skipped without error, and the emitted input endpoint's port is the
**running count** of earlier input ports that completed an iteration (ports
with a defined connection, except single references to absent peers) — not
the port's index in the inputs sequence. -/
theorem c8_render_derivation (nodes : List NodeM) (L : List DerivedPair)
    (h : deriveConnections nodes = some L) : L = specDerived nodes := by
  unfold deriveConnections at h
  exact deriveAllGo_eq nodes nodes L h

/-- C8 witness: the positional description evaluated on the
counterexample's concrete graph. -/
theorem c8_render_derivation_witness :
    [(⟨⟨"B", 0, .output, none, none, none⟩,
       ⟨"A", 0, .input, none, none, none⟩⟩ : DerivedPair)] =
      specDerived
        [⟨"A", "A", none, none,
          [⟨"a0", ConnVal.undef⟩, ⟨"a1", ConnVal.single ⟨"B", 0, none, none⟩⟩], []⟩,
         ⟨"B", "B", none, none, [], [⟨"b0", ConnVal.single ⟨"A", 1, none, none⟩⟩]⟩] :=
  c8_render_derivation
    [⟨"A", "A", none, none,
      [⟨"a0", ConnVal.undef⟩, ⟨"a1", ConnVal.single ⟨"B", 0, none, none⟩⟩], []⟩,
     ⟨"B", "B", none, none, [], [⟨"b0", ConnVal.single ⟨"A", 1, none, none⟩⟩]⟩]
    [⟨⟨"B", 0, .output, none, none, none⟩, ⟨"A", 0, .input, none, none, none⟩⟩]
    (by decide)

/-! ### Reference keys, removal, and counting (C3/C5 infrastructure) -/

theorem map_eraseIdx (f : α → β) (l : List α) (k : Nat) :
    (l.eraseIdx k).map f = (l.map f).eraseIdx k := by
  induction l generalizing k with
  | nil => cases k <;> rfl
  | cons a l ih =>
    cases k with
    | zero => rfl
    | succ k =>
      show f a :: (l.eraseIdx k).map f = f a :: (l.map f).eraseIdx k
      rw [ih]

theorem count_eraseIdx_of_get [BEq α] [LawfulBEq α] (l : List α) (k : Nat) (a : α)
    (h : l.get? k = some a) :
    (l.eraseIdx k).count a + 1 = l.count a := by
  induction l generalizing k with
  | nil => cases k <;> exact absurd h (by simp)
  | cons b l ih =>
    cases k with
    | zero =>
      injection h with h
      show l.count a + 1 = (b :: l).count a
      rw [h, List.count_cons_self]
    | succ k =>
      show (b :: l.eraseIdx k).count a + 1 = (b :: l).count a
      rw [List.count_cons, List.count_cons]
      have := ih k h
      omega

theorem listFindIdx_get (p : α → Bool) (l : List α) (k : Nat)
    (h : listFindIdx p l = some k) : ∃ b, l.get? k = some b ∧ p b = true := by
  induction l generalizing k with
  | nil => exact absurd h (by simp [listFindIdx])
  | cons a l ih =>
    unfold listFindIdx at h
    by_cases ha : p a = true
    · rw [if_pos ha] at h
      injection h with h
      subst h
      exact ⟨a, rfl, ha⟩
    · rw [if_neg ha] at h
      cases hrec : listFindIdx p l with
      | none => rw [hrec] at h; exact absurd h (by simp)
      | some k2 =>
        rw [hrec] at h
        have h2 : some (k2 + 1) = some k := h
        injection h2 with h2
        obtain ⟨b, hb1, hb2⟩ := ih k2 hrec
        refine ⟨b, ?_, hb2⟩
        rw [← h2]
        exact hb1

theorem listFindIdx_none_forall (p : α → Bool) (l : List α)
    (h : listFindIdx p l = none) : ∀ b ∈ l, p b = false := by
  induction l with
  | nil => intro b hb; simp at hb
  | cons a l ih =>
    unfold listFindIdx at h
    by_cases ha : p a = true
    · rw [if_pos ha] at h; exact absurd h (by simp)
    · rw [if_neg ha] at h
      intro b hb
      rcases List.mem_cons.mp hb with he | hm
      · subst he
        cases hpa : p b with
        | false => rfl
        | true => exact absurd hpa ha
      · cases hrec : listFindIdx p l with
        | none => exact ih hrec b hm
        | some k => rw [hrec] at h; exact absurd h (by simp)

theorem listFindIdx_none_of_forall (p : α → Bool) (l : List α)
    (h : ∀ b ∈ l, p b = false) : listFindIdx p l = none := by
  induction l with
  | nil => rfl
  | cons a l ih =>
    unfold listFindIdx
    rw [if_neg (by simp [h a (List.mem_cons_self a l)])]
    rw [ih (fun b hb => h b (List.mem_cons_of_mem a hb))]
    rfl

theorem rFAOV_arr_inl (cs : List Conn) (t : Conn) :
    removeFromArrayOrValue (ConnVal.arr cs) (Sum.inl t) =
      match findRemoveIdx cs t with
      | none => ConnVal.arr cs
      | some k => ConnVal.arr (cs.eraseIdx k) := rfl

theorem connListOf_rFAOV_sublist (v : ConnVal) (t : Conn) :
    List.Sublist (connListOf (removeFromArrayOrValue v (Sum.inl t))) (connListOf v) := by
  cases v with
  | undef => exact List.Sublist.refl _
  | single c => exact List.nil_sublist _
  | arr cs =>
    rw [rFAOV_arr_inl]
    cases hk : findRemoveIdx cs t with
    | none => exact List.Sublist.refl _
    | some k => exact List.eraseIdx_sublist cs k

theorem refKeys_rFAOV_sublist (v : ConnVal) (t : Conn) :
    List.Sublist (refKeys (removeFromArrayOrValue v (Sum.inl t))) (refKeys v) :=
  List.Sublist.map _ (connListOf_rFAOV_sublist v t)

theorem mem_refKeys_iff (v : ConnVal) (nid : String) (np : Nat) :
    (nid, np) ∈ refKeys v ↔ ∃ c ∈ connListOf v, c.nodeId = nid ∧ c.port = np := by
  unfold refKeys
  rw [List.mem_map]
  constructor
  · rintro ⟨c, hc, he⟩
    injection he with h1 h2
    exact ⟨c, hc, h1, h2⟩
  · rintro ⟨c, hc, h1, h2⟩
    refine ⟨c, hc, ?_⟩
    rw [h1, h2]

theorem compareConnections_key (t b : Conn) :
    compareConnections t b = true ↔ b.nodeId = t.nodeId ∧ b.port = t.port := by
  unfold compareConnections
  rw [Bool.and_eq_true]
  constructor
  · rintro ⟨h1, h2⟩
    have e1 : t.port = b.port := eq_of_beq h1
    have e2 : t.nodeId = b.nodeId := eq_of_beq h2
    exact ⟨e2.symm, e1.symm⟩
  · rintro ⟨h1, h2⟩
    exact ⟨beq_of_eq h2.symm, beq_of_eq h1.symm⟩

theorem key_not_mem_rFAOV (v : ConnVal) (t : Conn)
    (hcount : (refKeys v).count (t.nodeId, t.port) ≤ 1) :
    (t.nodeId, t.port) ∉ refKeys (removeFromArrayOrValue v (Sum.inl t)) := by
  cases v with
  | undef => intro hmem; simp [removeFromArrayOrValue, refKeys, connListOf] at hmem
  | single c => intro hmem; simp [removeFromArrayOrValue, refKeys, connListOf] at hmem
  | arr cs =>
    rw [rFAOV_arr_inl]
    cases hk : findRemoveIdx cs t with
    | none =>
      intro hmem
      obtain ⟨c, hc, h1, h2⟩ := (mem_refKeys_iff _ _ _).mp hmem
      have hall := listFindIdx_none_forall (compareConnections t) cs hk
      have hcmp : compareConnections t c = true := (compareConnections_key t c).mpr ⟨h1, h2⟩
      rw [hall c hc] at hcmp
      exact Bool.noConfusion hcmp
    | some k =>
      intro hmem
      obtain ⟨b, hb1, hb2⟩ := listFindIdx_get _ _ _ hk
      obtain ⟨hbn, hbp⟩ := (compareConnections_key t b).mp hb2
      have hkey : (refKeys (ConnVal.arr cs)).get? k = some (t.nodeId, t.port) := by
        unfold refKeys connListOf
        rw [List.get?_map, hb1]
        show some (b.nodeId, b.port) = some (t.nodeId, t.port)
        rw [hbn, hbp]
      have hcnt := count_eraseIdx_of_get (refKeys (ConnVal.arr cs)) k (t.nodeId, t.port) hkey
      have hre : refKeys (ConnVal.arr (cs.eraseIdx k)) =
          (refKeys (ConnVal.arr cs)).eraseIdx k := by
        unfold refKeys connListOf
        exact map_eraseIdx _ cs k
      rw [hre] at hmem
      have hz : ((refKeys (ConnVal.arr cs)).eraseIdx k).count (t.nodeId, t.port) = 0 := by
        omega
      exact (List.count_eq_zero.mp hz) hmem

/-! ### removeConnection at the level of port locations -/

theorem inputConnAt_removeConnection_self (s : List NodeM) (a b : EndpointM) :
    inputConnAt (removeConnection s a b) a.nodeId a.port =
      (inputConnAt s a.nodeId a.port).map
        (fun v => removeFromArrayOrValue v (Sum.inl ⟨b.nodeId, b.port, none, none⟩)) := by
  unfold removeConnection
  rw [inputConnAt_modifyOutputConn, inputConnAt_modifyInputConn_self]

theorem inputConnAt_removeConnection_other (s : List NodeM) (a b : EndpointM)
    (id : String) (j : Nat) (h : id ≠ a.nodeId ∨ j ≠ a.port) :
    inputConnAt (removeConnection s a b) id j = inputConnAt s id j := by
  unfold removeConnection
  rw [inputConnAt_modifyOutputConn, inputConnAt_modifyInputConn_other _ _ _ _ _ _ h]

theorem outputConnAt_removeConnection_self (s : List NodeM) (a b : EndpointM) :
    outputConnAt (removeConnection s a b) b.nodeId b.port =
      (outputConnAt s b.nodeId b.port).map
        (fun v => removeFromArrayOrValue v (Sum.inl ⟨a.nodeId, a.port, none, none⟩)) := by
  unfold removeConnection
  rw [outputConnAt_modifyOutputConn_self, outputConnAt_modifyInputConn]

theorem outputConnAt_removeConnection_other (s : List NodeM) (a b : EndpointM)
    (id : String) (j : Nat) (h : id ≠ b.nodeId ∨ j ≠ b.port) :
    outputConnAt (removeConnection s a b) id j = outputConnAt s id j := by
  unfold removeConnection
  rw [outputConnAt_modifyOutputConn_other _ _ _ _ _ _ h, outputConnAt_modifyInputConn]

theorem inputConnAt_removeConnection_back (s : List NodeM) (a b : EndpointM)
    (id : String) (j : Nat) (v' : ConnVal)
    (h : inputConnAt (removeConnection s a b) id j = some v') :
    ∃ v, inputConnAt s id j = some v ∧ List.Sublist (refKeys v') (refKeys v) := by
  by_cases hc : id = a.nodeId ∧ j = a.port
  · obtain ⟨h1, h2⟩ := hc
    subst h1; subst h2
    rw [inputConnAt_removeConnection_self] at h
    cases hv : inputConnAt s a.nodeId a.port with
    | none => rw [hv] at h; exact absurd h (by simp)
    | some v =>
      rw [hv] at h
      injection h with h
      rw [← h]
      exact ⟨v, rfl, refKeys_rFAOV_sublist v _⟩
  · rw [inputConnAt_removeConnection_other _ _ _ _ _ (not_and_or.mp hc)] at h
    exact ⟨v', h, List.Sublist.refl _⟩

theorem outputConnAt_removeConnection_back (s : List NodeM) (a b : EndpointM)
    (id : String) (j : Nat) (v' : ConnVal)
    (h : outputConnAt (removeConnection s a b) id j = some v') :
    ∃ v, outputConnAt s id j = some v ∧ List.Sublist (refKeys v') (refKeys v) := by
  by_cases hc : id = b.nodeId ∧ j = b.port
  · obtain ⟨h1, h2⟩ := hc
    subst h1; subst h2
    rw [outputConnAt_removeConnection_self] at h
    cases hv : outputConnAt s b.nodeId b.port with
    | none => rw [hv] at h; exact absurd h (by simp)
    | some v =>
      rw [hv] at h
      injection h with h
      rw [← h]
      exact ⟨v, rfl, refKeys_rFAOV_sublist v _⟩
  · rw [outputConnAt_removeConnection_other _ _ _ _ _ (not_and_or.mp hc)] at h
    exact ⟨v', h, List.Sublist.refl _⟩

theorem inputConnAt_foldRemove_back (l : List (EndpointM × EndpointM)) (s : List NodeM)
    (id : String) (j : Nat) (v' : ConnVal)
    (h : inputConnAt (l.foldl (fun acc pr => removeConnection acc pr.1 pr.2) s) id j = some v') :
    ∃ v, inputConnAt s id j = some v ∧ List.Sublist (refKeys v') (refKeys v) := by
  induction l generalizing s with
  | nil => exact ⟨v', h, List.Sublist.refl _⟩
  | cons pr l ih =>
    rw [List.foldl_cons] at h
    obtain ⟨v1, hv1, hs1⟩ := ih _ h
    obtain ⟨v0, hv0, hs0⟩ := inputConnAt_removeConnection_back s pr.1 pr.2 id j v1 hv1
    exact ⟨v0, hv0, List.Sublist.trans hs1 hs0⟩

theorem outputConnAt_foldRemove_back (l : List (EndpointM × EndpointM)) (s : List NodeM)
    (id : String) (j : Nat) (v' : ConnVal)
    (h : outputConnAt (l.foldl (fun acc pr => removeConnection acc pr.1 pr.2) s) id j = some v') :
    ∃ v, outputConnAt s id j = some v ∧ List.Sublist (refKeys v') (refKeys v) := by
  induction l generalizing s with
  | nil => exact ⟨v', h, List.Sublist.refl _⟩
  | cons pr l ih =>
    rw [List.foldl_cons] at h
    obtain ⟨v1, hv1, hs1⟩ := ih _ h
    obtain ⟨v0, hv0, hs0⟩ := outputConnAt_removeConnection_back s pr.1 pr.2 id j v1 hv1
    exact ⟨v0, hv0, List.Sublist.trans hs1 hs0⟩

theorem updateFirstNode_map_id (nodes : List NodeM) (id : String) (f : NodeM → NodeM)
    (hpres : ∀ n, (f n).id = n.id) :
    (updateFirstNode nodes id f).map NodeM.id = nodes.map NodeM.id := by
  induction nodes with
  | nil => rfl
  | cons n rest ih =>
    unfold updateFirstNode
    by_cases h2 : (n.id == id) = true
    · rw [if_pos h2]
      show (f n).id :: rest.map NodeM.id = n.id :: rest.map NodeM.id
      rw [hpres n]
    · rw [if_neg h2]
      show n.id :: (updateFirstNode rest id f).map NodeM.id = n.id :: rest.map NodeM.id
      rw [ih]

theorem modifyInputConn_map_id (nodes : List NodeM) (id : String) (j : Nat)
    (f : ConnVal → ConnVal) :
    (modifyInputConn nodes id j f).map NodeM.id = nodes.map NodeM.id := by
  unfold modifyInputConn
  exact updateFirstNode_map_id _ _ _ (fun n => rfl)

theorem modifyOutputConn_map_id (nodes : List NodeM) (id : String) (j : Nat)
    (f : ConnVal → ConnVal) :
    (modifyOutputConn nodes id j f).map NodeM.id = nodes.map NodeM.id := by
  unfold modifyOutputConn
  exact updateFirstNode_map_id _ _ _ (fun n => rfl)

theorem removeConnection_map_id (s : List NodeM) (a b : EndpointM) :
    (removeConnection s a b).map NodeM.id = s.map NodeM.id := by
  rw [show removeConnection s a b = modifyOutputConn
      (modifyInputConn s a.nodeId a.port
        (fun v => removeFromArrayOrValue v (Sum.inl ⟨b.nodeId, b.port, none, none⟩)))
      b.nodeId b.port
      (fun v => removeFromArrayOrValue v (Sum.inl ⟨a.nodeId, a.port, none, none⟩)) from rfl]
  rw [modifyOutputConn_map_id, modifyInputConn_map_id]

theorem foldRemove_map_id (l : List (EndpointM × EndpointM)) (s : List NodeM) :
    (l.foldl (fun acc pr => removeConnection acc pr.1 pr.2) s).map NodeM.id = s.map NodeM.id := by
  induction l generalizing s with
  | nil => rfl
  | cons pr l ih => rw [List.foldl_cons, ih, removeConnection_map_id]

theorem count_le_one_of_nodupIdsB (nodes : List NodeM) (h : nodupIdsB nodes = true)
    (id : String) : (nodes.map NodeM.id).count id ≤ 1 := by
  induction nodes with
  | nil => simp
  | cons n rest ih =>
    unfold nodupIdsB at h
    rw [Bool.and_eq_true] at h
    obtain ⟨h1, h2⟩ := h
    rw [List.map_cons, List.count_cons]
    by_cases he : id = n.id
    · have hz : (rest.map NodeM.id).count id = 0 := by
        rw [List.count_eq_zero]
        intro hmem
        obtain ⟨m, hm, hme⟩ := List.mem_map.mp hmem
        have hany : rest.any (fun m => m.id == n.id) = true :=
          List.any_eq_true.mpr ⟨m, hm, by simp [hme, he]⟩
        rw [hany] at h1
        exact Bool.noConfusion h1
      rw [hz, if_pos (by simp [he])]
    · rw [if_neg (by simp only [beq_iff_eq]; exact fun hx => he hx.symm)]
      have := ih h2
      omega

theorem findNode_eq_of_mem (nodes : List NodeM) (n : NodeM)
    (hn : n ∈ nodes) (hnd : ∀ id, (nodes.map NodeM.id).count id ≤ 1) :
    findNode nodes n.id = some n := by
  induction nodes with
  | nil => simp at hn
  | cons m rest ih =>
    rcases List.mem_cons.mp hn with he | hm
    · subst he
      unfold findNode
      rw [List.find?_cons_of_pos _ (by simp)]
    · have hne : m.id ≠ n.id := by
        intro he2
        have hcount := hnd m.id
        rw [List.map_cons, List.count_cons, if_pos (by simp)] at hcount
        have hz : (rest.map NodeM.id).count m.id = 0 := by omega
        have hmem : m.id ∈ rest.map NodeM.id :=
          List.mem_map.mpr ⟨n, hm, he2.symm⟩
        exact (List.count_eq_zero.mp hz) hmem
      unfold findNode
      rw [List.find?_cons_of_neg _ (by simp [hne])]
      refine ih hm (fun id => ?_)
      have := hnd id
      rw [List.map_cons, List.count_cons] at this
      split at this <;> omega

/-! ### Enumeration membership (cascade-delete infrastructure) -/

theorem mem_listEnumFrom_of_get? (l : List α) (k j : Nat) (p : α)
    (h : l.get? j = some p) : (k + j, p) ∈ listEnumFrom k l := by
  induction l generalizing k j with
  | nil => simp at h
  | cons a l ih =>
    cases j with
    | zero =>
      injection h with h
      rw [Nat.add_zero, ← h]
      exact List.mem_cons_self _ _
    | succ j =>
      have hm := ih (k + 1) j h
      rw [show k + (j + 1) = (k + 1) + j from by omega]
      exact List.mem_cons_of_mem _ hm

theorem mem_listEnum_of_get? (l : List α) (j : Nat) (p : α)
    (h : l.get? j = some p) : (j, p) ∈ listEnum l := by
  have hm := mem_listEnumFrom_of_get? l 0 j p h
  rw [Nat.zero_add] at hm
  exact hm

theorem keysNodup_count (l : List (String × Nat)) (h : keysNodup l = true)
    (a : String × Nat) : l.count a ≤ 1 := by
  induction l with
  | nil => simp
  | cons b l ih =>
    unfold keysNodup at h
    rw [Bool.and_eq_true] at h
    obtain ⟨h1, h2⟩ := h
    rw [List.count_cons]
    split
    next hbe =>
      have he2 : b = a := eq_of_beq hbe
      have hz : l.count a = 0 := by
        rw [List.count_eq_zero]
        intro hmem
        have hc : l.contains b = true := by
          rw [he2]
          exact List.elem_eq_true_of_mem hmem
        rw [hc] at h1
        exact Bool.noConfusion h1
      omega
    next =>
      have := ih h2
      omega

theorem epPredicateO_true_of_ref (ndId : String) (p : PortM) (c : Conn)
    (hc : c ∈ connListOf p.connection) (hid : c.nodeId = ndId) :
    epPredicateO ndId none p = some true := by
  unfold epPredicateO
  cases hv : p.connection with
  | undef => rw [hv] at hc; simp [connListOf] at hc
  | single c0 =>
    rw [hv] at hc
    have he : c = c0 := by simpa [connListOf] using hc
    show some (compEp ndId none c0) = some true
    unfold compEp
    rw [← he]
    simp [hid]
  | arr cs =>
    rw [hv] at hc
    show some (cs.any (compEp ndId none)) = some true
    have ha : cs.any (compEp ndId none) = true :=
      List.any_eq_true.mpr ⟨c, hc, by unfold compEp; simp [hid]⟩
    rw [ha]

theorem nodeIdPredicateB_of_ref (v : ConnVal) (P : NodeM) (c : Conn)
    (hc : c ∈ connListOf v) (hid : c.nodeId = P.id) :
    nodeIdPredicateB v P = true := by
  cases v with
  | undef => simp [connListOf] at hc
  | single c0 =>
    have he : c = c0 := by simpa [connListOf] using hc
    show (P.id == c0.nodeId) = true
    rw [← he, hid]
    simp
  | arr cs =>
    show (cs.any fun c2 => c2.nodeId == P.id) = true
    exact List.any_eq_true.mpr ⟨c, hc, by simp [hid]⟩

theorem isEmptyArrayOrUndefined_false_of_ref (v : ConnVal) (c : Conn)
    (hc : c ∈ connListOf v) : isEmptyArrayOrUndefined v = false := by
  cases v with
  | undef => simp [connListOf] at hc
  | single c0 => rfl
  | arr cs =>
    cases cs with
    | nil => simp [connListOf] at hc
    | cons a l => rfl

theorem find?_of_listFindIdx (p : α → Bool) (l : List α) (k : Nat) (b : α)
    (hk : listFindIdx p l = some k) (hg : l.get? k = some b) : l.find? p = some b := by
  induction l generalizing k with
  | nil => simp [listFindIdx] at hk
  | cons a l ih =>
    unfold listFindIdx at hk
    by_cases ha : p a = true
    · rw [if_pos ha] at hk
      injection hk with hk
      rw [← hk] at hg
      injection hg with hg
      rw [List.find?_cons_of_pos _ ha, hg]
    · rw [if_neg ha] at hk
      cases hrec : listFindIdx p l with
      | none => rw [hrec] at hk; exact absurd hk (by simp)
      | some k2 =>
        rw [hrec] at hk
        have hk2 : some (k2 + 1) = some k := hk
        injection hk2 with hk2
        rw [List.find?_cons_of_neg _ ha]
        refine ih k2 hrec ?_
        rw [← hk2] at hg
        exact hg

theorem filterIdxsGo_mem (nodeId : String) (k0 : Nat) (ports : List PortM)
    (idxs : List Nat) (h : filterIdxsGo nodeId k0 ports = some idxs)
    (d : Nat) (p : PortM) (hp : ports.get? d = some p)
    (hq : epPredicateO nodeId none p = some true) : (k0 + d) ∈ idxs := by
  induction ports generalizing k0 d idxs with
  | nil => simp at hp
  | cons q rest ih =>
    unfold filterIdxsGo at h
    cases d with
    | zero =>
      injection hp with hp
      rw [← hp] at hq
      rw [hq] at h
      cases hrec : filterIdxsGo nodeId (k0 + 1) rest with
      | none =>
        rw [hrec] at h
        have h2 : (none : Option (List Nat)) = some idxs := h
        exact Option.noConfusion h2
      | some t =>
        rw [hrec] at h
        have h2 : some (if true then k0 :: t else t) = some idxs := h
        injection h2 with h2
        rw [← h2]
        simp
    | succ d =>
      have hp2 : rest.get? d = some p := hp
      cases hb : epPredicateO nodeId none q with
      | none =>
        rw [hb] at h
        have h2 : (none : Option (List Nat)) = some idxs := h
        exact Option.noConfusion h2
      | some b =>
        rw [hb] at h
        cases hrec : filterIdxsGo nodeId (k0 + 1) rest with
        | none =>
          rw [hrec] at h
          have h2 : (none : Option (List Nat)) = some idxs := h
          exact Option.noConfusion h2
        | some t =>
          rw [hrec] at h
          have h2 : some (if b then k0 :: t else t) = some idxs := h
          injection h2 with h2
          have hmem : (k0 + 1) + d ∈ t := by apply ih <;> assumption
          rw [← h2, show k0 + (d + 1) = (k0 + 1) + d from by omega]
          cases b with
          | true => exact List.mem_cons_of_mem _ hmem
          | false => exact hmem

theorem peerPairsFromOutput_mem (ndId : String) (o : Nat) (peers : List NodeM)
    (M : List (EndpointM × EndpointM)) (h : peerPairsFromOutput ndId o peers = some M)
    (P : NodeM) (hP : P ∈ peers) (j : Nat) (p : PortM)
    (hp : P.inputs.get? j = some p) (hq : epPredicateO ndId none p = some true) :
    (mkInEp P.id j, mkOutEp ndId o) ∈ M := by
  induction peers generalizing M with
  | nil => simp at hP
  | cons q rest ih =>
    unfold peerPairsFromOutput at h
    cases hq1 : filterIdxsO ndId q.inputs with
    | none =>
      rw [hq1] at h
      have h2 : (none : Option (List (EndpointM × EndpointM))) = some M := h
      exact Option.noConfusion h2
    | some idxs =>
      rw [hq1] at h
      cases hrec : peerPairsFromOutput ndId o rest with
      | none =>
        rw [hrec] at h
        have h2 : (none : Option (List (EndpointM × EndpointM))) = some M := h
        exact Option.noConfusion h2
      | some t =>
        rw [hrec] at h
        have h2 : some ((idxs.map fun j2 => (mkInEp q.id j2, mkOutEp ndId o)) ++ t)
            = some M := h
        injection h2 with h2
        rw [← h2]
        rcases List.mem_cons.mp hP with he | hm
        · have hj := filterIdxsGo_mem ndId 0 P.inputs idxs (by rw [← he] at hq1; exact hq1)
            j p hp hq
          rw [Nat.zero_add] at hj
          refine List.mem_append_left _ (List.mem_map.mpr ⟨j, hj, ?_⟩)
          rw [he]
        · refine List.mem_append_right _ ?_
          apply ih <;> assumption

theorem peerPairsFromInput_mem (ndId : String) (i : Nat) (peers : List NodeM)
    (M : List (EndpointM × EndpointM)) (h : peerPairsFromInput ndId i peers = some M)
    (P : NodeM) (hP : P ∈ peers) (o : Nat) (p : PortM)
    (hp : P.outputs.get? o = some p) (hq : epPredicateO ndId none p = some true) :
    (mkInEp ndId i, mkOutEp P.id o) ∈ M := by
  induction peers generalizing M with
  | nil => simp at hP
  | cons q rest ih =>
    unfold peerPairsFromInput at h
    cases hq1 : filterIdxsO ndId q.outputs with
    | none =>
      rw [hq1] at h
      have h2 : (none : Option (List (EndpointM × EndpointM))) = some M := h
      exact Option.noConfusion h2
    | some idxs =>
      rw [hq1] at h
      cases hrec : peerPairsFromInput ndId i rest with
      | none =>
        rw [hrec] at h
        have h2 : (none : Option (List (EndpointM × EndpointM))) = some M := h
        exact Option.noConfusion h2
      | some t =>
        rw [hrec] at h
        have h2 : some ((idxs.map fun o2 => (mkInEp ndId i, mkOutEp q.id o2)) ++ t)
            = some M := h
        injection h2 with h2
        rw [← h2]
        rcases List.mem_cons.mp hP with he | hm
        · have hj := filterIdxsGo_mem ndId 0 P.outputs idxs (by rw [← he] at hq1; exact hq1)
            o p hp hq
          rw [Nat.zero_add] at hj
          refine List.mem_append_left _ (List.mem_map.mpr ⟨o, hj, ?_⟩)
          rw [he]
        · refine List.mem_append_right _ ?_
          apply ih <;> assumption

theorem enumOutputsGo_mem (nodes : List NodeM) (ndId : String) (o0 : Nat)
    (ports : List PortM) (L : List (EndpointM × EndpointM))
    (h : enumOutputsGo nodes ndId o0 ports = some L)
    (d : Nat) (pk : PortM) (hpk : ports.get? d = some pk)
    (c2 : Conn) (hc2 : c2 ∈ connListOf pk.connection)
    (P : NodeM) (hPn : P ∈ nodes) (hPid : c2.nodeId = P.id)
    (j : Nat) (p : PortM) (hp : P.inputs.get? j = some p)
    (hq : epPredicateO ndId none p = some true) :
    (mkInEp P.id j, mkOutEp ndId (o0 + d)) ∈ L := by
  induction ports generalizing o0 d L with
  | nil => simp at hpk
  | cons q rest ih =>
    unfold enumOutputsGo at h
    cases d with
    | zero =>
      injection hpk with hpk
      have hne : isEmptyArrayOrUndefined q.connection = false := by
        rw [hpk]
        exact isEmptyArrayOrUndefined_false_of_ref _ c2 hc2
      rw [if_neg (by rw [hne]; exact Bool.noConfusion)] at h
      cases hpp : peerPairsFromOutput ndId o0 (nodes.filter (nodeIdPredicateB q.connection)) with
      | none =>
        rw [hpp] at h
        have h2 : (none : Option (List (EndpointM × EndpointM))) = some L := h
        exact Option.noConfusion h2
      | some prs =>
        rw [hpp] at h
        cases hrec : enumOutputsGo nodes ndId (o0 + 1) rest with
        | none =>
          rw [hrec] at h
          have h2 : (none : Option (List (EndpointM × EndpointM))) = some L := h
          exact Option.noConfusion h2
        | some t =>
          rw [hrec] at h
          have h2 : some (prs ++ t) = some L := h
          injection h2 with h2
          rw [← h2, Nat.add_zero]
          refine List.mem_append_left _ ?_
          refine peerPairsFromOutput_mem ndId o0 _ prs hpp P ?_ j p hp hq
          refine List.mem_filter.mpr ⟨hPn, ?_⟩
          rw [hpk]
          exact nodeIdPredicateB_of_ref _ P c2 hc2 hPid
    | succ d =>
      have hpk2 : rest.get? d = some pk := hpk
      rw [show o0 + (d + 1) = (o0 + 1) + d from by omega]
      by_cases hemp : isEmptyArrayOrUndefined q.connection = true
      · rw [if_pos hemp] at h
        apply ih <;> assumption
      · rw [if_neg hemp] at h
        cases hpp : peerPairsFromOutput ndId o0 (nodes.filter (nodeIdPredicateB q.connection)) with
        | none =>
          rw [hpp] at h
          have h2 : (none : Option (List (EndpointM × EndpointM))) = some L := h
          exact Option.noConfusion h2
        | some prs =>
          rw [hpp] at h
          cases hrec : enumOutputsGo nodes ndId (o0 + 1) rest with
          | none =>
            rw [hrec] at h
            have h2 : (none : Option (List (EndpointM × EndpointM))) = some L := h
            exact Option.noConfusion h2
          | some t =>
            rw [hrec] at h
            have h2 : some (prs ++ t) = some L := h
            injection h2 with h2
            rw [← h2]
            refine List.mem_append_right _ ?_
            apply ih <;> assumption

theorem enumInputsGo_mem (nodes : List NodeM) (ndId : String) (i0 : Nat)
    (ports : List PortM) (L : List (EndpointM × EndpointM))
    (h : enumInputsGo nodes ndId i0 ports = some L)
    (d : Nat) (pk : PortM) (hpk : ports.get? d = some pk)
    (c2 : Conn) (hc2 : c2 ∈ connListOf pk.connection)
    (P : NodeM) (hPn : P ∈ nodes) (hPid : c2.nodeId = P.id)
    (o : Nat) (p : PortM) (hp : P.outputs.get? o = some p)
    (hq : epPredicateO ndId none p = some true) :
    (mkInEp ndId (i0 + d), mkOutEp P.id o) ∈ L := by
  induction ports generalizing i0 d L with
  | nil => simp at hpk
  | cons q rest ih =>
    unfold enumInputsGo at h
    cases d with
    | zero =>
      injection hpk with hpk
      have hne : isEmptyArrayOrUndefined q.connection = false := by
        rw [hpk]
        exact isEmptyArrayOrUndefined_false_of_ref _ c2 hc2
      rw [if_neg (by rw [hne]; exact Bool.noConfusion)] at h
      cases hpp : peerPairsFromInput ndId i0 (nodes.filter (nodeIdPredicateB q.connection)) with
      | none =>
        rw [hpp] at h
        have h2 : (none : Option (List (EndpointM × EndpointM))) = some L := h
        exact Option.noConfusion h2
      | some prs =>
        rw [hpp] at h
        cases hrec : enumInputsGo nodes ndId (i0 + 1) rest with
        | none =>
          rw [hrec] at h
          have h2 : (none : Option (List (EndpointM × EndpointM))) = some L := h
          exact Option.noConfusion h2
        | some t =>
          rw [hrec] at h
          have h2 : some (prs ++ t) = some L := h
          injection h2 with h2
          rw [← h2, Nat.add_zero]
          refine List.mem_append_left _ ?_
          refine peerPairsFromInput_mem ndId i0 _ prs hpp P ?_ o p hp hq
          refine List.mem_filter.mpr ⟨hPn, ?_⟩
          rw [hpk]
          exact nodeIdPredicateB_of_ref _ P c2 hc2 hPid
    | succ d =>
      have hpk2 : rest.get? d = some pk := hpk
      rw [show i0 + (d + 1) = (i0 + 1) + d from by omega]
      by_cases hemp : isEmptyArrayOrUndefined q.connection = true
      · rw [if_pos hemp] at h
        apply ih <;> assumption
      · rw [if_neg hemp] at h
        cases hpp : peerPairsFromInput ndId i0 (nodes.filter (nodeIdPredicateB q.connection)) with
        | none =>
          rw [hpp] at h
          have h2 : (none : Option (List (EndpointM × EndpointM))) = some L := h
          exact Option.noConfusion h2
        | some prs =>
          rw [hpp] at h
          cases hrec : enumInputsGo nodes ndId (i0 + 1) rest with
          | none =>
            rw [hrec] at h
            have h2 : (none : Option (List (EndpointM × EndpointM))) = some L := h
            exact Option.noConfusion h2
          | some t =>
            rw [hrec] at h
            have h2 : some (prs ++ t) = some L := h
            injection h2 with h2
            rw [← h2]
            refine List.mem_append_right _ ?_
            apply ih <;> assumption

theorem enumeratePairs_eq (nodes : List NodeM) (nd : NodeM)
    (prs : List (EndpointM × EndpointM)) (h : enumeratePairs nodes nd = some prs) :
    ∃ a b, enumInputsGo nodes nd.id 0 nd.inputs = some a ∧
      enumOutputsGo nodes nd.id 0 nd.outputs = some b ∧ prs = a ++ b := by
  unfold enumeratePairs at h
  cases ha : enumInputsGo nodes nd.id 0 nd.inputs with
  | none =>
    rw [ha] at h
    have h2 : (none : Option (List (EndpointM × EndpointM))) = some prs := h
    exact Option.noConfusion h2
  | some a =>
    rw [ha] at h
    cases hb : enumOutputsGo nodes nd.id 0 nd.outputs with
    | none =>
      rw [hb] at h
      have h2 : (none : Option (List (EndpointM × EndpointM))) = some prs := h
      exact Option.noConfusion h2
    | some b =>
      rw [hb] at h
      have h2 : some (a ++ b) = some prs := h
      injection h2 with h2
      exact ⟨a, b, rfl, rfl, h2.symm⟩

theorem cascade_input_clears (nodes : List NodeM) (nd : NodeM)
    (prs : List (EndpointM × EndpointM))
    (hmir : mirroredB nodes = true) (hdup : noDupRefsB nodes = true)
    (henum : enumeratePairs nodes nd = some prs)
    (hfind : findNode nodes nd.id = some nd)
    (id : String) (j : Nat) (v' : ConnVal)
    (hF : inputConnAt (prs.foldl (fun acc pr => removeConnection acc pr.1 pr.2) nodes) id j
      = some v')
    (k : Nat) : (nd.id, k) ∉ refKeys v' := by
  intro hkey
  obtain ⟨v0, hv0, hsub0⟩ := inputConnAt_foldRemove_back prs nodes id j v' hF
  have hkey0 : (nd.id, k) ∈ refKeys v0 := hsub0.subset hkey
  have hv0c := hv0
  unfold inputConnAt at hv0c
  cases hfP : findNode nodes id with
  | none => rw [hfP] at hv0c; exact absurd hv0c (by simp)
  | some P =>
    rw [hfP] at hv0c
    have hv0b : (P.inputs.get? j).map (fun p => p.connection) = some v0 := hv0c
    cases hp0 : P.inputs.get? j with
    | none => rw [hp0] at hv0b; exact absurd hv0b (by simp)
    | some p0 =>
      rw [hp0] at hv0b
      have hpc : p0.connection = v0 := by
        have h3 : some p0.connection = some v0 := hv0b
        injection h3
      have hfP2 : nodes.find? (fun n => n.id == id) = some P := hfP
      have hbeqP : (fun n => n.id == id) P = true :=
        @List.find?_some _ (fun n => n.id == id) P nodes hfP2
      have hPid : P.id = id := eq_of_beq hbeqP
      have hPmem : P ∈ nodes := List.mem_of_find?_eq_some hfP2
      obtain ⟨c, hcmem, hcn, hcp⟩ := (mem_refKeys_iff v0 nd.id k).mp hkey0
      rw [← hpc] at hcmem
      have hmirP := List.all_eq_true.mp hmir P hPmem
      rw [Bool.and_eq_true] at hmirP
      have hmirIn := List.all_eq_true.mp hmirP.1 (j, p0) (mem_listEnum_of_get? _ j p0 hp0)
      have hmirc := List.all_eq_true.mp hmirIn c hcmem
      have hmc : (match findNode nodes c.nodeId with
          | none => false
          | some m =>
            match m.outputs.get? c.port with
            | none => false
            | some pm => (connListOf pm.connection).any
                (fun c2 => c2.nodeId == P.id && c2.port == j)) = true := hmirc
      rw [hcn, hfind] at hmc
      have hmc2 : (match nd.outputs.get? c.port with
          | none => false
          | some pm => (connListOf pm.connection).any
              (fun c2 => c2.nodeId == P.id && c2.port == j)) = true := hmc
      cases hpm : nd.outputs.get? c.port with
      | none => rw [hpm] at hmc2; exact Bool.noConfusion hmc2
      | some pm =>
        rw [hpm] at hmc2
        have hmc3 : (connListOf pm.connection).any
            (fun c2 => c2.nodeId == P.id && c2.port == j) = true := hmc2
        obtain ⟨c2, hc2mem, hc2⟩ := List.any_eq_true.mp hmc3
        rw [Bool.and_eq_true] at hc2
        have hc2n : c2.nodeId = P.id := eq_of_beq hc2.1
        have hc2p : c2.port = j := eq_of_beq hc2.2
        obtain ⟨aIn, bOut, hIa, hOb, hsplit⟩ := enumeratePairs_eq nodes nd prs henum
        have hqp : epPredicateO nd.id none p0 = some true :=
          epPredicateO_true_of_ref nd.id p0 c hcmem hcn
        have hprmem : (mkInEp P.id j, mkOutEp nd.id (0 + c.port)) ∈ bOut :=
          enumOutputsGo_mem nodes nd.id 0 nd.outputs bOut hOb c.port pm hpm
            c2 hc2mem P hPmem hc2n j p0 hp0 hqp
        rw [Nat.zero_add, hcp] at hprmem
        have hprs : (mkInEp P.id j, mkOutEp nd.id k) ∈ prs := by
          rw [hsplit]
          exact List.mem_append_right _ hprmem
        obtain ⟨l1, l2, hdecomp⟩ := List.append_of_mem hprs
        have hfold : prs.foldl (fun acc pr => removeConnection acc pr.1 pr.2) nodes =
            l2.foldl (fun acc pr => removeConnection acc pr.1 pr.2)
              (removeConnection
                (l1.foldl (fun acc pr => removeConnection acc pr.1 pr.2) nodes)
                (mkInEp P.id j) (mkOutEp nd.id k)) := by
          rw [hdecomp, List.foldl_append, List.foldl_cons]
        rw [hfold] at hF
        obtain ⟨v2, hv2, hsub2⟩ := inputConnAt_foldRemove_back l2 _ id j v' hF
        have hkey2 : (nd.id, k) ∈ refKeys v2 := hsub2.subset hkey
        have hstep := inputConnAt_removeConnection_self
          (l1.foldl (fun acc pr => removeConnection acc pr.1 pr.2) nodes)
          (mkInEp P.id j) (mkOutEp nd.id k)
        have e1 : (mkInEp P.id j).nodeId = id := hPid
        have e2 : (mkInEp P.id j).port = j := rfl
        rw [e1, e2] at hstep
        rw [hstep] at hv2
        cases hs1v : inputConnAt
            (l1.foldl (fun acc pr => removeConnection acc pr.1 pr.2) nodes) id j with
        | none => rw [hs1v] at hv2; exact absurd hv2 (by simp)
        | some v1 =>
          rw [hs1v] at hv2
          have hv2e : some (removeFromArrayOrValue v1 (Sum.inl ⟨nd.id, k, none, none⟩))
              = some v2 := hv2
          injection hv2e with hv2e
          obtain ⟨vI, hvI, hsubI⟩ := inputConnAt_foldRemove_back l1 nodes id j v1 hs1v
          rw [hv0] at hvI
          injection hvI with hvI
          rw [← hvI] at hsubI
          have hdupP := List.all_eq_true.mp hdup P hPmem
          have hdupport := List.all_eq_true.mp hdupP p0
            (List.mem_append_left _ (List.get?_mem hp0))
          have hknd : keysNodup (refKeys p0.connection) = true := hdupport
          rw [hpc] at hknd
          have hcount0 : (refKeys v0).count (nd.id, k) ≤ 1 := keysNodup_count _ hknd _
          have hcount1 : (refKeys v1).count (nd.id, k) ≤ 1 :=
            le_trans (hsubI.count_le (nd.id, k)) hcount0
          have hnot := key_not_mem_rFAOV v1 ⟨nd.id, k, none, none⟩ hcount1
          rw [hv2e] at hnot
          exact hnot hkey2

theorem cascade_output_clears (nodes : List NodeM) (nd : NodeM)
    (prs : List (EndpointM × EndpointM))
    (hmir : mirroredB nodes = true) (hdup : noDupRefsB nodes = true)
    (henum : enumeratePairs nodes nd = some prs)
    (hfind : findNode nodes nd.id = some nd)
    (id : String) (j : Nat) (v' : ConnVal)
    (hF : outputConnAt (prs.foldl (fun acc pr => removeConnection acc pr.1 pr.2) nodes) id j
      = some v')
    (k : Nat) : (nd.id, k) ∉ refKeys v' := by
  intro hkey
  obtain ⟨v0, hv0, hsub0⟩ := outputConnAt_foldRemove_back prs nodes id j v' hF
  have hkey0 : (nd.id, k) ∈ refKeys v0 := hsub0.subset hkey
  have hv0c := hv0
  unfold outputConnAt at hv0c
  cases hfP : findNode nodes id with
  | none => rw [hfP] at hv0c; exact absurd hv0c (by simp)
  | some P =>
    rw [hfP] at hv0c
    have hv0b : (P.outputs.get? j).map (fun p => p.connection) = some v0 := hv0c
    cases hp0 : P.outputs.get? j with
    | none => rw [hp0] at hv0b; exact absurd hv0b (by simp)
    | some p0 =>
      rw [hp0] at hv0b
      have hpc : p0.connection = v0 := by
        have h3 : some p0.connection = some v0 := hv0b
        injection h3
      have hfP2 : nodes.find? (fun n => n.id == id) = some P := hfP
      have hbeqP : (fun n => n.id == id) P = true :=
        @List.find?_some _ (fun n => n.id == id) P nodes hfP2
      have hPid : P.id = id := eq_of_beq hbeqP
      have hPmem : P ∈ nodes := List.mem_of_find?_eq_some hfP2
      obtain ⟨c, hcmem, hcn, hcp⟩ := (mem_refKeys_iff v0 nd.id k).mp hkey0
      rw [← hpc] at hcmem
      have hmirP := List.all_eq_true.mp hmir P hPmem
      rw [Bool.and_eq_true] at hmirP
      have hmirOut := List.all_eq_true.mp hmirP.2 (j, p0) (mem_listEnum_of_get? _ j p0 hp0)
      have hmirc := List.all_eq_true.mp hmirOut c hcmem
      have hmc : (match findNode nodes c.nodeId with
          | none => false
          | some m =>
            match m.inputs.get? c.port with
            | none => false
            | some pm => (connListOf pm.connection).any
                (fun c2 => c2.nodeId == P.id && c2.port == j)) = true := hmirc
      rw [hcn, hfind] at hmc
      have hmc2 : (match nd.inputs.get? c.port with
          | none => false
          | some pm => (connListOf pm.connection).any
              (fun c2 => c2.nodeId == P.id && c2.port == j)) = true := hmc
      cases hpm : nd.inputs.get? c.port with
      | none => rw [hpm] at hmc2; exact Bool.noConfusion hmc2
      | some pm =>
        rw [hpm] at hmc2
        have hmc3 : (connListOf pm.connection).any
            (fun c2 => c2.nodeId == P.id && c2.port == j) = true := hmc2
        obtain ⟨c2, hc2mem, hc2⟩ := List.any_eq_true.mp hmc3
        rw [Bool.and_eq_true] at hc2
        have hc2n : c2.nodeId = P.id := eq_of_beq hc2.1
        obtain ⟨aIn, bOut, hIa, hOb, hsplit⟩ := enumeratePairs_eq nodes nd prs henum
        have hqp : epPredicateO nd.id none p0 = some true :=
          epPredicateO_true_of_ref nd.id p0 c hcmem hcn
        have hprmem : (mkInEp nd.id (0 + c.port), mkOutEp P.id j) ∈ aIn :=
          enumInputsGo_mem nodes nd.id 0 nd.inputs aIn hIa c.port pm hpm
            c2 hc2mem P hPmem hc2n j p0 hp0 hqp
        rw [Nat.zero_add, hcp] at hprmem
        have hprs : (mkInEp nd.id k, mkOutEp P.id j) ∈ prs := by
          rw [hsplit]
          exact List.mem_append_left _ hprmem
        obtain ⟨l1, l2, hdecomp⟩ := List.append_of_mem hprs
        have hfold : prs.foldl (fun acc pr => removeConnection acc pr.1 pr.2) nodes =
            l2.foldl (fun acc pr => removeConnection acc pr.1 pr.2)
              (removeConnection
                (l1.foldl (fun acc pr => removeConnection acc pr.1 pr.2) nodes)
                (mkInEp nd.id k) (mkOutEp P.id j)) := by
          rw [hdecomp, List.foldl_append, List.foldl_cons]
        rw [hfold] at hF
        obtain ⟨v2, hv2, hsub2⟩ := outputConnAt_foldRemove_back l2 _ id j v' hF
        have hkey2 : (nd.id, k) ∈ refKeys v2 := hsub2.subset hkey
        have hstep := outputConnAt_removeConnection_self
          (l1.foldl (fun acc pr => removeConnection acc pr.1 pr.2) nodes)
          (mkInEp nd.id k) (mkOutEp P.id j)
        have e1 : (mkOutEp P.id j).nodeId = id := hPid
        have e2 : (mkOutEp P.id j).port = j := rfl
        rw [e1, e2] at hstep
        rw [hstep] at hv2
        cases hs1v : outputConnAt
            (l1.foldl (fun acc pr => removeConnection acc pr.1 pr.2) nodes) id j with
        | none => rw [hs1v] at hv2; exact absurd hv2 (by simp)
        | some v1 =>
          rw [hs1v] at hv2
          have hv2e : some (removeFromArrayOrValue v1 (Sum.inl ⟨nd.id, k, none, none⟩))
              = some v2 := hv2
          injection hv2e with hv2e
          obtain ⟨vI, hvI, hsubI⟩ := outputConnAt_foldRemove_back l1 nodes id j v1 hs1v
          rw [hv0] at hvI
          injection hvI with hvI
          rw [← hvI] at hsubI
          have hdupP := List.all_eq_true.mp hdup P hPmem
          have hdupport := List.all_eq_true.mp hdupP p0
            (List.mem_append_right _ (List.get?_mem hp0))
          have hknd : keysNodup (refKeys p0.connection) = true := hdupport
          rw [hpc] at hknd
          have hcount0 : (refKeys v0).count (nd.id, k) ≤ 1 := keysNodup_count _ hknd _
          have hcount1 : (refKeys v1).count (nd.id, k) ≤ 1 :=
            le_trans (hsubI.count_le (nd.id, k)) hcount0
          have hnot := key_not_mem_rFAOV v1 ⟨nd.id, k, none, none⟩ hcount1
          rw [hv2e] at hnot
          exact hnot hkey2

/-- C5: provided node ids are unique, every stored reference is mirrored, no
port stores the same `(nodeId, port)` reference twice, and the cascade
enumeration does not throw, the apply continuation of `NodeRemoved` for node
`N` leaves a node list in which `N` is absent and no input- or output-side
connection field of any remaining node references `N`. -/
theorem c5_cascade_delete (nodes : List NodeM) (Nid : String)
    (prs : List (EndpointM × EndpointM)) (nodes2 : List NodeM)
    (hnd : nodupIdsB nodes = true)
    (hmir : mirroredB nodes = true)
    (hdup : noDupRefsB nodes = true)
    (hrun : removeNodeOp nodes Nid = some (prs, nodes2)) :
    (∀ n ∈ nodes2, n.id ≠ Nid) ∧
    (∀ n ∈ nodes2, ∀ j p, n.inputs.get? j = some p →
        ∀ c ∈ connListOf p.connection, c.nodeId ≠ Nid) ∧
    (∀ n ∈ nodes2, ∀ j p, n.outputs.get? j = some p →
        ∀ c ∈ connListOf p.connection, c.nodeId ≠ Nid) := by
  unfold removeNodeOp at hrun
  cases hidx : findNodeIdx nodes Nid with
  | none => rw [hidx] at hrun; exact absurd hrun (by simp)
  | some idx =>
    rw [hidx] at hrun
    have hrun2 : (match nodes.get? idx with
        | none => none
        | some nd =>
          (enumeratePairs nodes nd).bind (fun prs1 =>
            some (prs1, (prs1.foldl (fun acc pr => removeConnection acc pr.1 pr.2)
              nodes).eraseIdx idx)))
        = some (prs, nodes2) := hrun
    cases hnd0 : nodes.get? idx with
    | none =>
      rw [hnd0] at hrun2
      have h3 : (none : Option (List (EndpointM × EndpointM) × List NodeM))
          = some (prs, nodes2) := hrun2
      exact Option.noConfusion h3
    | some nd =>
      rw [hnd0] at hrun2
      have hrun3 : (enumeratePairs nodes nd).bind (fun prs1 =>
          some (prs1, (prs1.foldl (fun acc pr => removeConnection acc pr.1 pr.2)
            nodes).eraseIdx idx)) = some (prs, nodes2) := hrun2
      cases henum : enumeratePairs nodes nd with
      | none =>
        rw [henum] at hrun3
        have h2 : (none : Option (List (EndpointM × EndpointM) × List NodeM))
            = some (prs, nodes2) := hrun3
        exact Option.noConfusion h2
      | some prs0 =>
        rw [henum] at hrun3
        have h2 : some (prs0,
            (prs0.foldl (fun acc pr => removeConnection acc pr.1 pr.2) nodes).eraseIdx idx)
            = some (prs, nodes2) := hrun3
        injection h2 with h2
        injection h2 with h2a h2b
        have hidx2 : listFindIdx (fun n : NodeM => n.id == Nid) nodes = some idx := hidx
        obtain ⟨ndv, hgv, hpv⟩ := listFindIdx_get _ nodes idx hidx2
        have hndv : ndv = nd := by
          rw [hnd0] at hgv
          injection hgv with hx
          exact hx.symm
        rw [hndv] at hpv
        have hndid : nd.id = Nid := eq_of_beq hpv
        have hfindN : findNode nodes Nid = some nd := by
          unfold findNode
          exact find?_of_listFindIdx _ nodes idx nd hidx2 hnd0
        have hfind : findNode nodes nd.id = some nd := by
          rw [hndid]
          exact hfindN
        have hids : ∀ n ∈ nodes2, n.id ≠ Nid := by
          intro n hn he
          have hmm : n.id ∈ nodes2.map NodeM.id := List.mem_map.mpr ⟨n, hn, rfl⟩
          rw [← h2b, map_eraseIdx, foldRemove_map_id] at hmm
          have hg2 : (nodes.map NodeM.id).get? idx = some Nid := by
            rw [List.get?_map, hnd0]
            show some nd.id = some Nid
            rw [hndid]
          have hcnt := count_eraseIdx_of_get (nodes.map NodeM.id) idx Nid hg2
          have hle := count_le_one_of_nodupIdsB nodes hnd Nid
          have hz : ((nodes.map NodeM.id).eraseIdx idx).count Nid = 0 := by omega
          rw [he] at hmm
          exact (List.count_eq_zero.mp hz) hmm
        have hcount_all : ∀ idq,
            ((prs0.foldl (fun acc pr => removeConnection acc pr.1 pr.2) nodes).map
              NodeM.id).count idq ≤ 1 := by
          intro idq
          rw [foldRemove_map_id]
          exact count_le_one_of_nodupIdsB nodes hnd idq
        refine ⟨hids, ?_, ?_⟩
        · intro n hn j p hp c hc he
          have hnF : n ∈ prs0.foldl (fun acc pr => removeConnection acc pr.1 pr.2) nodes := by
            rw [← h2b] at hn
            exact (List.eraseIdx_sublist _ idx).subset hn
          have hfn := findNode_eq_of_mem _ n hnF hcount_all
          have hin : inputConnAt (prs0.foldl (fun acc pr => removeConnection acc pr.1 pr.2)
              nodes) n.id j = some p.connection := by
            unfold inputConnAt
            rw [hfn]
            show (n.inputs.get? j).map (fun q => q.connection) = some p.connection
            rw [hp]
            rfl
          have hclr := cascade_input_clears nodes nd prs0 hmir hdup henum hfind
            n.id j p.connection hin c.port
          exact hclr ((mem_refKeys_iff _ _ _).mpr ⟨c, hc, he.trans hndid.symm, rfl⟩)
        · intro n hn j p hp c hc he
          have hnF : n ∈ prs0.foldl (fun acc pr => removeConnection acc pr.1 pr.2) nodes := by
            rw [← h2b] at hn
            exact (List.eraseIdx_sublist _ idx).subset hn
          have hfn := findNode_eq_of_mem _ n hnF hcount_all
          have hout : outputConnAt (prs0.foldl (fun acc pr => removeConnection acc pr.1 pr.2)
              nodes) n.id j = some p.connection := by
            unfold outputConnAt
            rw [hfn]
            show (n.outputs.get? j).map (fun q => q.connection) = some p.connection
            rw [hp]
            rfl
          have hclr := cascade_output_clears nodes nd prs0 hmir hdup henum hfind
            n.id j p.connection hout c.port
          exact hclr ((mem_refKeys_iff _ _ _).mpr ⟨c, hc, he.trans hndid.symm, rfl⟩)

/-- C5 counterexample: when a port stores the same `{nodeId, port}` reference
twice (data the claim does not exclude), the deletion loops emit only one
`{input, output}` pair for the peer port, `removeConnection` splices only one
occurrence, and the surviving node still references the deleted node. -/
theorem c5_cascade_cex :
    (removeNodeOp
      [⟨"A", "A", none, none,
        [⟨"in", ConnVal.arr [⟨"N", 0, none, none⟩, ⟨"N", 0, none, none⟩]⟩], []⟩,
       ⟨"N", "N", none, none, [],
        [⟨"out", ConnVal.arr [⟨"A", 0, none, none⟩, ⟨"A", 0, none, none⟩]⟩]⟩]
      "N").map
      (fun r => r.2.map (fun n => (n.id, n.inputs.map (fun p => refKeys p.connection))))
    = some [("A", [[("N", 0)]])] := by decide

theorem c5_cascade_delete_witness :
    (nodupIdsB
        [⟨"A", "A", none, none, [⟨"i", ConnVal.single ⟨"B", 0, none, none⟩⟩], []⟩,
         ⟨"B", "B", none, none, [], [⟨"o", ConnVal.single ⟨"A", 0, none, none⟩⟩]⟩] = true) ∧
    (∀ n ∈ [(⟨"A", "A", none, none, [⟨"i", ConnVal.undef⟩], []⟩ : NodeM)], n.id ≠ "B") :=
  ⟨by decide,
    (c5_cascade_delete
      [⟨"A", "A", none, none, [⟨"i", ConnVal.single ⟨"B", 0, none, none⟩⟩], []⟩,
       ⟨"B", "B", none, none, [], [⟨"o", ConnVal.single ⟨"A", 0, none, none⟩⟩]⟩]
      "B"
      [(mkInEp "A" 0, mkOutEp "B" 0)]
      [⟨"A", "A", none, none, [⟨"i", ConnVal.undef⟩], []⟩]
      (by decide) (by decide) (by decide) (by decide)).1⟩

/-! ### Reverse characterization of the deletion enumeration (C3 infrastructure) -/

theorem filterIdxsGo_rev (nodeId : String) (k0 : Nat) (ports : List PortM)
    (idxs : List Nat) (h : filterIdxsGo nodeId k0 ports = some idxs)
    (m : Nat) (hm : m ∈ idxs) :
    ∃ d p, ports.get? d = some p ∧ m = k0 + d ∧
      epPredicateO nodeId none p = some true := by
  induction ports generalizing k0 idxs with
  | nil =>
    unfold filterIdxsGo at h
    injection h with h
    rw [← h] at hm
    simp at hm
  | cons q rest ih =>
    unfold filterIdxsGo at h
    cases hb : epPredicateO nodeId none q with
    | none =>
      rw [hb] at h
      have h2 : (none : Option (List Nat)) = some idxs := h
      exact Option.noConfusion h2
    | some b =>
      rw [hb] at h
      cases hrec : filterIdxsGo nodeId (k0 + 1) rest with
      | none =>
        rw [hrec] at h
        have h2 : (none : Option (List Nat)) = some idxs := h
        exact Option.noConfusion h2
      | some t =>
        rw [hrec] at h
        have h2 : some (if b then k0 :: t else t) = some idxs := h
        injection h2 with h2
        cases b with
        | true =>
          rw [← h2] at hm
          have hm2 : m ∈ k0 :: t := hm
          rcases List.mem_cons.mp hm2 with he | hmt
          · exact ⟨0, q, rfl, by omega, hb⟩
          · have hrev : ∃ d p, rest.get? d = some p ∧ m = (k0 + 1) + d ∧
                epPredicateO nodeId none p = some true := by
              apply ih <;> assumption
            obtain ⟨d, p, hp, hd, hq⟩ := hrev
            exact ⟨d + 1, p, hp, by omega, hq⟩
        | false =>
          rw [← h2] at hm
          have hmt : m ∈ t := hm
          have hrev : ∃ d p, rest.get? d = some p ∧ m = (k0 + 1) + d ∧
              epPredicateO nodeId none p = some true := by
            apply ih <;> assumption
          obtain ⟨d, p, hp, hd, hq⟩ := hrev
          exact ⟨d + 1, p, hp, by omega, hq⟩

theorem peerPairsFromOutput_rev (ndId : String) (o : Nat) (peers : List NodeM)
    (M : List (EndpointM × EndpointM)) (h : peerPairsFromOutput ndId o peers = some M)
    (pr : EndpointM × EndpointM) (hpr : pr ∈ M) :
    ∃ peer ∈ peers, ∃ j2 p, pr.1 = mkInEp peer.id j2 ∧
      peer.inputs.get? j2 = some p ∧ epPredicateO ndId none p = some true := by
  induction peers generalizing M with
  | nil =>
    unfold peerPairsFromOutput at h
    injection h with h
    rw [← h] at hpr
    simp at hpr
  | cons q rest ih =>
    unfold peerPairsFromOutput at h
    cases hq1 : filterIdxsO ndId q.inputs with
    | none =>
      rw [hq1] at h
      have h2 : (none : Option (List (EndpointM × EndpointM))) = some M := h
      exact Option.noConfusion h2
    | some idxs =>
      rw [hq1] at h
      cases hrec : peerPairsFromOutput ndId o rest with
      | none =>
        rw [hrec] at h
        have h2 : (none : Option (List (EndpointM × EndpointM))) = some M := h
        exact Option.noConfusion h2
      | some t =>
        rw [hrec] at h
        have h2 : some ((idxs.map fun j2 => (mkInEp q.id j2, mkOutEp ndId o)) ++ t)
            = some M := h
        injection h2 with h2
        rw [← h2] at hpr
        rcases List.mem_append.mp hpr with hl | hr
        · obtain ⟨j2, hj2, hpe⟩ := List.mem_map.mp hl
          obtain ⟨d, p, hp, hd, hq⟩ := filterIdxsGo_rev ndId 0 q.inputs idxs hq1 j2 hj2
          rw [Nat.zero_add] at hd
          refine ⟨q, List.mem_cons_self _ _, j2, p, ?_, ?_, hq⟩
          · rw [← hpe]
          · rw [hd]
            exact hp
        · have hrev : ∃ peer ∈ rest, ∃ j2 p, pr.1 = mkInEp peer.id j2 ∧
              peer.inputs.get? j2 = some p ∧ epPredicateO ndId none p = some true := by
            apply ih <;> assumption
          obtain ⟨peer, hpm, rest2⟩ := hrev
          exact ⟨peer, List.mem_cons_of_mem _ hpm, rest2⟩

theorem enumOutputsGo_fst (nodes : List NodeM) (ndId : String) (o0 : Nat)
    (ports : List PortM) (L : List (EndpointM × EndpointM))
    (h : enumOutputsGo nodes ndId o0 ports = some L)
    (pr : EndpointM × EndpointM) (hpr : pr ∈ L) :
    ∃ peer ∈ nodes, ∃ j2 p, pr.1 = mkInEp peer.id j2 ∧
      peer.inputs.get? j2 = some p ∧ epPredicateO ndId none p = some true := by
  induction ports generalizing o0 L with
  | nil =>
    unfold enumOutputsGo at h
    injection h with h
    rw [← h] at hpr
    simp at hpr
  | cons q rest ih =>
    unfold enumOutputsGo at h
    by_cases hemp : isEmptyArrayOrUndefined q.connection = true
    · rw [if_pos hemp] at h
      apply ih <;> assumption
    · rw [if_neg hemp] at h
      cases hpp : peerPairsFromOutput ndId o0 (nodes.filter (nodeIdPredicateB q.connection)) with
      | none =>
        rw [hpp] at h
        have h2 : (none : Option (List (EndpointM × EndpointM))) = some L := h
        exact Option.noConfusion h2
      | some prs =>
        rw [hpp] at h
        cases hrec : enumOutputsGo nodes ndId (o0 + 1) rest with
        | none =>
          rw [hrec] at h
          have h2 : (none : Option (List (EndpointM × EndpointM))) = some L := h
          exact Option.noConfusion h2
        | some t =>
          rw [hrec] at h
          have h2 : some (prs ++ t) = some L := h
          injection h2 with h2
          rw [← h2] at hpr
          rcases List.mem_append.mp hpr with hl | hr
          · obtain ⟨peer, hpm, rest2⟩ := peerPairsFromOutput_rev ndId o0 _ prs hpp pr hl
            exact ⟨peer, (List.mem_filter.mp hpm).1, rest2⟩
          · apply ih <;> assumption

theorem peerPairsFromInput_fst (ndId : String) (i : Nat) (peers : List NodeM)
    (M : List (EndpointM × EndpointM)) (h : peerPairsFromInput ndId i peers = some M)
    (pr : EndpointM × EndpointM) (hpr : pr ∈ M) : pr.1 = mkInEp ndId i := by
  induction peers generalizing M with
  | nil =>
    unfold peerPairsFromInput at h
    injection h with h
    rw [← h] at hpr
    simp at hpr
  | cons q rest ih =>
    unfold peerPairsFromInput at h
    cases hq1 : filterIdxsO ndId q.outputs with
    | none =>
      rw [hq1] at h
      have h2 : (none : Option (List (EndpointM × EndpointM))) = some M := h
      exact Option.noConfusion h2
    | some idxs =>
      rw [hq1] at h
      cases hrec : peerPairsFromInput ndId i rest with
      | none =>
        rw [hrec] at h
        have h2 : (none : Option (List (EndpointM × EndpointM))) = some M := h
        exact Option.noConfusion h2
      | some t =>
        rw [hrec] at h
        have h2 : some ((idxs.map fun o2 => (mkInEp ndId i, mkOutEp q.id o2)) ++ t)
            = some M := h
        injection h2 with h2
        rw [← h2] at hpr
        rcases List.mem_append.mp hpr with hl | hr
        · obtain ⟨o2, ho2, hpe⟩ := List.mem_map.mp hl
          rw [← hpe]
        · apply ih <;> assumption

theorem enumInputsGo_fst (nodes : List NodeM) (ndId : String) (i0 : Nat)
    (ports : List PortM) (L : List (EndpointM × EndpointM))
    (h : enumInputsGo nodes ndId i0 ports = some L)
    (pr : EndpointM × EndpointM) (hpr : pr ∈ L) : pr.1.nodeId = ndId := by
  induction ports generalizing i0 L with
  | nil =>
    unfold enumInputsGo at h
    injection h with h
    rw [← h] at hpr
    simp at hpr
  | cons q rest ih =>
    unfold enumInputsGo at h
    by_cases hemp : isEmptyArrayOrUndefined q.connection = true
    · rw [if_pos hemp] at h
      apply ih <;> assumption
    · rw [if_neg hemp] at h
      cases hpp : peerPairsFromInput ndId i0 (nodes.filter (nodeIdPredicateB q.connection)) with
      | none =>
        rw [hpp] at h
        have h2 : (none : Option (List (EndpointM × EndpointM))) = some L := h
        exact Option.noConfusion h2
      | some prs =>
        rw [hpp] at h
        cases hrec : enumInputsGo nodes ndId (i0 + 1) rest with
        | none =>
          rw [hrec] at h
          have h2 : (none : Option (List (EndpointM × EndpointM))) = some L := h
          exact Option.noConfusion h2
        | some t =>
          rw [hrec] at h
          have h2 : some (prs ++ t) = some L := h
          injection h2 with h2
          rw [← h2] at hpr
          rcases List.mem_append.mp hpr with hl | hr
          · have he := peerPairsFromInput_fst ndId i0 _ prs hpp pr hl
            rw [he]
            rfl
          · apply ih <;> assumption

theorem find?_eraseIdx (l : List α) (p : α → Bool) (k : Nat) (b : α)
    (hg : l.get? k = some b) (hb : p b = false) :
    (l.eraseIdx k).find? p = l.find? p := by
  induction l generalizing k with
  | nil => simp at hg
  | cons a l ih =>
    cases k with
    | zero =>
      injection hg with hg
      show l.find? p = (a :: l).find? p
      exact (List.find?_cons_of_neg _
        (fun hc => by rw [hg, hb] at hc; exact Bool.noConfusion hc)).symm
    | succ k =>
      show (a :: l.eraseIdx k).find? p = (a :: l).find? p
      by_cases ha : p a = true
      · rw [List.find?_cons_of_pos _ ha, List.find?_cons_of_pos _ ha]
      · rw [List.find?_cons_of_neg _ ha, List.find?_cons_of_neg _ ha]
        exact ih k hg

theorem inputConnAt_eraseIdx (s : List NodeM) (k : Nat) (b : NodeM) (aId : String)
    (j : Nat) (hg : s.get? k = some b) (hne : b.id ≠ aId) :
    inputConnAt (s.eraseIdx k) aId j = inputConnAt s aId j := by
  unfold inputConnAt findNode
  rw [find?_eraseIdx s _ k b hg (by simp [hne])]

theorem inputConnAt_foldRemove_preserved (l : List (EndpointM × EndpointM))
    (s : List NodeM) (aId : String) (j : Nat)
    (hl : ∀ pr ∈ l, ¬(pr.1.nodeId = aId ∧ pr.1.port = j)) :
    inputConnAt (l.foldl (fun acc pr => removeConnection acc pr.1 pr.2) s) aId j
      = inputConnAt s aId j := by
  induction l generalizing s with
  | nil => rfl
  | cons pr l ih =>
    rw [List.foldl_cons, ih _ (fun pr2 h2 => hl pr2 (List.mem_cons_of_mem _ h2))]
    refine inputConnAt_removeConnection_other s pr.1 pr.2 aId j ?_
    have hh := hl pr (List.mem_cons_self _ _)
    rcases not_and_or.mp hh with h | h
    · exact Or.inl (fun he => h he.symm)
    · exact Or.inr (fun he => h he.symm)

theorem inputConnAt_elim (s : List NodeM) (aId : String) (j : Nat) (v : ConnVal)
    (h : inputConnAt s aId j = some v) :
    ∃ A pA, findNode s aId = some A ∧ A.inputs.get? j = some pA ∧
      pA.connection = v := by
  unfold inputConnAt at h
  cases hf : findNode s aId with
  | none => rw [hf] at h; exact absurd h (by simp)
  | some A =>
    rw [hf] at h
    have h2 : (A.inputs.get? j).map (fun p => p.connection) = some v := h
    cases hp : A.inputs.get? j with
    | none => rw [hp] at h2; exact absurd h2 (by simp)
    | some pA =>
      rw [hp] at h2
      have h3 : some pA.connection = some v := h2
      injection h3 with h3
      exact ⟨A, pA, rfl, hp, h3⟩

theorem removeNodeOp_cases (nodes : List NodeM) (id2 : String)
    (prs : List (EndpointM × EndpointM)) (applied : List NodeM)
    (h : removeNodeOp nodes id2 = some (prs, applied)) :
    ∃ idx nd, findNodeIdx nodes id2 = some idx ∧ nodes.get? idx = some nd ∧
      nd.id = id2 ∧ enumeratePairs nodes nd = some prs ∧
      applied = (prs.foldl (fun acc pr => removeConnection acc pr.1 pr.2)
        nodes).eraseIdx idx := by
  unfold removeNodeOp at h
  cases hidx : findNodeIdx nodes id2 with
  | none => rw [hidx] at h; exact absurd h (by simp)
  | some idx =>
    rw [hidx] at h
    have h1 : (match nodes.get? idx with
        | none => none
        | some nd =>
          (enumeratePairs nodes nd).bind (fun prs1 =>
            some (prs1, (prs1.foldl (fun acc pr => removeConnection acc pr.1 pr.2)
              nodes).eraseIdx idx)))
        = some (prs, applied) := h
    cases hnd0 : nodes.get? idx with
    | none =>
      rw [hnd0] at h1
      have h3 : (none : Option (List (EndpointM × EndpointM) × List NodeM))
          = some (prs, applied) := h1
      exact Option.noConfusion h3
    | some nd =>
      rw [hnd0] at h1
      have h2 : (enumeratePairs nodes nd).bind (fun prs1 =>
          some (prs1, (prs1.foldl (fun acc pr => removeConnection acc pr.1 pr.2)
            nodes).eraseIdx idx)) = some (prs, applied) := h1
      cases henum : enumeratePairs nodes nd with
      | none =>
        rw [henum] at h2
        have h3 : (none : Option (List (EndpointM × EndpointM) × List NodeM))
            = some (prs, applied) := h2
        exact Option.noConfusion h3
      | some prs0 =>
        rw [henum] at h2
        have h3 : some (prs0,
            (prs0.foldl (fun acc pr => removeConnection acc pr.1 pr.2) nodes).eraseIdx idx)
            = some (prs, applied) := h2
        injection h3 with h3
        injection h3 with h3a h3b
        have hidx2 : listFindIdx (fun n : NodeM => n.id == id2) nodes = some idx := hidx
        obtain ⟨ndv, hgv, hpv⟩ := listFindIdx_get _ nodes idx hidx2
        have hndv : ndv = nd := by
          rw [hnd0] at hgv
          injection hgv with hx
          exact hx.symm
        rw [hndv] at hpv
        refine ⟨idx, nd, rfl, hnd0, eq_of_beq hpv, ?_, ?_⟩
        · rw [← h3a]
          exact henum
        · rw [← h3b, ← h3a]

theorem nodeRemovedDispatch_cases (cfg : ConfigM) (nodes : List NodeM) (id2 : String)
    (act : Option (String × List (EndpointM × EndpointM))) (ns : List NodeM)
    (h : nodeRemovedDispatch cfg nodes id2 = some (act, ns)) :
    ∃ prs applied, removeNodeOp nodes id2 = some (prs, applied) ∧
      ns = (if (standardDispatch cfg).engineApplies = true then applied else nodes) := by
  unfold nodeRemovedDispatch at h
  cases hro : removeNodeOp nodes id2 with
  | none => rw [hro] at h; exact absurd h (by simp)
  | some pa =>
    obtain ⟨prs, applied⟩ := pa
    rw [hro] at h
    have h2 : some (runDispatch (standardDispatch cfg) (id2, prs) applied nodes)
        = some (act, ns) := h
    injection h2 with h2
    injection h2 with h2a h2b
    exact ⟨prs, applied, rfl, h2b.symm⟩

theorem applyOp_removeConn_eq (cfg : ConfigM) (s : List NodeM) (i o : EndpointM) :
    applyOp cfg s (EngineOp.removeConn i o) =
      (if (standardDispatch cfg).engineApplies = true
       then removeConnection s i o else s) := rfl

theorem createConnection_snd_cases (cfg : ConfigM) (nodes : List NodeM) (i o : EndpointM)
    (act : Option (EndpointM × EndpointM)) (ns : List NodeM)
    (h : createConnection cfg nodes i o = some (act, ns)) :
    ns = nodes ∨ (ns = applyConnectionCreated nodes i o ∧
      (∃ nIn pIn, findNode nodes i.nodeId = some nIn ∧
        nIn.inputs.get? i.port = some pIn ∧
        isArrayOrUndefined pIn.connection = true) ∧
      (∃ nOut pOut, findNode nodes o.nodeId = some nOut ∧
        nOut.outputs.get? o.port = some pOut ∧
        isArrayOrUndefined pOut.connection = true)) := by
  unfold createConnection at h
  split at h
  · injection h with h
    injection h with h1 h2
    exact Or.inl h2.symm
  · split at h
    · exact absurd h (by simp)
    · next nIn hfi =>
      split at h
      · exact absurd h (by simp)
      · next pIn hpi =>
        split at h
        · injection h with h
          injection h with h1 h2
          exact Or.inl h2.symm
        · next hne =>
          split at h
          · exact absurd h (by simp)
          · next nOut hfo =>
            split at h
            · exact absurd h (by simp)
            · next pOut hpo =>
              split at h
              · injection h with h
                injection h with h1 h2
                exact Or.inl h2.symm
              · next hneo =>
                split at h
                · injection h with h
                  injection h with h1 h2
                  exact Or.inl h2.symm
                · injection h with h
                  injection h with h1 h2
                  have hne2 : isArrayOrUndefined pIn.connection = true := by
                    cases hx : isArrayOrUndefined pIn.connection with
                    | false => exact absurd (by rw [hx]; rfl) hne
                    | true => rfl
                  have hne3 : isArrayOrUndefined pOut.connection = true := by
                    cases hx : isArrayOrUndefined pOut.connection with
                    | false => exact absurd (by rw [hx]; rfl) hneo
                    | true => rfl
                  by_cases happ : (standardDispatch cfg).engineApplies = true
                  · rw [if_pos happ] at h2
                    exact Or.inr ⟨h2.symm, ⟨nIn, pIn, hfi, hpi, hne2⟩,
                      ⟨nOut, pOut, hfo, hpo, hne3⟩⟩
                  · rw [if_neg happ] at h2
                    exact Or.inl h2.symm

theorem applyConnectionCreated_map_id (s : List NodeM) (i o : EndpointM) :
    (applyConnectionCreated s i o).map NodeM.id = s.map NodeM.id := by
  rw [show applyConnectionCreated s i o = modifyOutputConn
      (modifyInputConn s i.nodeId i.port
        (fun v => pushConn v ⟨o.nodeId, o.port, none, none⟩))
      o.nodeId o.port
      (fun v => pushConn v ⟨i.nodeId, i.port, none, none⟩) from rfl]
  rw [modifyOutputConn_map_id, modifyInputConn_map_id]

theorem inputConnAt_applyCC_other (s : List NodeM) (i o : EndpointM)
    (aId : String) (j : Nat) (h : aId ≠ i.nodeId ∨ j ≠ i.port) :
    inputConnAt (applyConnectionCreated s i o) aId j = inputConnAt s aId j := by
  unfold applyConnectionCreated
  rw [inputConnAt_modifyOutputConn, inputConnAt_modifyInputConn_other _ _ _ _ _ _ h]

theorem applyOp_preserves_single (cfg : ConfigM) (s : List NodeM) (aId : String)
    (j : Nat) (c : Conn) (op : EngineOp)
    (hcnt : ∀ idq, (s.map NodeM.id).count idq ≤ 1)
    (hval : inputConnAt s aId j = some (ConnVal.single c))
    (hop1 : ∀ i o, op = EngineOp.removeConn i o → ¬(i.nodeId = aId ∧ i.port = j))
    (hop2 : ∀ id2, op = EngineOp.removeNode id2 → id2 ≠ aId ∧ id2 ≠ c.nodeId) :
    inputConnAt (applyOp cfg s op) aId j = some (ConnVal.single c) := by
  obtain ⟨A, pA, hfA, hpA, hcA⟩ := inputConnAt_elim s aId j _ hval
  cases op with
  | create i o =>
    show inputConnAt (match createConnection cfg s i o with
      | some (_, ns) => ns | none => s) aId j = some (ConnVal.single c)
    cases hcc : createConnection cfg s i o with
    | none => exact hval
    | some r =>
      obtain ⟨act, ns⟩ := r
      show inputConnAt ns aId j = some (ConnVal.single c)
      rcases createConnection_snd_cases cfg s i o act ns hcc with
        he | ⟨he, ⟨nIn, pIn, hfi, hpi, harr⟩, -⟩
      · rw [he]; exact hval
      · rw [he]
        have hdisj : aId ≠ i.nodeId ∨ j ≠ i.port := by
          by_cases hni : aId = i.nodeId
          · refine Or.inr ?_
            intro hj
            rw [← hni] at hfi
            rw [hfA] at hfi
            injection hfi with hfi
            rw [← hfi, ← hj, hpA] at hpi
            injection hpi with hpi
            rw [← hpi, hcA] at harr
            have hx : false = true := harr
            exact Bool.noConfusion hx
          · exact Or.inl hni
        rw [inputConnAt_applyCC_other s i o aId j hdisj]
        exact hval
  | removeConn i o =>
    rw [applyOp_removeConn_eq]
    by_cases hb : (standardDispatch cfg).engineApplies = true
    · rw [if_pos hb]
      refine (inputConnAt_removeConnection_other s i o aId j ?_).trans hval
      have hh := hop1 i o rfl
      rcases not_and_or.mp hh with h | h
      · exact Or.inl (fun he => h he.symm)
      · exact Or.inr (fun he => h he.symm)
    · rw [if_neg hb]
      exact hval
  | removeNode id2 =>
    show inputConnAt (match nodeRemovedDispatch cfg s id2 with
      | some (_, ns) => ns | none => s) aId j = some (ConnVal.single c)
    cases hdsp : nodeRemovedDispatch cfg s id2 with
    | none => exact hval
    | some r =>
      obtain ⟨act2, ns⟩ := r
      show inputConnAt ns aId j = some (ConnVal.single c)
      obtain ⟨prs, applied, hro, hns⟩ := nodeRemovedDispatch_cases cfg s id2 act2 ns hdsp
      rw [hns]
      by_cases hb : (standardDispatch cfg).engineApplies = true
      · rw [if_pos hb]
        obtain ⟨idx, nd, hidx, hnd0, hndid, henum, happ⟩ :=
          removeNodeOp_cases s id2 prs applied hro
        obtain ⟨hne1, hne2⟩ := hop2 id2 rfl
        obtain ⟨aIn, bOut, hIa, hOb, hsplit⟩ := enumeratePairs_eq s nd prs henum
        have hl : ∀ pr ∈ prs, ¬(pr.1.nodeId = aId ∧ pr.1.port = j) := by
          intro pr hpr hq
          obtain ⟨hq1, hq2⟩ := hq
          rw [hsplit] at hpr
          rcases List.mem_append.mp hpr with hin | hout
          · have hthis := enumInputsGo_fst s nd.id 0 nd.inputs aIn hIa pr hin
            rw [hq1] at hthis
            rw [hndid] at hthis
            exact hne1 hthis.symm
          · obtain ⟨peer, hpm, j2, p, hpr1, hpg, hpe⟩ :=
              enumOutputsGo_fst s nd.id 0 nd.outputs bOut hOb pr hout
            have hpid : peer.id = aId := by rw [← hq1, hpr1]; rfl
            have hj2 : j2 = j := by rw [← hq2, hpr1]; rfl
            have hfp : findNode s peer.id = some peer := findNode_eq_of_mem s peer hpm hcnt
            rw [hpid] at hfp
            rw [hfA] at hfp
            injection hfp with hfp
            rw [hj2] at hpg
            rw [← hfp] at hpg
            rw [hpA] at hpg
            injection hpg with hpg
            rw [← hpg] at hpe
            unfold epPredicateO at hpe
            rw [hcA] at hpe
            have hpe2 : some (compEp nd.id none c) = some true := hpe
            injection hpe2 with hpe2
            unfold compEp at hpe2
            have hpe3 : (true && (c.nodeId == nd.id)) = true := hpe2
            rw [Bool.true_and] at hpe3
            have hcnd : c.nodeId = nd.id := eq_of_beq hpe3
            rw [hndid] at hcnd
            exact hne2 hcnd.symm
        have hpres := inputConnAt_foldRemove_preserved prs s aId j hl
        have hFg : ((prs.foldl (fun acc pr => removeConnection acc pr.1 pr.2) s).map
            NodeM.id).get? idx = some id2 := by
          rw [foldRemove_map_id, List.get?_map, hnd0]
          show some nd.id = some id2
          rw [hndid]
        cases hFgx : (prs.foldl (fun acc pr => removeConnection acc pr.1 pr.2) s).get? idx with
        | none =>
          rw [List.get?_map, hFgx] at hFg
          exact absurd hFg (by simp)
        | some ndF =>
          rw [List.get?_map, hFgx] at hFg
          have hFg2 : some ndF.id = some id2 := hFg
          injection hFg2 with hFg2
          rw [happ]
          rw [inputConnAt_eraseIdx _ idx ndF aId j hFgx (by rw [hFg2]; exact hne1)]
          rw [hpres]
          exact hval
      · rw [if_neg hb]
        exact hval

theorem applyOp_count_le (cfg : ConfigM) (s : List NodeM) (op : EngineOp)
    (hcnt : ∀ idq, (s.map NodeM.id).count idq ≤ 1) (idq : String) :
    ((applyOp cfg s op).map NodeM.id).count idq ≤ 1 := by
  cases op with
  | create i o =>
    show ((match createConnection cfg s i o with
      | some (_, ns) => ns | none => s).map NodeM.id).count idq ≤ 1
    cases hcc : createConnection cfg s i o with
    | none => exact hcnt idq
    | some r =>
      obtain ⟨act, ns⟩ := r
      show ((ns).map NodeM.id).count idq ≤ 1
      rcases createConnection_snd_cases cfg s i o act ns hcc with he | ⟨he, hrest⟩
      · rw [he]; exact hcnt idq
      · rw [he, applyConnectionCreated_map_id]; exact hcnt idq
  | removeConn i o =>
    rw [applyOp_removeConn_eq]
    by_cases hb : (standardDispatch cfg).engineApplies = true
    · rw [if_pos hb, removeConnection_map_id]; exact hcnt idq
    · rw [if_neg hb]; exact hcnt idq
  | removeNode id2 =>
    show ((match nodeRemovedDispatch cfg s id2 with
      | some (_, ns) => ns | none => s).map NodeM.id).count idq ≤ 1
    cases hdsp : nodeRemovedDispatch cfg s id2 with
    | none => exact hcnt idq
    | some r =>
      obtain ⟨act2, ns⟩ := r
      show ((ns).map NodeM.id).count idq ≤ 1
      obtain ⟨prs, applied, hro, hns⟩ := nodeRemovedDispatch_cases cfg s id2 act2 ns hdsp
      rw [hns]
      by_cases hb : (standardDispatch cfg).engineApplies = true
      · rw [if_pos hb]
        obtain ⟨idx, nd, hidx, hnd0, hndid, henum, happ⟩ :=
          removeNodeOp_cases s id2 prs applied hro
        rw [happ, map_eraseIdx, foldRemove_map_id]
        exact le_trans ((List.eraseIdx_sublist _ idx).count_le idq) (hcnt idq)
      · rw [if_neg hb]; exact hcnt idq

theorem runOps_preserves_single (cfg : ConfigM) (nodes : List NodeM) (aId : String)
    (j : Nat) (c : Conn) (ops : List EngineOp)
    (hcnt : ∀ idq, (nodes.map NodeM.id).count idq ≤ 1)
    (hval : inputConnAt nodes aId j = some (ConnVal.single c))
    (hops : ∀ op ∈ ops,
      (∀ i o, op = EngineOp.removeConn i o → ¬(i.nodeId = aId ∧ i.port = j)) ∧
      (∀ id2, op = EngineOp.removeNode id2 → id2 ≠ aId ∧ id2 ≠ c.nodeId)) :
    inputConnAt (runOps cfg nodes ops) aId j = some (ConnVal.single c) := by
  induction ops generalizing nodes with
  | nil => exact hval
  | cons op ops ih =>
    show inputConnAt (runOps cfg (applyOp cfg nodes op) ops) aId j
      = some (ConnVal.single c)
    refine ih (applyOp cfg nodes op) (fun idq => applyOp_count_le cfg nodes op hcnt idq)
      ?_ (fun op2 h2 => hops op2 (List.mem_cons_of_mem _ h2))
    exact applyOp_preserves_single cfg nodes aId j c op hcnt hval
      (hops op (List.mem_cons_self _ _)).1 (hops op (List.mem_cons_self _ _)).2

/-- C3 counterexample: a port that starts single-valued holds TWO connections
after the sequence [remove its connection, reconnect, connect a second
source]: `removeFromArrayOrValue` turns the single value into `undefined`,
and `createConnection` then converts to an array and pushes without bound. -/
theorem c3_arity_cex :
    (inputConnAt
      [⟨"A", "A", none, none, [⟨"i", ConnVal.single ⟨"B", 0, none, none⟩⟩], []⟩,
       ⟨"B", "B", none, none, [], [⟨"o", ConnVal.single ⟨"A", 0, none, none⟩⟩]⟩,
       ⟨"C", "C", none, none, [], [⟨"o", ConnVal.undef⟩]⟩] "A" 0
      = some (ConnVal.single ⟨"B", 0, none, none⟩)) ∧
    ((inputConnAt
      (runOps ⟨false, false, false, none⟩
        [⟨"A", "A", none, none, [⟨"i", ConnVal.single ⟨"B", 0, none, none⟩⟩], []⟩,
         ⟨"B", "B", none, none, [], [⟨"o", ConnVal.single ⟨"A", 0, none, none⟩⟩]⟩,
         ⟨"C", "C", none, none, [], [⟨"o", ConnVal.undef⟩]⟩]
        [EngineOp.removeConn (mkInEp "A" 0) (mkOutEp "B" 0),
         EngineOp.create (mkInEp "A" 0) (mkOutEp "B" 0),
         EngineOp.create (mkInEp "A" 0) (mkOutEp "C" 0)]) "A" 0).map
      (fun v => (connListOf v).length) = some 2) := by decide



/-! ### Output-side analogues for the arity invariant -/

theorem peerPairsFromOutput_snd (ndId : String) (o : Nat) (peers : List NodeM)
    (M : List (EndpointM × EndpointM)) (h : peerPairsFromOutput ndId o peers = some M)
    (pr : EndpointM × EndpointM) (hpr : pr ∈ M) : pr.2 = mkOutEp ndId o := by
  induction peers generalizing M with
  | nil =>
    unfold peerPairsFromOutput at h
    injection h with h
    rw [← h] at hpr
    simp at hpr
  | cons q rest ih =>
    unfold peerPairsFromOutput at h
    cases hq1 : filterIdxsO ndId q.inputs with
    | none =>
      rw [hq1] at h
      have h2 : (none : Option (List (EndpointM × EndpointM))) = some M := h
      exact Option.noConfusion h2
    | some idxs =>
      rw [hq1] at h
      cases hrec : peerPairsFromOutput ndId o rest with
      | none =>
        rw [hrec] at h
        have h2 : (none : Option (List (EndpointM × EndpointM))) = some M := h
        exact Option.noConfusion h2
      | some t =>
        rw [hrec] at h
        have h2 : some ((idxs.map fun j2 => (mkInEp q.id j2, mkOutEp ndId o)) ++ t)
            = some M := h
        injection h2 with h2
        rw [← h2] at hpr
        rcases List.mem_append.mp hpr with hl | hr
        · obtain ⟨j2, hj2, hpe⟩ := List.mem_map.mp hl
          rw [← hpe]
        · apply ih <;> assumption

theorem enumOutputsGo_snd (nodes : List NodeM) (ndId : String) (o0 : Nat)
    (ports : List PortM) (L : List (EndpointM × EndpointM))
    (h : enumOutputsGo nodes ndId o0 ports = some L)
    (pr : EndpointM × EndpointM) (hpr : pr ∈ L) : pr.2.nodeId = ndId := by
  induction ports generalizing o0 L with
  | nil =>
    unfold enumOutputsGo at h
    injection h with h
    rw [← h] at hpr
    simp at hpr
  | cons q rest ih =>
    unfold enumOutputsGo at h
    by_cases hemp : isEmptyArrayOrUndefined q.connection = true
    · rw [if_pos hemp] at h
      apply ih <;> assumption
    · rw [if_neg hemp] at h
      cases hpp : peerPairsFromOutput ndId o0 (nodes.filter (nodeIdPredicateB q.connection)) with
      | none =>
        rw [hpp] at h
        have h2 : (none : Option (List (EndpointM × EndpointM))) = some L := h
        exact Option.noConfusion h2
      | some prs =>
        rw [hpp] at h
        cases hrec : enumOutputsGo nodes ndId (o0 + 1) rest with
        | none =>
          rw [hrec] at h
          have h2 : (none : Option (List (EndpointM × EndpointM))) = some L := h
          exact Option.noConfusion h2
        | some t =>
          rw [hrec] at h
          have h2 : some (prs ++ t) = some L := h
          injection h2 with h2
          rw [← h2] at hpr
          rcases List.mem_append.mp hpr with hl | hr
          · have he := peerPairsFromOutput_snd ndId o0 _ prs hpp pr hl
            rw [he]
            rfl
          · apply ih <;> assumption

theorem peerPairsFromInput_rev (ndId : String) (i : Nat) (peers : List NodeM)
    (M : List (EndpointM × EndpointM)) (h : peerPairsFromInput ndId i peers = some M)
    (pr : EndpointM × EndpointM) (hpr : pr ∈ M) :
    ∃ peer ∈ peers, ∃ o2 p, pr.2 = mkOutEp peer.id o2 ∧
      peer.outputs.get? o2 = some p ∧ epPredicateO ndId none p = some true := by
  induction peers generalizing M with
  | nil =>
    unfold peerPairsFromInput at h
    injection h with h
    rw [← h] at hpr
    simp at hpr
  | cons q rest ih =>
    unfold peerPairsFromInput at h
    cases hq1 : filterIdxsO ndId q.outputs with
    | none =>
      rw [hq1] at h
      have h2 : (none : Option (List (EndpointM × EndpointM))) = some M := h
      exact Option.noConfusion h2
    | some idxs =>
      rw [hq1] at h
      cases hrec : peerPairsFromInput ndId i rest with
      | none =>
        rw [hrec] at h
        have h2 : (none : Option (List (EndpointM × EndpointM))) = some M := h
        exact Option.noConfusion h2
      | some t =>
        rw [hrec] at h
        have h2 : some ((idxs.map fun o2 => (mkInEp ndId i, mkOutEp q.id o2)) ++ t)
            = some M := h
        injection h2 with h2
        rw [← h2] at hpr
        rcases List.mem_append.mp hpr with hl | hr
        · obtain ⟨o2, ho2, hpe⟩ := List.mem_map.mp hl
          obtain ⟨d, p, hp, hd, hq⟩ := filterIdxsGo_rev ndId 0 q.outputs idxs hq1 o2 ho2
          rw [Nat.zero_add] at hd
          refine ⟨q, List.mem_cons_self _ _, o2, p, ?_, ?_, hq⟩
          · rw [← hpe]
          · rw [hd]
            exact hp
        · have hrev : ∃ peer ∈ rest, ∃ o2 p, pr.2 = mkOutEp peer.id o2 ∧
              peer.outputs.get? o2 = some p ∧ epPredicateO ndId none p = some true := by
            apply ih <;> assumption
          obtain ⟨peer, hpm, rest2⟩ := hrev
          exact ⟨peer, List.mem_cons_of_mem _ hpm, rest2⟩

theorem enumInputsGo_snd (nodes : List NodeM) (ndId : String) (i0 : Nat)
    (ports : List PortM) (L : List (EndpointM × EndpointM))
    (h : enumInputsGo nodes ndId i0 ports = some L)
    (pr : EndpointM × EndpointM) (hpr : pr ∈ L) :
    ∃ peer ∈ nodes, ∃ o2 p, pr.2 = mkOutEp peer.id o2 ∧
      peer.outputs.get? o2 = some p ∧ epPredicateO ndId none p = some true := by
  induction ports generalizing i0 L with
  | nil =>
    unfold enumInputsGo at h
    injection h with h
    rw [← h] at hpr
    simp at hpr
  | cons q rest ih =>
    unfold enumInputsGo at h
    by_cases hemp : isEmptyArrayOrUndefined q.connection = true
    · rw [if_pos hemp] at h
      apply ih <;> assumption
    · rw [if_neg hemp] at h
      cases hpp : peerPairsFromInput ndId i0 (nodes.filter (nodeIdPredicateB q.connection)) with
      | none =>
        rw [hpp] at h
        have h2 : (none : Option (List (EndpointM × EndpointM))) = some L := h
        exact Option.noConfusion h2
      | some prs =>
        rw [hpp] at h
        cases hrec : enumInputsGo nodes ndId (i0 + 1) rest with
        | none =>
          rw [hrec] at h
          have h2 : (none : Option (List (EndpointM × EndpointM))) = some L := h
          exact Option.noConfusion h2
        | some t =>
          rw [hrec] at h
          have h2 : some (prs ++ t) = some L := h
          injection h2 with h2
          rw [← h2] at hpr
          rcases List.mem_append.mp hpr with hl | hr
          · obtain ⟨peer, hpm, rest2⟩ := peerPairsFromInput_rev ndId i0 _ prs hpp pr hl
            exact ⟨peer, (List.mem_filter.mp hpm).1, rest2⟩
          · apply ih <;> assumption

theorem outputConnAt_eraseIdx (s : List NodeM) (k : Nat) (b : NodeM) (aId : String)
    (j : Nat) (hg : s.get? k = some b) (hne : b.id ≠ aId) :
    outputConnAt (s.eraseIdx k) aId j = outputConnAt s aId j := by
  unfold outputConnAt findNode
  rw [find?_eraseIdx s _ k b hg (by simp [hne])]

theorem outputConnAt_foldRemove_preserved (l : List (EndpointM × EndpointM))
    (s : List NodeM) (aId : String) (j : Nat)
    (hl : ∀ pr ∈ l, ¬(pr.2.nodeId = aId ∧ pr.2.port = j)) :
    outputConnAt (l.foldl (fun acc pr => removeConnection acc pr.1 pr.2) s) aId j
      = outputConnAt s aId j := by
  induction l generalizing s with
  | nil => rfl
  | cons pr l ih =>
    rw [List.foldl_cons, ih _ (fun pr2 h2 => hl pr2 (List.mem_cons_of_mem _ h2))]
    refine outputConnAt_removeConnection_other s pr.1 pr.2 aId j ?_
    have hh := hl pr (List.mem_cons_self _ _)
    rcases not_and_or.mp hh with h | h
    · exact Or.inl (fun he => h he.symm)
    · exact Or.inr (fun he => h he.symm)

theorem outputConnAt_elim (s : List NodeM) (aId : String) (j : Nat) (v : ConnVal)
    (h : outputConnAt s aId j = some v) :
    ∃ A pA, findNode s aId = some A ∧ A.outputs.get? j = some pA ∧
      pA.connection = v := by
  unfold outputConnAt at h
  cases hf : findNode s aId with
  | none => rw [hf] at h; exact absurd h (by simp)
  | some A =>
    rw [hf] at h
    have h2 : (A.outputs.get? j).map (fun p => p.connection) = some v := h
    cases hp : A.outputs.get? j with
    | none => rw [hp] at h2; exact absurd h2 (by simp)
    | some pA =>
      rw [hp] at h2
      have h3 : some pA.connection = some v := h2
      injection h3 with h3
      exact ⟨A, pA, rfl, hp, h3⟩

theorem outputConnAt_applyCC_other (s : List NodeM) (i o : EndpointM)
    (aId : String) (j : Nat) (h : aId ≠ o.nodeId ∨ j ≠ o.port) :
    outputConnAt (applyConnectionCreated s i o) aId j = outputConnAt s aId j := by
  unfold applyConnectionCreated
  rw [outputConnAt_modifyOutputConn_other _ _ _ _ _ _ h, outputConnAt_modifyInputConn]

theorem applyOp_preserves_single_out (cfg : ConfigM) (s : List NodeM) (aId : String)
    (j : Nat) (c : Conn) (op : EngineOp)
    (hcnt : ∀ idq, (s.map NodeM.id).count idq ≤ 1)
    (hval : outputConnAt s aId j = some (ConnVal.single c))
    (hop1 : ∀ i o, op = EngineOp.removeConn i o → ¬(o.nodeId = aId ∧ o.port = j))
    (hop2 : ∀ id2, op = EngineOp.removeNode id2 → id2 ≠ aId ∧ id2 ≠ c.nodeId) :
    outputConnAt (applyOp cfg s op) aId j = some (ConnVal.single c) := by
  obtain ⟨A, pA, hfA, hpA, hcA⟩ := outputConnAt_elim s aId j _ hval
  cases op with
  | create i o =>
    show outputConnAt (match createConnection cfg s i o with
      | some (_, ns) => ns | none => s) aId j = some (ConnVal.single c)
    cases hcc : createConnection cfg s i o with
    | none => exact hval
    | some r =>
      obtain ⟨act, ns⟩ := r
      show outputConnAt ns aId j = some (ConnVal.single c)
      rcases createConnection_snd_cases cfg s i o act ns hcc with
        he | ⟨he, -, nOut, pOut, hfo, hpo, harr⟩
      · rw [he]; exact hval
      · rw [he]
        have hdisj : aId ≠ o.nodeId ∨ j ≠ o.port := by
          by_cases hni : aId = o.nodeId
          · refine Or.inr ?_
            intro hj
            rw [← hni] at hfo
            rw [hfA] at hfo
            injection hfo with hfo
            rw [← hfo, ← hj, hpA] at hpo
            injection hpo with hpo
            rw [← hpo, hcA] at harr
            have hx : false = true := harr
            exact Bool.noConfusion hx
          · exact Or.inl hni
        rw [outputConnAt_applyCC_other s i o aId j hdisj]
        exact hval
  | removeConn i o =>
    rw [applyOp_removeConn_eq]
    by_cases hb : (standardDispatch cfg).engineApplies = true
    · rw [if_pos hb]
      refine (outputConnAt_removeConnection_other s i o aId j ?_).trans hval
      have hh := hop1 i o rfl
      rcases not_and_or.mp hh with h | h
      · exact Or.inl (fun he => h he.symm)
      · exact Or.inr (fun he => h he.symm)
    · rw [if_neg hb]
      exact hval
  | removeNode id2 =>
    show outputConnAt (match nodeRemovedDispatch cfg s id2 with
      | some (_, ns) => ns | none => s) aId j = some (ConnVal.single c)
    cases hdsp : nodeRemovedDispatch cfg s id2 with
    | none => exact hval
    | some r =>
      obtain ⟨act2, ns⟩ := r
      show outputConnAt ns aId j = some (ConnVal.single c)
      obtain ⟨prs, applied, hro, hns⟩ := nodeRemovedDispatch_cases cfg s id2 act2 ns hdsp
      rw [hns]
      by_cases hb : (standardDispatch cfg).engineApplies = true
      · rw [if_pos hb]
        obtain ⟨idx, nd, hidx, hnd0, hndid, henum, happ⟩ :=
          removeNodeOp_cases s id2 prs applied hro
        obtain ⟨hne1, hne2⟩ := hop2 id2 rfl
        obtain ⟨aIn, bOut, hIa, hOb, hsplit⟩ := enumeratePairs_eq s nd prs henum
        have hl : ∀ pr ∈ prs, ¬(pr.2.nodeId = aId ∧ pr.2.port = j) := by
          intro pr hpr hq
          obtain ⟨hq1, hq2⟩ := hq
          rw [hsplit] at hpr
          rcases List.mem_append.mp hpr with hin | hout
          · obtain ⟨peer, hpm, o2, p, hpr2, hpg, hpe⟩ :=
              enumInputsGo_snd s nd.id 0 nd.inputs aIn hIa pr hin
            have hpid : peer.id = aId := by rw [← hq1, hpr2]; rfl
            have ho2 : o2 = j := by rw [← hq2, hpr2]; rfl
            have hfp : findNode s peer.id = some peer := findNode_eq_of_mem s peer hpm hcnt
            rw [hpid] at hfp
            rw [hfA] at hfp
            injection hfp with hfp
            rw [ho2] at hpg
            rw [← hfp] at hpg
            rw [hpA] at hpg
            injection hpg with hpg
            rw [← hpg] at hpe
            unfold epPredicateO at hpe
            rw [hcA] at hpe
            have hpe2 : some (compEp nd.id none c) = some true := hpe
            injection hpe2 with hpe2
            unfold compEp at hpe2
            have hpe3 : (true && (c.nodeId == nd.id)) = true := hpe2
            rw [Bool.true_and] at hpe3
            have hcnd : c.nodeId = nd.id := eq_of_beq hpe3
            rw [hndid] at hcnd
            exact hne2 hcnd.symm
          · have hthis := enumOutputsGo_snd s nd.id 0 nd.outputs bOut hOb pr hout
            rw [hq1] at hthis
            rw [hndid] at hthis
            exact hne1 hthis.symm
        have hpres := outputConnAt_foldRemove_preserved prs s aId j hl
        have hFg : ((prs.foldl (fun acc pr => removeConnection acc pr.1 pr.2) s).map
            NodeM.id).get? idx = some id2 := by
          rw [foldRemove_map_id, List.get?_map, hnd0]
          show some nd.id = some id2
          rw [hndid]
        cases hFgx : (prs.foldl (fun acc pr => removeConnection acc pr.1 pr.2) s).get? idx with
        | none =>
          rw [List.get?_map, hFgx] at hFg
          exact absurd hFg (by simp)
        | some ndF =>
          rw [List.get?_map, hFgx] at hFg
          have hFg2 : some ndF.id = some id2 := hFg
          injection hFg2 with hFg2
          rw [happ]
          rw [outputConnAt_eraseIdx _ idx ndF aId j hFgx (by rw [hFg2]; exact hne1)]
          rw [hpres]
          exact hval
      · rw [if_neg hb]
        exact hval

theorem runOps_preserves_single_out (cfg : ConfigM) (nodes : List NodeM) (aId : String)
    (j : Nat) (c : Conn) (ops : List EngineOp)
    (hcnt : ∀ idq, (nodes.map NodeM.id).count idq ≤ 1)
    (hval : outputConnAt nodes aId j = some (ConnVal.single c))
    (hops : ∀ op ∈ ops,
      (∀ i o, op = EngineOp.removeConn i o → ¬(o.nodeId = aId ∧ o.port = j)) ∧
      (∀ id2, op = EngineOp.removeNode id2 → id2 ≠ aId ∧ id2 ≠ c.nodeId)) :
    outputConnAt (runOps cfg nodes ops) aId j = some (ConnVal.single c) := by
  induction ops generalizing nodes with
  | nil => exact hval
  | cons op ops ih =>
    show outputConnAt (runOps cfg (applyOp cfg nodes op) ops) aId j
      = some (ConnVal.single c)
    refine ih (applyOp cfg nodes op) (fun idq => applyOp_count_le cfg nodes op hcnt idq)
      ?_ (fun op2 h2 => hops op2 (List.mem_cons_of_mem _ h2))
    exact applyOp_preserves_single_out cfg nodes aId j c op hcnt hval
      (hops op (List.mem_cons_self _ _)).1 (hops op (List.mem_cons_self _ _)).2

/-- C3: the arity invariant holds only in the restricted form the code
actually guarantees, and it holds for single-valued ports of either
direction: with distinct node ids, an input port or an output port holding
a single (non-sequence) connection value keeps exactly that value - in
particular never more than one connection - across any sequence of engine
operations that contains no connection removal targeting that port and no
removal of its own node or of its stored peer's node.  (Without the
restriction the invariant is false: removal converts the port to
`undefined`, after which creations make it a growing array - see the
counterexample.) -/
theorem c3_arity (cfg : ConfigM) (nodes : List NodeM) (aId : String) (j : Nat)
    (c : Conn) (ops : List EngineOp)
    (hnd : nodupIdsB nodes = true)
    (hopsN : ∀ op ∈ ops, ∀ id2, op = EngineOp.removeNode id2 →
      id2 ≠ aId ∧ id2 ≠ c.nodeId) :
    ((∀ op ∈ ops, ∀ i o, op = EngineOp.removeConn i o →
        ¬(i.nodeId = aId ∧ i.port = j)) →
      inputConnAt nodes aId j = some (ConnVal.single c) →
      inputConnAt (runOps cfg nodes ops) aId j = some (ConnVal.single c) ∧
      ∀ v, inputConnAt (runOps cfg nodes ops) aId j = some v →
        (connListOf v).length ≤ 1) ∧
    ((∀ op ∈ ops, ∀ i o, op = EngineOp.removeConn i o →
        ¬(o.nodeId = aId ∧ o.port = j)) →
      outputConnAt nodes aId j = some (ConnVal.single c) →
      outputConnAt (runOps cfg nodes ops) aId j = some (ConnVal.single c) ∧
      ∀ v, outputConnAt (runOps cfg nodes ops) aId j = some v →
        (connListOf v).length ≤ 1) := by
  constructor
  · intro hopsC hval
    have h1 := runOps_preserves_single cfg nodes aId j c ops
      (count_le_one_of_nodupIdsB nodes hnd) hval
      (fun op hop => ⟨hopsC op hop, hopsN op hop⟩)
    refine ⟨h1, ?_⟩
    intro v hv
    rw [h1] at hv
    injection hv with hv
    rw [← hv]
    exact Nat.le_refl 1
  · intro hopsC hval
    have h1 := runOps_preserves_single_out cfg nodes aId j c ops
      (count_le_one_of_nodupIdsB nodes hnd) hval
      (fun op hop => ⟨hopsC op hop, hopsN op hop⟩)
    refine ⟨h1, ?_⟩
    intro v hv
    rw [h1] at hv
    injection hv with hv
    rw [← hv]
    exact Nat.le_refl 1

theorem c3_arity_witness :
    nodupIdsB
      [⟨"A", "A", none, none, [⟨"i", ConnVal.undef⟩], []⟩,
       ⟨"B", "B", none, none, [], [⟨"o", ConnVal.single ⟨"A", 0, none, none⟩⟩]⟩] = true ∧
    outputConnAt
      (runOps ⟨false, false, false, none⟩
        [⟨"A", "A", none, none, [⟨"i", ConnVal.undef⟩], []⟩,
         ⟨"B", "B", none, none, [], [⟨"o", ConnVal.single ⟨"A", 0, none, none⟩⟩]⟩]
        [EngineOp.create (mkInEp "A" 0) (mkOutEp "B" 0)]) "B" 0
      = some (ConnVal.single ⟨"A", 0, none, none⟩) :=
  ⟨by decide,
    ((c3_arity ⟨false, false, false, none⟩
      [⟨"A", "A", none, none, [⟨"i", ConnVal.undef⟩], []⟩,
       ⟨"B", "B", none, none, [], [⟨"o", ConnVal.single ⟨"A", 0, none, none⟩⟩]⟩]
      "B" 0 ⟨"A", 0, none, none⟩
      [EngineOp.create (mkInEp "A" 0) (mkOutEp "B" 0)]
      (by decide)
      (fun op hop => by
        have he : op = EngineOp.create (mkInEp "A" 0) (mkOutEp "B" 0) :=
          List.mem_singleton.mp hop
        subst he
        exact fun id2 h => EngineOp.noConfusion h)).2
      (fun op hop => by
        have he : op = EngineOp.create (mkInEp "A" 0) (mkOutEp "B" 0) :=
          List.mem_singleton.mp hop
        subst he
        exact fun i o h => EngineOp.noConfusion h)
      (by decide)).1⟩
